import Mathlib

/-!
Verification development for the `rustflags` crate: a byte-level shallow
embedding of the CARGO_ENCODED_RUSTFLAGS codec (src/string.rs, src/parse.rs,
src/render.rs, src/lib.rs) together with proofs about it.

Platform strings (`OsStr`) are modelled as lists of natural numbers, one per
byte; valid inputs use values below 256 but no definition depends on that
bound.  Decoded Rust `String` payloads are modelled as Lean `String`
(`List Char` based), `PathBuf` and `OsString` payloads stay raw byte lists.
-/

namespace Rustflags

/-- Raw platform-string bytes (the model of `EnvStr` from src/string.rs). -/
abbrev EStr := List Nat

/-- The token delimiter `'\x1F'` used by CARGO_ENCODED_RUSTFLAGS. -/
def sepChar : Char := Char.ofNat 31

/-- Whether a byte is a UTF-8 continuation byte (0x80..=0xBF). -/
def contB (b : Nat) : Bool := 0x80 ≤ b && b ≤ 0xBF

/-- UTF-8 encoding of one scalar value, as Rust's `char::encode_utf8`. -/
def utf8EncodeChar (c : Char) : List Nat :=
  let n := c.toNat
  if n ≤ 0x7F then [n]
  else if n ≤ 0x7FF then [0xC0 + n / 0x40, 0x80 + n % 0x40]
  else if n ≤ 0xFFFF then [0xE0 + n / 0x1000, 0x80 + n / 0x40 % 0x40, 0x80 + n % 0x40]
  else [0xF0 + n / 0x40000, 0x80 + n / 0x1000 % 0x40, 0x80 + n / 0x40 % 0x40, 0x80 + n % 0x40]

/-- Decode the first UTF-8 scalar from a byte list, returning the character
and the number of bytes it occupies; `none` when the head of the list is not
a complete well-formed UTF-8 sequence (same acceptance as Rust
`str::from_utf8`: no overlong forms, no surrogates, nothing above U+10FFFF). -/
def utf8DecodeFirst (l : List Nat) : Option (Char × Nat) :=
  match l[0]? with
  | none => none
  | some b0 =>
    if b0 ≤ 0x7F then some (Char.ofNat b0, 1)
    else if 0xC2 ≤ b0 ∧ b0 ≤ 0xDF then
      match l[1]? with
      | some b1 =>
        if 0x80 ≤ b1 ∧ b1 ≤ 0xBF then
          some (Char.ofNat ((b0 - 0xC0) * 0x40 + (b1 - 0x80)), 2)
        else none
      | none => none
    else if 0xE0 ≤ b0 ∧ b0 ≤ 0xEF then
      match l[1]?, l[2]? with
      | some b1, some b2 =>
        if (if b0 = 0xE0 then 0xA0 ≤ b1 ∧ b1 ≤ 0xBF
            else if b0 = 0xED then 0x80 ≤ b1 ∧ b1 ≤ 0x9F
            else 0x80 ≤ b1 ∧ b1 ≤ 0xBF) ∧ (0x80 ≤ b2 ∧ b2 ≤ 0xBF) then
          some (Char.ofNat ((b0 - 0xE0) * 0x1000 + (b1 - 0x80) * 0x40 + (b2 - 0x80)), 3)
        else none
      | _, _ => none
    else if 0xF0 ≤ b0 ∧ b0 ≤ 0xF4 then
      match l[1]?, l[2]?, l[3]? with
      | some b1, some b2, some b3 =>
        if (if b0 = 0xF0 then 0x90 ≤ b1 ∧ b1 ≤ 0xBF
            else if b0 = 0xF4 then 0x80 ≤ b1 ∧ b1 ≤ 0x8F
            else 0x80 ≤ b1 ∧ b1 ≤ 0xBF) ∧ (0x80 ≤ b2 ∧ b2 ≤ 0xBF) ∧ (0x80 ≤ b3 ∧ b3 ≤ 0xBF) then
          some (Char.ofNat
              ((b0 - 0xF0) * 0x40000 + (b1 - 0x80) * 0x1000 + (b2 - 0x80) * 0x40 + (b3 - 0x80)), 4)
        else none
      | _, _, _ => none
    else none

/-- Decode a whole byte list as UTF-8 text (fuelled by the list length; each
step consumes at least one byte, so the fuel is always sufficient). -/
def utf8DecodeAux : Nat → List Nat → Option (List Char)
  | _, [] => some []
  | 0, _ :: _ => none
  | fuel + 1, l =>
    match utf8DecodeFirst l with
    | some (c, k) => (utf8DecodeAux fuel (l.drop k)).map (c :: ·)
    | none => none

/-- The model of `EnvStr::to_str` (src/string.rs line 83): the borrowed text
when the whole byte list is valid UTF-8, otherwise nothing. -/
def toStr (e : EStr) : Option String := (utf8DecodeAux e.length e).map String.mk

/-- Whether a byte list is valid UTF-8 (Rust `str::from_utf8(..).is_ok()`). -/
def isUtf8 (e : EStr) : Bool := (toStr e).isSome

/-- The model of `EnvChar` (src/string.rs line 145). -/
inductive EnvChar where
  | valid (c : Char)
  | invalid
deriving DecidableEq

/-- The model of `EnvStr::first_char` (src/string.rs line 61).  The source
runs `str::from_utf8` on the first `min(len, 4)` bytes and takes the first
character of the valid prefix, reporting `Invalid` when `valid_up_to` is 0;
since a UTF-8 character occupies at most 4 bytes this is the same as decoding
one character at the front of the buffer. -/
def envFirstChar (e : EStr) : Option EnvChar :=
  match e with
  | [] => none
  | _ :: _ =>
    match utf8DecodeFirst e with
    | some (c, _) => some (.valid c)
    | none => some .invalid

/-- Byte-list prefix test (pattern first). -/
def listStartsWith : List Nat → List Nat → Bool
  | [], _ => true
  | _ :: _, [] => false
  | p :: ps, x :: xs => p == x && listStartsWith ps xs

/-- The model of `EnvStr::find` (src/string.rs line 38): scan every byte
offset for the UTF-8 byte pattern of the needle character. -/
def envFindAux (pat : List Nat) : List Nat → Option Nat
  | [] => none
  | x :: xs =>
    if listStartsWith pat (x :: xs) then some 0 else (envFindAux pat xs).map (· + 1)

/-- `EnvStr::find(ch)`. -/
def envFind (e : EStr) (c : Char) : Option Nat := envFindAux (utf8EncodeChar c) e

/-- The model of `EnvStr::starts_with` (src/string.rs line 49). -/
def envStartsWith (e : EStr) (c : Char) : Bool := listStartsWith (utf8EncodeChar c) e

/-- The model of `EnvStr::ends_with` (src/string.rs line 55). -/
def listEndsWith (pat l : List Nat) : Bool :=
  decide (pat.length ≤ l.length) && decide (l.drop (l.length - pat.length) = pat)

/-- `EnvStr::ends_with(ch)`. -/
def envEndsWith (e : EStr) (c : Char) : Bool := listEndsWith (utf8EncodeChar c) e

/-- Byte-range slice `e[a..b]` (the data part of `Index<Range<usize>>`). -/
def extract (e : EStr) (a b : Nat) : EStr := (e.drop a).take (b - a)

/-- The character-boundary assertion of `Index<Range<usize>> for EnvStr`
(src/string.rs lines 113-126) for one endpoint `i`: the buffer edge, or a
window of 1..=4 bytes on either side of `i` that decodes as valid UTF-8
(`get` returns nothing when a window extends outside the buffer, and
`wrapping_sub` lets a backward window underflow to an out-of-range start). -/
def boundaryOK (e : EStr) (i : Nat) : Bool :=
  i == 0 || i == e.length ||
  (decide (i + 1 ≤ e.length) && isUtf8 (extract e i (i + 1))) ||
  (decide (i + 2 ≤ e.length) && isUtf8 (extract e i (i + 2))) ||
  (decide (i + 3 ≤ e.length) && isUtf8 (extract e i (i + 3))) ||
  (decide (i + 4 ≤ e.length) && isUtf8 (extract e i (i + 4))) ||
  (decide (1 ≤ i) && decide (i ≤ e.length) && isUtf8 (extract e (i - 1) i)) ||
  (decide (2 ≤ i) && decide (i ≤ e.length) && isUtf8 (extract e (i - 2) i)) ||
  (decide (3 ≤ i) && decide (i ≤ e.length) && isUtf8 (extract e (i - 3) i)) ||
  (decide (4 ≤ i) && decide (i ≤ e.length) && isUtf8 (extract e (i - 4) i))

/-- Fatal failures of the parser model: `panic` covers the boundary
assertion, out-of-range slicing, the `first_char().unwrap()` and the
`usize` subtraction in the repeat rewind; `fuel` marks an exhausted
iteration budget (never reached with the canonical budget, as proved). -/
inductive PErr where
  | panic
  | fuel
deriving DecidableEq

/-- The model of `Index<Range<usize>> for EnvStr` (src/string.rs line 104):
assert both endpoints are character-boundary aligned, then slice (an
ill-formed or out-of-range range is itself a panic in Rust). -/
def envIndexE (e : EStr) (a b : Nat) : Except PErr EStr :=
  if boundaryOK e a && boundaryOK e b then
    if a ≤ b && b ≤ e.length then .ok (extract e a b) else .error .panic
  else .error .panic

/-- The model of `EnvStr::split_once` (src/string.rs line 78): find the
needle, then return `self[..i]` and `self[i + ch.len_utf8()..]`.  The two
slices are modelled totally; every needle used by the crate is ASCII, for
which the boundary assertions inside the two index operations always pass
(theorem `envSplitOnce_checked` below). -/
def envSplitOnce (e : EStr) (c : Char) : Option (EStr × EStr) :=
  match envFind e c with
  | some i => some (extract e 0 i, extract e (i + (utf8EncodeChar c).length) e.length)
  | none => none

/-- `str::split_once(char)` on decoded text, char-wise (the pattern is a
single character, so byte-wise and char-wise splitting agree). -/
def charsSplitOnce (c : Char) : List Char → Option (List Char × List Char)
  | [] => none
  | x :: xs =>
    if x = c then some ([], xs)
    else (charsSplitOnce c xs).map (fun p => (x :: p.1, p.2))

/-- `str::split_once(char)` wrapped for `String`. -/
def strSplitOnce (s : String) (c : Char) : Option (String × String) :=
  (charsSplitOnce c s.data).map (fun p => (String.mk p.1, String.mk p.2))

/-- `str::split(char)`: the list of separated pieces (an empty string yields
one empty piece, as in Rust). -/
def charsSplit (c : Char) : List Char → List (List Char)
  | [] => [[]]
  | x :: xs =>
    match charsSplit c xs with
    | [] => [[x]]
    | r :: rs => if x = c then [] :: r :: rs else (x :: r) :: rs

/-- Byte length of decoded text (`str::len`). -/
def charsByteLen (l : List Char) : Nat :=
  (l.map (fun c => (utf8EncodeChar c).length)).sum

/-- `str::find(char)` returning the byte offset of the first occurrence. -/
def charsFindByte (c : Char) : List Char → Option Nat
  | [] => none
  | x :: xs =>
    if x = c then some 0 else (charsFindByte c xs).map (· + (utf8EncodeChar x).length)

/-- Drop the characters covering the first `a` bytes of decoded text (the
start of a `str` byte-range slice; callers only use character-aligned
offsets, which Rust enforces with a panic). -/
def charsDropBytes : Nat → List Char → List Char
  | 0, l => l
  | _, [] => []
  | a + 1, x :: xs => charsDropBytes (a + 1 - (utf8EncodeChar x).length) xs

/-- Take the characters covering the first `b` bytes of decoded text (the
end of a `str` byte-range slice). -/
def charsTakeBytes : Nat → List Char → List Char
  | 0, _ => []
  | _, [] => []
  | b + 1, x :: xs => x :: charsTakeBytes (b + 1 - (utf8EncodeChar x).length) xs

/-- UTF-8 bytes of a Lean string (the bytes of the corresponding Rust
`String` / `OsString`). -/
def strBytes (s : String) : EStr := (s.data.map utf8EncodeChar).flatten

/-- Numeric value of an ASCII digit. -/
def digitVal (c : Char) : Option Nat :=
  if '0' ≤ c ∧ c ≤ '9' then some (c.toNat - 48) else none

/-- Digit-folding loop of Rust's `u16::from_str` with checked arithmetic:
`checked_mul(10)` then `checked_add(d)`, failing as soon as the accumulator
would exceed `u16::MAX`. -/
def parseU16Digits : List Char → Nat → Option Nat
  | [], acc => some acc
  | c :: cs, acc =>
    match digitVal c with
    | some d => if acc * 10 + d ≤ 65535 then parseU16Digits cs (acc * 10 + d) else none
    | none => none

/-- The model of `str::parse::<u16>()`: an optional leading `'+'` (a lone
sign is rejected, and `'-'` is rejected outright for an unsigned type)
followed by one or more ASCII digits, with overflow checked against
`u16::MAX`. -/
def parseU16 (s : String) : Option Nat :=
  match s.data with
  | [] => none
  | '+' :: rest => if rest = [] then none else parseU16Digits rest 0
  | '-' :: _ => none
  | l => parseU16Digits l 0

/-- Argument of `-L` (lib.rs line 356). -/
inductive LibraryKind where
  | dependency
  | crateKind
  | native
  | framework
  | all
deriving DecidableEq

/-- Argument of `-l` (lib.rs line 390). -/
inductive LinkKind where
  | staticKind
  | framework
  | dylib
deriving DecidableEq

/-- `LinkKind::default()` is `Dylib` (lib.rs line 399). -/
def linkKindDefault : LinkKind := LinkKind.dylib

/-- The `+`/`-` modifier sign of `-l` (lib.rs `LinkModifierPrefix`). -/
inductive LinkModSign where
  | enable
  | disable
deriving DecidableEq

/-- Modifier of `-l` (lib.rs line 436). -/
inductive LinkModifier where
  | bundle
  | verbatim
  | wholeArchive
  | asNeeded
deriving DecidableEq

/-- Argument of `--crate-type` (lib.rs line 461). -/
inductive CrateType where
  | bin
  | lib
  | rlib
  | dylib
  | cdylib
  | staticlib
  | procMacro
deriving DecidableEq

/-- Argument of `--emit` (lib.rs line 495). -/
inductive Emit where
  | asm
  | llvmBc
  | llvmIr
  | obj
  | metadata
  | link
  | depInfo
  | mir
deriving DecidableEq

/-- Argument of `--cap-lints` (lib.rs line 531). -/
inductive LintLevel where
  | allow
  | warn
  | deny
  | forbid
deriving DecidableEq

/-- Argument of `--error-format` (lib.rs line 556). -/
inductive ErrorFormat where
  | human
  | json
  | short
deriving DecidableEq

/-- Argument of `--color` (lib.rs line 577). -/
inductive Color where
  | auto
  | always
  | never
deriving DecidableEq

/-- The model of `enum Flag` (lib.rs line 188).  Rust `String` payloads are
Lean `String`; `PathBuf` and `OsString` payloads are raw byte lists.
`RemapPathPrefix` is modelled as `remapPath`, `Extern` as `externCrate`
(renamed only to satisfy Lean lexical restrictions). -/
inductive Flag where
  | help
  | cfg (name : String) (value : Option String)
  | librarySearchPath (kind : LibraryKind) (path : EStr)
  | link (kind : LinkKind) (modifiers : List (LinkModSign × LinkModifier))
      (name : String) (rename : Option String)
  | crateType (t : CrateType)
  | crateName (name : String)
  | edition (n : Nat)
  | emit (e : Emit)
  | print (s : String)
  | out (filename : EStr)
  | outDir (dir : EStr)
  | explain (code : String)
  | test
  | target (s : String)
  | allow (lint : String)
  | warn (lint : String)
  | forceWarn (lint : String)
  | deny (lint : String)
  | forbid (lint : String)
  | capLints (level : LintLevel)
  | codegen (opt : String) (value : Option String)
  | version
  | verbose
  | externCrate (name : String) (path : Option EStr)
  | externLocation (name : String) (location : EStr)
  | sysroot (path : EStr)
  | z (flag : String)
  | errorFormat (format : ErrorFormat)
  | json (config : String)
  | color (c : Color)
  | remapPath (from_ to_ : EStr)
deriving DecidableEq

/-- `opt::cfg` (parse.rs line 22): `NAME` or `NAME="VALUE"` where the value
must span the whole remainder after `=` inside exactly one pair of double
quotes; the byte arithmetic (`value.len()`, `value[1..].find('"')`,
`value[1..len-1]`) is reproduced on decoded text. -/
def opt_cfg (arg : EStr) : Option Flag := do
  let arg ← toStr arg
  match charsSplitOnce '=' arg.data with
  | some (name, value) =>
    let len := charsByteLen value
    if 2 ≤ len ∧ value.head? = some '"' ∧
        charsFindByte '"' (value.drop 1) = some (len - 2) then
      some (Flag.cfg (String.mk name)
        (some (String.mk (charsTakeBytes (len - 2) (charsDropBytes 1 value)))))
    else
      none
  | none => some (Flag.cfg arg none)

/-- `opt::library_search_path` (parse.rs line 40). -/
def opt_library_search_path (arg : EStr) : Option Flag :=
  match envSplitOnce arg '=' with
  | some (kindStr, path) => do
    let kindTxt ← toStr kindStr
    let kind ←
      match kindTxt with
      | "dependency" => some LibraryKind.dependency
      | "crate" => some LibraryKind.crateKind
      | "native" => some LibraryKind.native
      | "framework" => some LibraryKind.framework
      | "all" => some LibraryKind.all
      | _ => none
    some (Flag.librarySearchPath kind path)
  | none => some (Flag.librarySearchPath LibraryKind.all arg)

/-- One pass of the modifier loop in `opt::link` (parse.rs lines 64-78):
unrecognized signs and modifier names are skipped, not fatal. -/
def linkModifiersOf (txt : List Char) : List (LinkModSign × LinkModifier) :=
  (charsSplit ',' txt).filterMap (fun m =>
    match m with
    | sign :: rest => do
      let p ←
        match sign with
        | '+' => some LinkModSign.enable
        | '-' => some LinkModSign.disable
        | _ => none
      let md ←
        match String.mk rest with
        | "bundle" => some LinkModifier.bundle
        | "verbatim" => some LinkModifier.verbatim
        | "whole-archive" => some LinkModifier.wholeArchive
        | "as-needed" => some LinkModifier.asNeeded
        | _ => none
      some (p, md)
    | [] => none)

/-- `opt::link` (parse.rs line 58): `[KIND[:MODIFIERS]=]NAME[:RENAME]`. -/
def opt_link (arg : EStr) : Option Flag := do
  let arg ← toStr arg
  let (modifiers, kind, name) ←
    match charsSplitOnce '=' arg.data with
    | some (kind0, name) =>
      let (modifiers, kindTxt) :=
        match charsSplitOnce ':' kind0 with
        | some (modifiedKind, commaSeparated) => (linkModifiersOf commaSeparated, modifiedKind)
        | none => ([], kind0)
      match String.mk kindTxt with
      | "static" => some (modifiers, LinkKind.staticKind, name)
      | "framework" => some (modifiers, LinkKind.framework, name)
      | "dylib" => some (modifiers, LinkKind.dylib, name)
      | _ => none
    | none => some (([] : List (LinkModSign × LinkModifier)), LinkKind.dylib, arg.data)
  let (name, rename) :=
    match charsSplitOnce ':' name with
    | some (name, rename) => (name, some (String.mk rename))
    | none => (name, none)
  some (Flag.link kind modifiers (String.mk name) rename)

/-- The element vocabulary of `opt::crate_type` (parse.rs lines 117-126). -/
def crateTypeVocab : String → Option CrateType
  | "bin" => some CrateType.bin
  | "lib" => some CrateType.lib
  | "rlib" => some CrateType.rlib
  | "dylib" => some CrateType.dylib
  | "cdylib" => some CrateType.cdylib
  | "staticlib" => some CrateType.staticlib
  | "proc-macro" => some CrateType.procMacro
  | _ => none

/-- The comma-list loop of `opt::crate_type` (parse.rs line 105), fuelled by
the byte length of the argument (each iteration consumes at least one byte).
Returns the first recognized element together with the number of unconsumed
trailing bytes. -/
def crateTypeGo : Nat → EStr → Option (Flag × Nat)
  | 0, _ => none
  | fuel + 1, arg =>
    match arg with
    | [] => none
    | _ :: _ =>
      let (first, rest) :=
        match envSplitOnce arg ',' with
        | some (first, rest) => (first, rest)
        | none => (arg, ([] : EStr))
      match toStr first with
      | none => crateTypeGo fuel rest
      | some txt =>
        match crateTypeVocab txt with
        | some t => some (Flag.crateType t, rest.length)
        | none => crateTypeGo fuel rest

/-- `opt::crate_type` (parse.rs line 105). -/
def opt_crate_type (arg : EStr) : Option (Flag × Nat) := crateTypeGo (arg.length + 1) arg

/-- `opt::crate_name` (parse.rs line 132). -/
def opt_crate_name (arg : EStr) : Option Flag := (toStr arg).map Flag.crateName

/-- `opt::edition` (parse.rs line 137): `arg.parse::<u16>().ok().map(Flag::Edition)`. -/
def opt_edition (arg : EStr) : Option Flag := do
  let txt ← toStr arg
  (parseU16 txt).map Flag.edition

/-- The element vocabulary of `opt::emit` (parse.rs lines 154-164). -/
def emitVocab : String → Option Emit
  | "asm" => some Emit.asm
  | "llvm-bc" => some Emit.llvmBc
  | "llvm-ir" => some Emit.llvmIr
  | "obj" => some Emit.obj
  | "metadata" => some Emit.metadata
  | "link" => some Emit.link
  | "dep-info" => some Emit.depInfo
  | "mir" => some Emit.mir
  | _ => none

/-- The comma-list loop of `opt::emit` (parse.rs line 142), structured
exactly like `crateTypeGo`. -/
def emitGo : Nat → EStr → Option (Flag × Nat)
  | 0, _ => none
  | fuel + 1, arg =>
    match arg with
    | [] => none
    | _ :: _ =>
      let (first, rest) :=
        match envSplitOnce arg ',' with
        | some (first, rest) => (first, rest)
        | none => (arg, ([] : EStr))
      match toStr first with
      | none => emitGo fuel rest
      | some txt =>
        match emitVocab txt with
        | some em => some (Flag.emit em, rest.length)
        | none => emitGo fuel rest

/-- `opt::emit` (parse.rs line 142). -/
def opt_emit (arg : EStr) : Option (Flag × Nat) := emitGo (arg.length + 1) arg

/-- `opt::print` (parse.rs line 170). -/
def opt_print (arg : EStr) : Option Flag := (toStr arg).map Flag.print

/-- `opt::out` (parse.rs line 175): always succeeds, keeping raw bytes. -/
def opt_out (arg : EStr) : Option Flag := some (Flag.out arg)

/-- `opt::out_dir` (parse.rs line 179). -/
def opt_out_dir (arg : EStr) : Option Flag := some (Flag.outDir arg)

/-- `opt::explain` (parse.rs line 183). -/
def opt_explain (arg : EStr) : Option Flag := (toStr arg).map Flag.explain

/-- `opt::target` (parse.rs line 188). -/
def opt_target (arg : EStr) : Option Flag := (toStr arg).map Flag.target

/-- `opt::allow` (parse.rs line 193). -/
def opt_allow (arg : EStr) : Option Flag := (toStr arg).map Flag.allow

/-- `opt::warn` (parse.rs line 198). -/
def opt_warn (arg : EStr) : Option Flag := (toStr arg).map Flag.warn

/-- `opt::force_warn` (parse.rs line 203). -/
def opt_force_warn (arg : EStr) : Option Flag := (toStr arg).map Flag.forceWarn

/-- `opt::deny` (parse.rs line 208). -/
def opt_deny (arg : EStr) : Option Flag := (toStr arg).map Flag.deny

/-- `opt::forbid` (parse.rs line 213). -/
def opt_forbid (arg : EStr) : Option Flag := (toStr arg).map Flag.forbid

/-- `opt::cap_lints` (parse.rs line 218). -/
def opt_cap_lints (arg : EStr) : Option Flag := do
  let txt ← toStr arg
  match txt with
  | "allow" => some (Flag.capLints LintLevel.allow)
  | "warn" => some (Flag.capLints LintLevel.warn)
  | "deny" => some (Flag.capLints LintLevel.deny)
  | "forbid" => some (Flag.capLints LintLevel.forbid)
  | _ => none

/-- `opt::codegen` (parse.rs line 230): split once on `=`; presence of the
split decides whether the flag carries a value. -/
def opt_codegen (arg : EStr) : Option Flag := do
  let txt ← toStr arg
  match strSplitOnce txt '=' with
  | some (o, v) => some (Flag.codegen o (some v))
  | none => some (Flag.codegen txt none)

/-- `opt::extern_` (parse.rs line 241). -/
def opt_extern (arg : EStr) : Option Flag :=
  match envSplitOnce arg '=' with
  | some (name, path) => (toStr name).map (fun n => Flag.externCrate n (some path))
  | none => (toStr arg).map (fun n => Flag.externCrate n none)

/-- `opt::extern_location` (parse.rs line 251). -/
def opt_extern_location (arg : EStr) : Option Flag := do
  let (name, location) ← envSplitOnce arg '='
  let name ← toStr name
  some (Flag.externLocation name location)

/-- `opt::sysroot` (parse.rs line 258). -/
def opt_sysroot (arg : EStr) : Option Flag := some (Flag.sysroot arg)

/-- `opt::z` (parse.rs line 262). -/
def opt_z (arg : EStr) : Option Flag := (toStr arg).map Flag.z

/-- `opt::error_format` (parse.rs line 267). -/
def opt_error_format (arg : EStr) : Option Flag := do
  let txt ← toStr arg
  match txt with
  | "human" => some (Flag.errorFormat ErrorFormat.human)
  | "json" => some (Flag.errorFormat ErrorFormat.json)
  | "short" => some (Flag.errorFormat ErrorFormat.short)
  | _ => none

/-- `opt::json` (parse.rs line 278). -/
def opt_json (arg : EStr) : Option Flag := (toStr arg).map Flag.json

/-- `opt::color` (parse.rs line 283). -/
def opt_color (arg : EStr) : Option Flag := do
  let txt ← toStr arg
  match txt with
  | "auto" => some (Flag.color Color.auto)
  | "always" => some (Flag.color Color.always)
  | "never" => some (Flag.color Color.never)
  | _ => none

/-- `opt::remap_path_prefix` (parse.rs line 294), here `opt_remap_path`. -/
def opt_remap_path (arg : EStr) : Option Flag := do
  let (from_, to_) ← envSplitOnce arg '='
  some (Flag.remapPath from_ to_)

/-- The two repeatable decoders that the parser can store in its
`repeat` field (the source stores `fn` pointers; only these two occur). -/
inductive RepFn where
  | crateTypeFn
  | emitFn
deriving DecidableEq

/-- Dispatch a stored repeatable decoder. -/
def runRepeat : RepFn → EStr → Option (Flag × Nat)
  | .crateTypeFn => opt_crate_type
  | .emitFn => opt_emit

/-- `enum FlagConstructor` (parse.rs line 5). -/
inductive FlagConstructor where
  | flagC (f : Flag)
  | optC (f : EStr → Option Flag)
  | repC (rf : RepFn)
  | unrecognized

/-- `enum ConstructorFn` (parse.rs line 496): the two constructor shapes that
reach the shared invocation tail. -/
inductive CtorKind where
  | optC (f : EStr → Option Flag)
  | repC (rf : RepFn)

/-- `lookup_short` (parse.rs line 302). -/
def lookupShort (ch : Char) : FlagConstructor :=
  if ch = 'h' then .flagC Flag.help
  else if ch = 'L' then .optC opt_library_search_path
  else if ch = 'l' then .optC opt_link
  else if ch = 'g' then .flagC (Flag.codegen "debuginfo" (some "2"))
  else if ch = 'O' then .flagC (Flag.codegen "opt-level" (some "2"))
  else if ch = 'o' then .optC opt_out
  else if ch = 'A' then .optC opt_allow
  else if ch = 'W' then .optC opt_warn
  else if ch = 'D' then .optC opt_deny
  else if ch = 'F' then .optC opt_forbid
  else if ch = 'C' then .optC opt_codegen
  else if ch = 'V' then .flagC Flag.version
  else if ch = 'v' then .flagC Flag.verbose
  else if ch = 'Z' then .optC opt_z
  else .unrecognized

/-- `lookup_long` (parse.rs line 328). -/
def lookupLong (name : String) : FlagConstructor :=
  match name with
  | "help" => .flagC Flag.help
  | "cfg" => .optC opt_cfg
  | "crate-type" => .repC RepFn.crateTypeFn
  | "crate-name" => .optC opt_crate_name
  | "edition" => .optC opt_edition
  | "emit" => .repC RepFn.emitFn
  | "print" => .optC opt_print
  | "out-dir" => .optC opt_out_dir
  | "explain" => .optC opt_explain
  | "test" => .flagC Flag.test
  | "target" => .optC opt_target
  | "allow" => .optC opt_allow
  | "warn" => .optC opt_warn
  | "force-warn" => .optC opt_force_warn
  | "deny" => .optC opt_deny
  | "forbid" => .optC opt_forbid
  | "cap-lints" => .optC opt_cap_lints
  | "codegen" => .optC opt_codegen
  | "version" => .flagC Flag.version
  | "verbose" => .flagC Flag.verbose
  | "extern" => .optC opt_extern
  | "extern-location" => .optC opt_extern_location
  | "sysroot" => .optC opt_sysroot
  | "error-format" => .optC opt_error_format
  | "json" => .optC opt_json
  | "color" => .optC opt_color
  | "remap-path-prefix" => .optC opt_remap_path
  | _ => .unrecognized

/-- The iterator state `RustFlags` (lib.rs line 170): the encoded buffer,
the cursor, the pending repeat and the short-bundle mode. -/
structure St where
  encoded : EStr
  pos : Nat
  repeatSt : Option (RepFn × Nat)
  short : Bool
deriving DecidableEq

/-- Outcome of one iteration of the `while` loop in `parse` (parse.rs line
366): either the call returns (`Some(flag)` via `return`, `None` via
`break`), or the loop continues with a possibly new `skip` value. -/
inductive StepOut where
  | ret (r : Option Flag) (s : St)
  | cont (skip : Bool) (s : St)
deriving DecidableEq

/-- The shared constructor-invocation tail of `parse` (parse.rs lines
501-516), including the repeat rewind
`f.pos -= repeat + f.encoded[..f.pos].ends_with(SEPARATOR) as usize`. -/
def applyCtorT (k : CtorKind) (arg : EStr) (s : St) : StepOut :=
  match k with
  | .optC f =>
    match f arg with
    | some flag => .ret (some flag) s
    | none => .cont false s
  | .repC rf =>
    match runRepeat rf arg with
    | some (flag, rep) =>
      if 0 < rep then
        let del : Nat := if envEndsWith (extract s.encoded 0 s.pos) sepChar then 1 else 0
        .ret (some flag) { s with pos := s.pos - (rep + del), repeatSt := some (rf, rep) }
      else .ret (some flag) s
    | none => .cont false s

/-- The `skip` branch of `parse` (parse.rs lines 367-376). -/
def stepSkipT (s : St) : StepOut :=
  match envFind (extract s.encoded s.pos s.encoded.length) sepChar with
  | some i => .cont false { s with pos := s.pos + i + 1 }
  | none => .cont false { s with pos := s.encoded.length }

/-- The pending-repeat branch of `parse` (parse.rs lines 378-381): slice the
stored length, advance past it, clear the pending repeat (`take`), invoke. -/
def stepRepeatT (rf : RepFn) (len : Nat) (s : St) : StepOut :=
  let arg := extract s.encoded s.pos (s.pos + len)
  applyCtorT (.repC rf) arg { s with pos := s.pos + len, repeatSt := none }

/-- The shared argument scan (parse.rs lines 413-422 and 472-480): take from
byte `p` up to the next delimiter (advancing past it) or the rest of the
buffer as the argument, and invoke the constructor. -/
def argScanT (k : CtorKind) (p : Nat) (s : St) : StepOut :=
  match envFind (extract s.encoded p s.encoded.length) sepChar with
  | some i => applyCtorT k (extract s.encoded p (p + i)) { s with pos := p + i + 1 }
  | none => applyCtorT k (extract s.encoded p s.encoded.length)
      { s with pos := s.encoded.length }

/-- Argument consumption for a recognized short flag (parse.rs lines
404-423): leave bundle mode, `break` at the end of the buffer, skip one
delimiter if the value is a separate token, then scan for the argument. -/
def shortArgT (k : CtorKind) (s0 : St) : StepOut :=
  if s0.pos = s0.encoded.length then .ret none { s0 with short := false }
  else
    argScanT k
      (if envStartsWith (extract s0.encoded s0.pos s0.encoded.length) sepChar then
        s0.pos + 1 else s0.pos)
      { s0 with short := false }

/-- Dispatch on `lookup_short` (parse.rs lines 394-403); a niladic flag
returns immediately (leaving bundle mode on), an unrecognized character
leaves bundle mode and skips the rest of the token. -/
def shortLookupT (ch : Char) (s : St) : StepOut :=
  match lookupShort ch with
  | .flagC flag => .ret (some flag) s
  | .unrecognized => .cont true { s with short := false }
  | .optC f => shortArgT (.optC f) s
  | .repC rf => shortArgT (.repC rf) s

/-- The short-bundle branch of `parse` (parse.rs lines 382-423).  A valid
character advances the cursor by its UTF-8 width (a delimiter additionally
ends bundle mode); an invalid sequence is looked up as `'\0'` without
advancing. -/
def stepShortT (s : St) : StepOut :=
  match envFirstChar (extract s.encoded s.pos s.encoded.length) with
  | none => .ret none s
  | some (.valid ch) =>
    let s1 := { s with pos := s.pos + (utf8EncodeChar ch).length }
    if ch = sepChar then .cont false { s1 with short := false }
    else shortLookupT ch s1
  | some .invalid => shortLookupT (Char.ofNat 0) s

/-- Argument resolution for a recognized long flag (parse.rs lines 468-481):
the embedded `=value` if present, otherwise the next token (or the rest of
the buffer). -/
def longArgT (k : CtorKind) (argE : Option EStr) (s : St) : StepOut :=
  match argE with
  | some arg => applyCtorT k arg s
  | none => argScanT k s.pos s

/-- Name resolution for a `--`-prefixed token (parse.rs lines 454-482):
split an embedded `=value`, require the name to be valid text, look it up;
a niladic match with an embedded value, an unrecognized name, or invalid
text all skip the token. -/
def longNameGo (name : EStr) (argE : Option EStr) (s : St) : StepOut :=
  match toStr name with
  | none => .cont false s
  | some nameTxt =>
    match lookupLong nameTxt, argE with
    | .flagC flag, none => .ret (some flag) s
    | .flagC _, some _ => .cont false s
    | .unrecognized, _ => .cont false s
    | .optC f, argE => longArgT (.optC f) argE s
    | .repC rf, argE => longArgT (.repC rf) argE s

/-- The split of an embedded `=value` feeding `longNameGo` (parse.rs line
455). -/
def longNameT (flagTok : EStr) (s : St) : StepOut :=
  match envSplitOnce flagTok '=' with
  | some (n, a) => longNameGo n (some a) s
  | none => longNameGo flagTok none s

/-- The `--NAME` sub-branch (parse.rs lines 437-453): a `--` immediately
followed by a delimiter ends all parsing; otherwise the text up to the next
delimiter (or the end) is the flag spelling. -/
def longFlagT (s : St) : StepOut :=
  match envFind (extract s.encoded (s.pos + 2) s.encoded.length) sepChar with
  | some 0 => .cont false { s with pos := s.encoded.length }
  | some (i + 1) =>
    longNameT (extract s.encoded (s.pos + 2) (s.pos + 2 + (i + 1)))
      { s with pos := s.pos + (i + 1) + 3 }
  | none =>
    longNameT (extract s.encoded (s.pos + 2) s.encoded.length)
      { s with pos := s.encoded.length }

/-- The `-`-leading branch of `parse` (parse.rs lines 424-490): a lone `-`
at the end or `-` followed by a delimiter is skipped, `--` goes to the
long-flag path, anything else enters short-bundle mode at the next byte. -/
def stepLongT (s : St) : StepOut :=
  match envFirstChar (extract s.encoded (s.pos + 1) s.encoded.length) with
  | none => .cont false { s with pos := s.pos + 1 }
  | some (.valid ch) =>
    if ch = sepChar then .cont false { s with pos := s.pos + 2 }
    else if ch = '-' then longFlagT s
    else .cont false { s with pos := s.pos + 1, short := true }
  | some .invalid => .cont false { s with pos := s.pos + 1, short := true }

/-- One iteration of the `while` loop of `parse` (parse.rs line 366), in
the priority order of the source: skip, pending repeat, short bundle,
`-`-leading token, non-flag token. -/
def stepT (skip : Bool) (s : St) : StepOut :=
  if skip then stepSkipT s
  else
    match s.repeatSt with
    | some (rf, len) => stepRepeatT rf len s
    | none =>
      if s.short then stepShortT s
      else if envStartsWith (extract s.encoded s.pos s.encoded.length) '-' then stepLongT s
      else .cont true s

/-- The `while f.pos < f.encoded.len()` loop of `parse`, fuelled by an
iteration budget (the canonical budget `2 * (len - pos) + 2` is always
sufficient, as proved below); exhausting the buffer yields `None`. -/
def parseLoopT : Nat → Bool → St → Option Flag × St
  | 0, _, s => (none, s)
  | fuel + 1, skip, s =>
    if s.pos < s.encoded.length then
      match stepT skip s with
      | .ret r s' => (r, s')
      | .cont skip' s' => parseLoopT fuel skip' s'
    else (none, s)

/-- The canonical loop budget for a call starting at state `s`. -/
def loopFuel (s : St) : Nat := 2 * (s.encoded.length - s.pos) + 2

/-- One call to `parse` / `Iterator::next` (parse.rs line 361), starting
with `skip = false`. -/
def parseNext (s : St) : Option Flag × St := parseLoopT (loopFuel s) false s

/-- Iterate `parse` to exhaustion, collecting the produced flags in order
(fuelled; every produced flag strictly advances the cursor, so
`len - pos + 1` calls are always enough, as proved below). -/
def parseAllAux : Nat → St → List Flag
  | 0, _ => []
  | fuel + 1, s =>
    match parseNext s with
    | (none, _) => []
    | (some flag, s') => flag :: parseAllAux fuel s'

/-- The initial iterator state for an encoded buffer (`from_encoded`). -/
def initSt (encoded : EStr) : St :=
  { encoded := encoded, pos := 0, repeatSt := none, short := false }

/-- Decode an encoded buffer into its full flag sequence. -/
def rustflagsAll (encoded : EStr) : List Flag :=
  parseAllAux (encoded.length + 1) (initSt encoded)

/-- Panic-instrumented mirror of `stepSkipT`: the slice `f.encoded[f.pos..]`
goes through the asserting index operation. -/
def stepSkipE (s : St) : Except PErr StepOut := do
  let suffix ← envIndexE s.encoded s.pos s.encoded.length
  match envFind suffix sepChar with
  | some i => .ok (.cont false { s with pos := s.pos + i + 1 })
  | none => .ok (.cont false { s with pos := s.encoded.length })

/-- Panic-instrumented mirror of `applyCtorT`: the prefix slice
`f.encoded[..f.pos]` goes through the asserting index operation, and the
`usize` subtraction of the rewind fails when it would underflow. -/
def applyCtorE (k : CtorKind) (arg : EStr) (s : St) : Except PErr StepOut :=
  match k with
  | .optC f =>
    .ok (match f arg with
      | some flag => .ret (some flag) s
      | none => .cont false s)
  | .repC rf =>
    match runRepeat rf arg with
    | some (flag, rep) =>
      if 0 < rep then do
        let pre ← envIndexE s.encoded 0 s.pos
        let del : Nat := if envEndsWith pre sepChar then 1 else 0
        if rep + del ≤ s.pos then
          .ok (.ret (some flag) { s with pos := s.pos - (rep + del), repeatSt := some (rf, rep) })
        else .error .panic
      else .ok (.ret (some flag) s)
    | none => .ok (.cont false s)

/-- Panic-instrumented mirror of `stepRepeatT`:
`&f.encoded[f.pos..f.pos + len]` goes through the asserting index. -/
def stepRepeatE (rf : RepFn) (len : Nat) (s : St) : Except PErr StepOut := do
  let arg ← envIndexE s.encoded s.pos (s.pos + len)
  applyCtorE (.repC rf) arg { s with pos := s.pos + len, repeatSt := none }

/-- Panic-instrumented mirror of `argScanT`: the argument slices go through
the asserting index operation. -/
def argScanE (k : CtorKind) (p : Nat) (s : St) : Except PErr StepOut := do
  let suffix2 ← envIndexE s.encoded p s.encoded.length
  match envFind suffix2 sepChar with
  | some i => do
    let arg ← envIndexE s.encoded p (p + i)
    applyCtorE k arg { s with pos := p + i + 1 }
  | none => do
    let arg ← envIndexE s.encoded p s.encoded.length
    applyCtorE k arg { s with pos := s.encoded.length }

/-- Panic-instrumented mirror of `shortArgT`. -/
def shortArgE (k : CtorKind) (s0 : St) : Except PErr StepOut :=
  if s0.pos = s0.encoded.length then .ok (.ret none { s0 with short := false })
  else do
    let suffix ← envIndexE s0.encoded s0.pos s0.encoded.length
    argScanE k (if envStartsWith suffix sepChar then s0.pos + 1 else s0.pos)
      { s0 with short := false }

/-- Panic-instrumented mirror of `shortLookupT`. -/
def shortLookupE (ch : Char) (s : St) : Except PErr StepOut :=
  match lookupShort ch with
  | .flagC flag => .ok (.ret (some flag) s)
  | .unrecognized => .ok (.cont true { s with short := false })
  | .optC f => shortArgE (.optC f) s
  | .repC rf => shortArgE (.repC rf) s

/-- Panic-instrumented mirror of `stepShortT`: the source unwraps
`first_char()`, which panics on an empty suffix. -/
def stepShortE (s : St) : Except PErr StepOut := do
  let suffix ← envIndexE s.encoded s.pos s.encoded.length
  match envFirstChar suffix with
  | none => .error .panic
  | some (.valid ch) =>
    let s1 := { s with pos := s.pos + (utf8EncodeChar ch).length }
    if ch = sepChar then .ok (.cont false { s1 with short := false })
    else shortLookupE ch s1
  | some .invalid => shortLookupE (Char.ofNat 0) s

/-- Panic-instrumented mirror of `longArgT`. -/
def longArgE (k : CtorKind) (argE : Option EStr) (s : St) : Except PErr StepOut :=
  match argE with
  | some arg => applyCtorE k arg s
  | none => argScanE k s.pos s

/-- Panic-instrumented mirror of `longNameT` (its own operations are
total: the split and the text conversion cannot panic). -/
def longNameGoE (name : EStr) (argE : Option EStr) (s : St) : Except PErr StepOut :=
  match toStr name with
  | none => .ok (.cont false s)
  | some nameTxt =>
    match lookupLong nameTxt, argE with
    | .flagC flag, none => .ok (.ret (some flag) s)
    | .flagC _, some _ => .ok (.cont false s)
    | .unrecognized, _ => .ok (.cont false s)
    | .optC f, argE => longArgE (.optC f) argE s
    | .repC rf, argE => longArgE (.repC rf) argE s

/-- The split of an embedded `=value` feeding `longNameGoE`. -/
def longNameE (flagTok : EStr) (s : St) : Except PErr StepOut :=
  match envSplitOnce flagTok '=' with
  | some (n, a) => longNameGoE n (some a) s
  | none => longNameGoE flagTok none s

/-- Panic-instrumented mirror of `longFlagT`. -/
def longFlagE (s : St) : Except PErr StepOut := do
  let suffix ← envIndexE s.encoded (s.pos + 2) s.encoded.length
  match envFind suffix sepChar with
  | some 0 => .ok (.cont false { s with pos := s.encoded.length })
  | some (i + 1) => do
    let flagTok ← envIndexE s.encoded (s.pos + 2) (s.pos + 2 + (i + 1))
    longNameE flagTok { s with pos := s.pos + (i + 1) + 3 }
  | none => do
    let flagTok ← envIndexE s.encoded (s.pos + 2) s.encoded.length
    longNameE flagTok { s with pos := s.encoded.length }

/-- Panic-instrumented mirror of `stepLongT`. -/
def stepLongE (s : St) : Except PErr StepOut := do
  let suffix ← envIndexE s.encoded (s.pos + 1) s.encoded.length
  match envFirstChar suffix with
  | none => .ok (.cont false { s with pos := s.pos + 1 })
  | some (.valid ch) =>
    if ch = sepChar then .ok (.cont false { s with pos := s.pos + 2 })
    else if ch = '-' then longFlagE s
    else .ok (.cont false { s with pos := s.pos + 1, short := true })
  | some .invalid => .ok (.cont false { s with pos := s.pos + 1, short := true })

/-- Panic-instrumented mirror of `stepT`. -/
def stepE (skip : Bool) (s : St) : Except PErr StepOut :=
  if skip then stepSkipE s
  else
    match s.repeatSt with
    | some (rf, len) => stepRepeatE rf len s
    | none =>
      if s.short then stepShortE s
      else do
        let suffix ← envIndexE s.encoded s.pos s.encoded.length
        if envStartsWith suffix '-' then stepLongE s else .ok (.cont true s)

/-- Panic-instrumented mirror of `parseLoopT`. -/
def parseLoopE : Nat → Bool → St → Except PErr (Option Flag × St)
  | 0, _, _ => .error .fuel
  | fuel + 1, skip, s =>
    if s.pos < s.encoded.length then do
      match ← stepE skip s with
      | .ret r s' => .ok (r, s')
      | .cont skip' s' => parseLoopE fuel skip' s'
    else .ok (none, s)

/-- Panic-instrumented mirror of `parseNext`. -/
def parseNextE (s : St) : Except PErr (Option Flag × St) := parseLoopE (loopFuel s) false s

/-- Panic-instrumented mirror of `parseAllAux`. -/
def parseAllAuxE : Nat → St → Except PErr (List Flag)
  | 0, _ => .error .fuel
  | fuel + 1, s => do
    match ← parseNextE s with
    | (none, _) => .ok []
    | (some flag, s') => do
      let rest ← parseAllAuxE fuel s'
      .ok (flag :: rest)

/-- Panic-instrumented mirror of `rustflagsAll`: decoding an encoded buffer
to exhaustion, with every fatal condition (boundary assertion, slice range,
`first_char().unwrap()`, rewind underflow, iteration budget) surfaced as an
error value. -/
def rustflagsAllE (encoded : EStr) : Except PErr (List Flag) :=
  parseAllAuxE (encoded.length + 1) (initSt encoded)

/-- `Display for LibraryKind` (lib.rs line 375). -/
def libraryKindStr : LibraryKind → String
  | .dependency => "dependency"
  | .crateKind => "crate"
  | .native => "native"
  | .framework => "framework"
  | .all => "all"

/-- `Display for LinkKind` (lib.rs line 405). -/
def linkKindStr : LinkKind → String
  | .staticKind => "static"
  | .framework => "framework"
  | .dylib => "dylib"

/-- `Display for LinkModifierPrefix` (lib.rs line 424). -/
def linkModSignStr : LinkModSign → String
  | .enable => "+"
  | .disable => "-"

/-- `Display for LinkModifier` (lib.rs line 447). -/
def linkModifierStr : LinkModifier → String
  | .bundle => "bundle"
  | .verbatim => "verbatim"
  | .wholeArchive => "whole-archive"
  | .asNeeded => "as-needed"

/-- `Display for CrateType` (lib.rs line 478).  Note the source really
renders `Cdylib` with a capital C (lib.rs line 485), unlike the lowercase
`cdylib` in its own doc comment and in the parser's vocabulary. -/
def crateTypeStr : CrateType → String
  | .bin => "bin"
  | .lib => "lib"
  | .rlib => "rlib"
  | .dylib => "dylib"
  | .cdylib => "Cdylib"
  | .staticlib => "staticlib"
  | .procMacro => "proc-macro"

/-- `Display for Emit` (lib.rs line 514). -/
def emitStr : Emit → String
  | .asm => "asm"
  | .llvmBc => "llvm-bc"
  | .llvmIr => "llvm-ir"
  | .obj => "obj"
  | .metadata => "metadata"
  | .link => "link"
  | .depInfo => "dep-info"
  | .mir => "mir"

/-- `Display for LintLevel` (lib.rs line 542). -/
def lintLevelStr : LintLevel → String
  | .allow => "allow"
  | .warn => "warn"
  | .deny => "deny"
  | .forbid => "forbid"

/-- `Display for ErrorFormat` (lib.rs line 565). -/
def errorFormatStr : ErrorFormat → String
  | .human => "human"
  | .json => "json"
  | .short => "short"

/-- `Display for Color` (lib.rs line 592). -/
def colorStr : Color → String
  | .auto => "auto"
  | .always => "always"
  | .never => "never"

/-- The `kv` helper of the renderer (render.rs line 211): `K=V`. -/
def kvTok (k v : EStr) : EStr := k ++ strBytes "=" ++ v

/-- The modifier segment of the `-l` argument token (render.rs lines
49-52): each modifier is preceded by `:` (first) or `,` (later) and written
as sign followed by name. -/
def renderModifiers (mods : List (LinkModSign × LinkModifier)) : EStr :=
  (mods.enum.map (fun im =>
    strBytes (if im.1 = 0 then ":" else ",") ++
    strBytes (linkModSignStr im.2.1) ++ strBytes (linkModifierStr im.2.2))).flatten

/-- The argument token of `-l` (render.rs lines 45-61): the kind is written
whenever it differs from the default or any modifier is present; the `=` is
written whenever anything precedes the name. -/
def renderLinkArg (kind : LinkKind) (mods : List (LinkModSign × LinkModifier))
    (name : String) (rename : Option String) : EStr :=
  let pre : EStr :=
    (if kind ≠ linkKindDefault ∨ mods ≠ [] then strBytes (linkKindStr kind) else []) ++
    renderModifiers mods
  pre ++ (if pre ≠ [] then strBytes "=" else []) ++ strBytes name ++
    (match rename with
     | some r => strBytes ":" ++ strBytes r
     | none => [])

/-- `IntoIterator for Flag` (render.rs line 5): the ordered raw token
sequence of one structured flag. -/
def renderFlag : Flag → List EStr
  | .help => [strBytes "--help"]
  | .cfg name value =>
    [strBytes "--cfg",
     match value with
     | some v => strBytes name ++ strBytes "=" ++ strBytes "\"" ++ strBytes v ++ strBytes "\""
     | none => strBytes name]
  | .librarySearchPath kind path =>
    [strBytes "-L",
     if kind = LibraryKind.all then path else strBytes (libraryKindStr kind) ++ strBytes "=" ++ path]
  | .link kind mods name rename => [strBytes "-l", renderLinkArg kind mods name rename]
  | .crateType t => [strBytes "--crate-type", strBytes (crateTypeStr t)]
  | .crateName name => [strBytes "--crate-name", strBytes name]
  | .edition n => [strBytes "--edition", strBytes (toString n)]
  | .emit e => [strBytes "--emit", strBytes (emitStr e)]
  | .print s => [strBytes "--print", strBytes s]
  | .out filename => [strBytes "-o", filename]
  | .outDir dir => [strBytes "--out-dir", dir]
  | .explain code => [strBytes "--explain", strBytes code]
  | .test => [strBytes "--test"]
  | .target s => [strBytes "--target", strBytes s]
  | .allow lint => [strBytes "--allow", strBytes lint]
  | .warn lint => [strBytes "--warn", strBytes lint]
  | .forceWarn lint => [strBytes "--force-warn", strBytes lint]
  | .deny lint => [strBytes "--deny", strBytes lint]
  | .forbid lint => [strBytes "--forbid", strBytes lint]
  | .capLints level => [strBytes "--cap-lints", strBytes (lintLevelStr level)]
  | .codegen opt value =>
    [strBytes "-C",
     match value with
     | some v => strBytes opt ++ strBytes "=" ++ strBytes v
     | none => strBytes opt]
  | .version => [strBytes "--version"]
  | .verbose => [strBytes "--verbose"]
  | .externCrate name path =>
    [strBytes "--extern",
     match path with
     | some p => kvTok (strBytes name) p
     | none => strBytes name]
  | .externLocation name location => [strBytes "--extern-location", kvTok (strBytes name) location]
  | .sysroot path => [strBytes "--sysroot", path]
  | .z flag => [strBytes "-Z", strBytes flag]
  | .errorFormat format => [strBytes "--error-format", strBytes (errorFormatStr format)]
  | .json config => [strBytes "--json", strBytes config]
  | .color c => [strBytes "--color", strBytes (colorStr c)]
  | .remapPath from_ to_ => [strBytes "--remap-path-prefix", kvTok from_ to_]

/-- Join raw tokens with the 0x1F delimiter (as the test harness and any
launcher would re-encode an argument list). -/
def joinTokens (toks : List EStr) : EStr := List.intercalate [31] toks

/-- The well-formedness of the pending repeat that the parser maintains: a
stored remaining length is always nonzero (parse.rs line 509 stores it only
when `repeat > 0`). -/
def WfLite (s : St) : Prop := ∀ rf r, s.repeatSt = some (rf, r) → 1 ≤ r

/-- The loop variant of `parse`'s `while` loop: lexicographic in the
remaining bytes and the `skip` bit (a `skip` iteration always advances). -/
def stMeasure (skip : Bool) (s : St) : Nat :=
  2 * (s.encoded.length - s.pos) + (if skip then 0 else 1)

/-- An iterator state shifted under a fixed prefix of the buffer: the parse
loop never reads bytes before the cursor except through suffix slices and
the one rewind byte, so its behaviour from such a state mirrors the
behaviour from the unshifted state (proved below). -/
def shiftSt (pre : EStr) (s : St) : St :=
  { encoded := pre ++ s.encoded, pos := pre.length + s.pos,
    repeatSt := s.repeatSt, short := s.short }

/-- The image of one loop outcome under `shiftSt`. -/
def shiftOut (pre : EStr) : StepOut → StepOut
  | .ret r s => .ret r (shiftSt pre s)
  | .cont skip s => .cont skip (shiftSt pre s)

/-- The state invariant of the panic-freedom proof: the cursor is in range
and boundary-aligned in the sense of the `Index` assertion, and a pending
repeat of length `r` describes a nonzero, in-range, delimiter-free slice
`[pos, pos+r)` that ends at the buffer end or at a delimiter byte. -/
def Inv (s : St) : Prop :=
  s.pos ≤ s.encoded.length ∧ boundaryOK s.encoded s.pos = true ∧
  ∀ rf r, s.repeatSt = some (rf, r) →
    1 ≤ r ∧ s.pos + r ≤ s.encoded.length ∧
    (s.pos + r = s.encoded.length ∨ s.encoded[s.pos + r]? = some 31) ∧
    (∀ (j : Nat), s.pos ≤ j → j < s.pos + r → s.encoded[j]? ≠ some 31)

/-- What the panic-freedom induction needs of a loop outcome: the next state
satisfies the invariant, and a `skip` continuation carries no pending repeat
(the skip branch moves the cursor without consulting the repeat state). -/
def GoodOut : StepOut → Prop
  | .ret _ s => Inv s
  | .cont skip s => Inv s ∧ (skip = true → s.repeatSt = none)

/-- The rewind position as the spec describes it: the cursor is moved
backward by the reported remaining length, then decremented by one further
position exactly when the byte immediately preceding that new cursor
position is the 0x1F delimiter.  (Definition worded from the spec, for
comparison with the code's rewind, which instead tests the byte preceding
the pre-rewind cursor.) -/
def claimRewindPos (e : EStr) (mid rep : Nat) : Nat :=
  if e.get? (mid - rep - 1) = some 31 then mid - rep - 1 else mid - rep

/-- Numeric text in the claim's sense: one or more ASCII decimal digits.
(Definition worded from the spec, for comparison with the code's
`u16`-bounded parse.) -/
def numericText (s : String) : Bool :=
  decide (s.data ≠ []) && s.data.all (fun c => decide ('0' ≤ c) && decide (c ≤ '9'))

/-- `u16` numeric text as the spec's amended edition rule describes it: an
optional leading `'+'`, then one or more ASCII decimal digits whose value is
at most 65535; the value is the usual base-10 reading.  (Definition worded
from the spec's amended wording, for comparison with the code's checked
digit loop.) -/
def u16Spec (s : String) : Option Nat :=
  let ds := match s.data with
    | '+' :: rest => rest
    | l => l
  if ds ≠ [] ∧ ds.all (fun c => decide ('0' ≤ c) && decide (c ≤ '9')) ∧
      ds.foldl (fun acc c => acc * 10 + (c.toNat - 48)) 0 ≤ 65535 then
    some (ds.foldl (fun acc c => acc * 10 + (c.toNat - 48)) 0)
  else none

theorem extract_to_end (e : EStr) (a : Nat) : extract e a e.length = e.drop a := by
  unfold extract
  exact List.take_of_length_le (by simp)

theorem extract_getElem? (e : EStr) (a b i : Nat) :
    (extract e a b)[i]? = if i < b - a then e[a + i]? else none := by
  unfold extract
  rw [List.getElem?_take]
  split
  · rw [List.getElem?_drop]
  · rfl

theorem extract_length (e : EStr) (a b : Nat) :
    (extract e a b).length = min (b - a) (e.length - a) := by
  simp [extract]

theorem utf8EncodeChar_ascii {c : Char} (h : c.toNat ≤ 0x7F) :
    utf8EncodeChar c = [c.toNat] := by
  unfold utf8EncodeChar
  simp [h]

theorem utf8EncodeChar_length_pos (c : Char) : 1 ≤ (utf8EncodeChar c).length := by
  unfold utf8EncodeChar
  dsimp only
  split_ifs <;> simp

theorem listStartsWith_single (b : Nat) (l : List Nat) :
    listStartsWith [b] l = true ↔ l[0]? = some b := by
  cases l with
  | nil => simp [listStartsWith]
  | cons x xs =>
    rw [List.getElem?_cons_zero]
    show (b == x && listStartsWith [] xs) = true ↔ some x = some b
    rw [listStartsWith]
    simp only [Bool.and_true, beq_iff_eq, Option.some.injEq]
    exact eq_comm

theorem envFindAux_single_some (b : Nat) :
    ∀ (l : List Nat) (i : Nat), envFindAux [b] l = some i →
      i < l.length ∧ l[i]? = some b ∧ ∀ j, j < i → l[j]? ≠ some b := by
  intro l
  induction l with
  | nil => intro i h; simp [envFindAux] at h
  | cons x xs ih =>
    intro i h
    rw [envFindAux] at h
    split at h
    · rename_i hsw
      cases h
      refine ⟨by simp, ?_, by omega⟩
      exact (listStartsWith_single b (x :: xs)).mp hsw
    · rename_i hsw
      match hr : envFindAux [b] xs with
      | none => rw [hr] at h; simp at h
      | some i' =>
        rw [hr] at h
        simp only [Option.map_some', Option.some.injEq] at h
        obtain ⟨hlt, hat, hbefore⟩ := ih i' hr
        subst h
        refine ⟨by simp only [List.length_cons]; omega, ?_, ?_⟩
        · rw [List.getElem?_cons_succ]; exact hat
        · intro j hj
          cases j with
          | zero =>
            rw [List.getElem?_cons_zero]
            intro hc
            exact absurd ((listStartsWith_single b (x :: xs)).mpr (by simpa using hc)) (by
              simpa using hsw)
          | succ j' =>
            rw [List.getElem?_cons_succ]
            exact hbefore j' (by omega)

theorem envFindAux_single_none (b : Nat) :
    ∀ (l : List Nat), envFindAux [b] l = none → ∀ (j : Nat), l[j]? ≠ some b := by
  intro l
  induction l with
  | nil => intro _ j; simp
  | cons x xs ih =>
    intro h j
    rw [envFindAux] at h
    split at h
    · simp at h
    · rename_i hsw
      match hr : envFindAux [b] xs with
      | some i' => rw [hr] at h; simp at h
      | none =>
        cases j with
        | zero =>
          rw [List.getElem?_cons_zero]
          intro hc
          exact absurd ((listStartsWith_single b (x :: xs)).mpr (by simpa using hc)) (by
            simpa using hsw)
        | succ j' =>
          rw [List.getElem?_cons_succ]
          exact ih hr j'

theorem envFind_ascii_some {c : Char} (hc : c.toNat ≤ 0x7F) {l : List Nat} {i : Nat}
    (h : envFind l c = some i) :
    i < l.length ∧ l[i]? = some c.toNat ∧ ∀ j, j < i → l[j]? ≠ some c.toNat := by
  rw [envFind, utf8EncodeChar_ascii hc] at h
  exact envFindAux_single_some c.toNat l i h

theorem envFind_ascii_none {c : Char} (hc : c.toNat ≤ 0x7F) {l : List Nat}
    (h : envFind l c = none) : ∀ (j : Nat), l[j]? ≠ some c.toNat := by
  rw [envFind, utf8EncodeChar_ascii hc] at h
  exact envFindAux_single_none c.toNat l h

theorem envStartsWith_ascii {c : Char} (hc : c.toNat ≤ 0x7F) (l : List Nat) :
    envStartsWith l c = true ↔ l[0]? = some c.toNat := by
  rw [envStartsWith, utf8EncodeChar_ascii hc]
  exact listStartsWith_single c.toNat l

theorem char_toNat_ofNat_eq (n : Nat) :
    (Char.ofNat n).toNat = if Nat.isValidChar n then n else 0 := by
  unfold Char.ofNat
  split
  · simp only [Char.ofNatAux, Char.toNat]
    rfl
  · rfl

theorem getElem?_lt_len {l : List Nat} {i b : Nat} (h : l[i]? = some b) : i < l.length :=
  (List.getElem?_eq_some_iff.mp h).1

set_option maxRecDepth 4000

theorem utf8DecodeFirst_spec {l : List Nat} {c : Char} {k : Nat}
    (h : utf8DecodeFirst l = some (c, k)) :
    1 ≤ k ∧ k ≤ 4 ∧ k ≤ l.length ∧ utf8DecodeFirst (l.take k) = some (c, k) ∧
      (c.toNat ≤ 0x7F → k = 1 ∧ l[0]? = some c.toNat) := by
  rw [utf8DecodeFirst.eq_def] at h
  rcases h0 : l[0]? with - | b0
  · rw [h0] at h; exact absurd h (by simp)
  rw [h0] at h
  dsimp only at h
  have hlen0 := getElem?_lt_len h0
  by_cases ha : b0 ≤ 0x7F
  · rw [if_pos ha] at h
    obtain ⟨rfl, rfl⟩ : c = Char.ofNat b0 ∧ 1 = k := by cases h; exact ⟨rfl, rfl⟩
    refine ⟨by omega, by omega, by omega, ?_, ?_⟩
    · rw [utf8DecodeFirst.eq_def]
      have e0 : (l.take 1)[0]? = some b0 := by rw [List.getElem?_take]; simpa using h0
      rw [e0]
      dsimp only
      rw [if_pos ha]
    · intro _
      refine ⟨rfl, ?_⟩
      rw [char_toNat_ofNat_eq,
        if_pos (show Nat.isValidChar b0 from Or.inl (by omega))]
  rw [if_neg ha] at h
  by_cases hb : 0xC2 ≤ b0 ∧ b0 ≤ 0xDF
  · rw [if_pos hb] at h
    rcases h1 : l[1]? with - | b1
    · rw [h1] at h; exact absurd h (by simp)
    rw [h1] at h
    dsimp only at h
    have hlen1 := getElem?_lt_len h1
    by_cases hc1 : 0x80 ≤ b1 ∧ b1 ≤ 0xBF
    · rw [if_pos hc1] at h
      obtain ⟨rfl, rfl⟩ : c = Char.ofNat ((b0 - 0xC0) * 0x40 + (b1 - 0x80)) ∧ 2 = k := by
        cases h; exact ⟨rfl, rfl⟩
      refine ⟨by omega, by omega, by omega, ?_, ?_⟩
      · rw [utf8DecodeFirst.eq_def]
        have e0 : (l.take 2)[0]? = some b0 := by rw [List.getElem?_take]; simpa using h0
        have e1 : (l.take 2)[1]? = some b1 := by rw [List.getElem?_take]; simpa using h1
        rw [e0]
        dsimp only
        rw [if_neg ha, if_pos hb, e1]
        dsimp only
        rw [if_pos hc1]
      · intro hcc
        rw [char_toNat_ofNat_eq] at hcc
        split at hcc <;> simp only [Nat.isValidChar] at * <;> omega
    · rw [if_neg hc1] at h; exact absurd h (by simp)
  rw [if_neg hb] at h
  by_cases hcnd : 0xE0 ≤ b0 ∧ b0 ≤ 0xEF
  · rw [if_pos hcnd] at h
    rcases h1 : l[1]? with - | b1 <;> rw [h1] at h
    · exact absurd h (by simp)
    rcases h2 : l[2]? with - | b2 <;> rw [h2] at h
    · exact absurd h (by simp)
    dsimp only at h
    have hlen2 := getElem?_lt_len h2
    by_cases hcc2 : (if b0 = 0xE0 then 0xA0 ≤ b1 ∧ b1 ≤ 0xBF
        else if b0 = 0xED then 0x80 ≤ b1 ∧ b1 ≤ 0x9F
        else 0x80 ≤ b1 ∧ b1 ≤ 0xBF) ∧ (0x80 ≤ b2 ∧ b2 ≤ 0xBF)
    · rw [if_pos hcc2] at h
      obtain ⟨rfl, rfl⟩ :
          c = Char.ofNat ((b0 - 0xE0) * 0x1000 + (b1 - 0x80) * 0x40 + (b2 - 0x80)) ∧ 3 = k := by
        cases h; exact ⟨rfl, rfl⟩
      have hb1 : (b0 = 0xE0 ∧ 0xA0 ≤ b1 ∧ b1 ≤ 0xBF) ∨ (b0 = 0xED ∧ 0x80 ≤ b1 ∧ b1 ≤ 0x9F) ∨
          (b0 ≠ 0xE0 ∧ b0 ≠ 0xED ∧ 0x80 ≤ b1 ∧ b1 ≤ 0xBF) := by
        rcases hcc2 with ⟨hx, -⟩
        split at hx
        · left; exact ⟨by assumption, hx⟩
        · split at hx
          · right; left; exact ⟨by assumption, hx⟩
          · right; right; exact ⟨by assumption, by assumption, hx⟩
      refine ⟨by omega, by omega, by omega, ?_, ?_⟩
      · rw [utf8DecodeFirst.eq_def]
        have e0 : (l.take 3)[0]? = some b0 := by rw [List.getElem?_take]; simpa using h0
        have e1 : (l.take 3)[1]? = some b1 := by rw [List.getElem?_take]; simpa using h1
        have e2 : (l.take 3)[2]? = some b2 := by rw [List.getElem?_take]; simpa using h2
        rw [e0]
        dsimp only
        rw [if_neg ha, if_neg hb, if_pos hcnd, e1, e2]
        dsimp only
        rw [if_pos hcc2]
      · intro hcc
        rw [char_toNat_ofNat_eq] at hcc
        obtain ⟨-, hb2⟩ := hcc2
        split at hcc <;> simp only [Nat.isValidChar] at * <;> omega
    · rw [if_neg hcc2] at h; exact absurd h (by simp)
  rw [if_neg hcnd] at h
  by_cases hd : 0xF0 ≤ b0 ∧ b0 ≤ 0xF4
  · rw [if_pos hd] at h
    rcases h1 : l[1]? with - | b1 <;> rw [h1] at h
    · exact absurd h (by simp)
    rcases h2 : l[2]? with - | b2 <;> rw [h2] at h
    · exact absurd h (by simp)
    rcases h3 : l[3]? with - | b3 <;> rw [h3] at h
    · exact absurd h (by simp)
    dsimp only at h
    have hlen3 := getElem?_lt_len h3
    by_cases hcc2 : (if b0 = 0xF0 then 0x90 ≤ b1 ∧ b1 ≤ 0xBF
        else if b0 = 0xF4 then 0x80 ≤ b1 ∧ b1 ≤ 0x8F
        else 0x80 ≤ b1 ∧ b1 ≤ 0xBF) ∧ (0x80 ≤ b2 ∧ b2 ≤ 0xBF) ∧ (0x80 ≤ b3 ∧ b3 ≤ 0xBF)
    · rw [if_pos hcc2] at h
      obtain ⟨rfl, rfl⟩ :
          c = Char.ofNat ((b0 - 0xF0) * 0x40000 + (b1 - 0x80) * 0x1000 +
            (b2 - 0x80) * 0x40 + (b3 - 0x80)) ∧ 4 = k := by
        cases h; exact ⟨rfl, rfl⟩
      have hb1 : (b0 = 0xF0 ∧ 0x90 ≤ b1 ∧ b1 ≤ 0xBF) ∨ (b0 = 0xF4 ∧ 0x80 ≤ b1 ∧ b1 ≤ 0x8F) ∨
          (b0 ≠ 0xF0 ∧ b0 ≠ 0xF4 ∧ 0x80 ≤ b1 ∧ b1 ≤ 0xBF) := by
        rcases hcc2 with ⟨hx, -⟩
        split at hx
        · left; exact ⟨by assumption, hx⟩
        · split at hx
          · right; left; exact ⟨by assumption, hx⟩
          · right; right; exact ⟨by assumption, by assumption, hx⟩
      refine ⟨by omega, by omega, by omega, ?_, ?_⟩
      · rw [utf8DecodeFirst.eq_def]
        have e0 : (l.take 4)[0]? = some b0 := by rw [List.getElem?_take]; simpa using h0
        have e1 : (l.take 4)[1]? = some b1 := by rw [List.getElem?_take]; simpa using h1
        have e2 : (l.take 4)[2]? = some b2 := by rw [List.getElem?_take]; simpa using h2
        have e3 : (l.take 4)[3]? = some b3 := by rw [List.getElem?_take]; simpa using h3
        rw [e0]
        dsimp only
        rw [if_neg ha, if_neg hb, if_neg hcnd, if_pos hd, e1, e2, e3]
        dsimp only
        rw [if_pos hcc2]
      · intro hcc
        rw [char_toNat_ofNat_eq] at hcc
        obtain ⟨-, hb2, hb3⟩ := hcc2
        split at hcc <;> simp only [Nat.isValidChar] at * <;> omega
    · rw [if_neg hcc2] at h; exact absurd h (by simp)
  rw [if_neg hd] at h
  exact absurd h (by simp)

theorem utf8DecodeAux_length : ∀ (fuel : Nat) (l : List Nat) (cs : List Char),
    utf8DecodeAux fuel l = some cs → cs.length ≤ l.length := by
  intro fuel
  induction fuel with
  | zero =>
    intro l cs h
    cases l with
    | nil => cases h; simp
    | cons x xs => exact absurd h (by simp [utf8DecodeAux])
  | succ fuel ih =>
    intro l cs h
    cases l with
    | nil => cases h; simp
    | cons x xs =>
      rw [utf8DecodeAux.eq_def] at h
      dsimp only at h
      match hd : utf8DecodeFirst (x :: xs) with
      | none => rw [hd] at h; exact absurd h (by simp)
      | some (c, k) =>
        rw [hd] at h
        dsimp only at h
        obtain ⟨hk1, -, hkl, -, -⟩ := utf8DecodeFirst_spec hd
        match hrec : utf8DecodeAux fuel ((x :: xs).drop k) with
        | none => rw [hrec] at h; exact absurd h (by simp)
        | some cs' =>
          rw [hrec] at h
          cases h
          have := ih _ _ hrec
          simp only [List.length_drop] at this
          simp only [List.length_cons] at *
          omega

theorem toStr_chars_le {l : List Nat} {w : String} (h : toStr l = some w) :
    w.data.length ≤ l.length := by
  unfold toStr at h
  match hd : utf8DecodeAux l.length l with
  | none => rw [hd] at h; exact absurd h (by simp)
  | some cs =>
    rw [hd] at h
    cases h
    exact utf8DecodeAux_length _ _ _ hd

theorem isUtf8_singleton_ascii {b : Nat} (hb : b ≤ 0x7F) : isUtf8 [b] = true := by
  unfold isUtf8 toStr
  simp [utf8DecodeAux, utf8DecodeFirst, hb]

theorem isUtf8_take_of_decodeFirst {l : List Nat} {c : Char} {k : Nat}
    (h : utf8DecodeFirst l = some (c, k)) : isUtf8 (l.take k) = true := by
  obtain ⟨hk1, hk4, hkl, htake, -⟩ := utf8DecodeFirst_spec h
  unfold isUtf8 toStr
  have hlen : (l.take k).length = k := by
    simp only [List.length_take]
    omega
  rw [hlen]
  obtain ⟨k', rfl⟩ : ∃ k', k = k' + 1 := ⟨k - 1, by omega⟩
  match htl : l.take (k' + 1) with
  | [] => simp [utf8DecodeAux]
  | x :: xs =>
    rw [utf8DecodeAux.eq_def]
    dsimp only
    rw [htl] at htake
    rw [htake]
    dsimp only
    have hdrop : (x :: xs).drop (k' + 1) = [] := by
      rw [← htl]
      rw [List.drop_take]
      simp
    rw [hdrop]
    rw [show utf8DecodeAux k' [] = some [] from by cases k' <;> rfl]
    simp

theorem extract_single {e : EStr} {i b : Nat} (h : e[i]? = some b) :
    extract e i (i + 1) = [b] := by
  unfold extract
  rw [Nat.add_sub_cancel_left]
  match hd : e.drop i with
  | [] =>
    have : (e.drop i)[0]? = e[i]? := by simp [List.getElem?_drop]
    rw [hd] at this
    rw [h] at this
    exact absurd this (by simp)
  | x :: xs =>
    have : (e.drop i)[0]? = e[i]? := by simp [List.getElem?_drop]
    rw [hd, h] at this
    simp only [List.getElem?_cons_zero] at this
    cases this
    rfl

theorem boundaryOK_zero (e : EStr) : boundaryOK e 0 = true := by simp [boundaryOK]

theorem boundaryOK_len (e : EStr) : boundaryOK e e.length = true := by simp [boundaryOK]

theorem boundaryOK_of_ascii_at {e : EStr} {i b : Nat} (h : e[i]? = some b) (hb : b ≤ 0x7F) :
    boundaryOK e i = true := by
  have hlt := getElem?_lt_len h
  have h3 : (decide (i + 1 ≤ e.length) && isUtf8 (extract e i (i + 1))) = true := by
    rw [extract_single h]
    simp only [isUtf8_singleton_ascii hb, Bool.and_true, decide_eq_true_eq]
    omega
  simp [boundaryOK, h3]

theorem boundaryOK_of_ascii_before {e : EStr} {i b : Nat} (h : e[i - 1]? = some b)
    (hb : b ≤ 0x7F) (h1 : 1 ≤ i) : boundaryOK e i = true := by
  have hlt := getElem?_lt_len h
  have hx : extract e (i - 1) i = [b] := by
    have := extract_single h
    rwa [show i - 1 + 1 = i by omega] at this
  have h3 : (decide (1 ≤ i) && decide (i ≤ e.length) && isUtf8 (extract e (i - 1) i)) = true := by
    rw [hx]
    simp only [isUtf8_singleton_ascii hb, Bool.and_true, Bool.and_eq_true, decide_eq_true_eq]
    omega
  simp [boundaryOK, h3]

theorem boundaryOK_after_char {e : EStr} {p : Nat} {c : Char} {k : Nat}
    (h : utf8DecodeFirst (e.drop p) = some (c, k)) :
    boundaryOK e (p + k) = true := by
  obtain ⟨hk1, hk4, hkl, -, -⟩ := utf8DecodeFirst_spec h
  simp only [List.length_drop] at hkl
  have hwin : extract e p (p + k) = (e.drop p).take k := by
    unfold extract
    rw [Nat.add_sub_cancel_left]
  have hu : isUtf8 (extract e p (p + k)) = true := by
    rw [hwin]
    exact isUtf8_take_of_decodeFirst h
  have hcond : k ≤ p + k ∧ p + k ≤ e.length := by omega
  interval_cases k <;> simp [boundaryOK, hu, hcond.2]

theorem listEndsWith_single {b : Nat} {l : List Nat} :
    listEndsWith [b] l = true ↔ 1 ≤ l.length ∧ l[l.length - 1]? = some b := by
  unfold listEndsWith
  simp only [List.length_singleton, Bool.and_eq_true, decide_eq_true_eq]
  constructor
  · rintro ⟨h1, h2⟩
    refine ⟨h1, ?_⟩
    have : (l.drop (l.length - 1))[0]? = l[l.length - 1 + 0]? := List.getElem?_drop l _ 0
    rw [h2] at this
    simpa using this.symm
  · rintro ⟨h1, h2⟩
    refine ⟨h1, ?_⟩
    have hlen : (l.drop (l.length - 1)).length = 1 := by
      rw [List.length_drop]
      omega
    have hget : (l.drop (l.length - 1))[0]? = some b := by
      rw [List.getElem?_drop]
      simpa using h2
    match hd : l.drop (l.length - 1) with
    | [] => rw [hd] at hlen; simp at hlen
    | [x] =>
      rw [hd] at hget
      simp only [List.getElem?_cons_zero] at hget
      cases hget
      rfl
    | x :: y :: xs => rw [hd] at hlen; simp at hlen

theorem envEndsWith_sep {l : List Nat} :
    envEndsWith l sepChar = true ↔ 1 ≤ l.length ∧ l[l.length - 1]? = some 31 := by
  unfold envEndsWith
  rw [utf8EncodeChar_ascii (by decide)]
  exact listEndsWith_single

theorem drop_append_shift (pre e : List Nat) (m : Nat) :
    (pre ++ e).drop (pre.length + m) = e.drop m := by
  simp [List.drop_append]

theorem take_append_shift (pre e : List Nat) (m : Nat) :
    (pre ++ e).take (pre.length + m) = pre ++ e.take m := by
  simp [List.take_append]

theorem extract_shift (pre e : List Nat) (a b : Nat) :
    extract (pre ++ e) (pre.length + a) (pre.length + b) = extract e a b := by
  unfold extract
  rw [drop_append_shift]
  congr 1
  omega

theorem extract_zero (e : EStr) (i : Nat) : extract e 0 i = e.take i := by
  unfold extract
  simp

theorem envSplitOnce_eq {e : EStr} {c : Char} (hc : c.toNat ≤ 0x7F) {x y : EStr}
    (h : envSplitOnce e c = some (x, y)) :
    ∃ i, i < e.length ∧ e[i]? = some c.toNat ∧ (∀ j, j < i → e[j]? ≠ some c.toNat) ∧
      x = e.take i ∧ y = e.drop (i + 1) := by
  unfold envSplitOnce at h
  match hf : envFind e c with
  | none => rw [hf] at h; exact absurd h (by simp)
  | some i =>
    rw [hf] at h
    obtain ⟨hlt, hat, hbef⟩ := envFind_ascii_some hc hf
    cases h
    refine ⟨i, hlt, hat, hbef, extract_zero e i, ?_⟩
    rw [utf8EncodeChar_ascii hc]
    simp only [List.length_singleton]
    exact extract_to_end e (i + 1)

theorem envSplitOnce_none {e : EStr} {c : Char} (hc : c.toNat ≤ 0x7F)
    (h : envSplitOnce e c = none) : ∀ (j : Nat), e[j]? ≠ some c.toNat := by
  unfold envSplitOnce at h
  match hf : envFind e c with
  | some i => rw [hf] at h; exact absurd h (by simp)
  | none => exact envFind_ascii_none hc hf

theorem emitVocab_len {txt : String} {em : Emit} (h : emitVocab txt = some em) :
    3 ≤ txt.data.length := by
  unfold emitVocab at h
  split at h
  all_goals first
    | decide
    | exact absurd h (by simp)

theorem crateTypeVocab_len {txt : String} {t : CrateType} (h : crateTypeVocab txt = some t) :
    3 ≤ txt.data.length := by
  unfold crateTypeVocab at h
  split at h
  all_goals first
    | decide
    | exact absurd h (by simp)

/-- The facts about one result of the `--emit` comma-list loop that the
repeat machinery depends on: a nonzero reported remaining length is at
least 4 short of the argument (a recognized element of at least 3 bytes
plus the separating comma was consumed), and the byte just before the
remaining slice is that comma. -/
theorem emitGo_facts : ∀ (fuel : Nat) (arg : EStr) (flag : Flag) (rep : Nat),
    emitGo fuel arg = some (flag, rep) →
    rep = 0 ∨ (rep + 4 ≤ arg.length ∧ arg[arg.length - rep - 1]? = some 0x2C) := by
  intro fuel
  induction fuel with
  | zero => intro arg flag rep h; exact absurd h (by simp [emitGo])
  | succ fuel ih =>
    intro arg flag rep h
    match arg with
    | [] => exact absurd h (by simp [emitGo])
    | a :: arest =>
      rw [emitGo] at h
      match hsp : envSplitOnce (a :: arest) ',' with
      | some (first, rest) =>
        rw [hsp] at h
        dsimp only at h
        obtain ⟨i, hlt, hat, -, rfl, rfl⟩ := envSplitOnce_eq (by decide) hsp
        have hfl : ((a :: arest).take i).length = i := by
          rw [List.length_take]
          omega
        have hrl : ((a :: arest).drop (i + 1)).length = (a :: arest).length - i - 1 := by
          rw [List.length_drop]
          omega
        match hts : toStr ((a :: arest).take i) with
        | none =>
          rw [hts] at h
          dsimp only at h
          rcases ih _ _ _ h with h0 | ⟨hle, hcm⟩
          · exact Or.inl h0
          · refine Or.inr ⟨by omega, ?_⟩
            rw [List.getElem?_drop] at hcm
            rw [show (a :: arest).length - rep - 1 =
              i + 1 + (((a :: arest).drop (i + 1)).length - rep - 1) from by omega] at *
            exact hcm
        | some txt =>
          rw [hts] at h
          dsimp only at h
          have htxtlen := toStr_chars_le hts
          match hv : emitVocab txt with
          | some em =>
            rw [hv] at h
            cases h
            by_cases hz : ((a :: arest).drop (i + 1)).length = 0
            · exact Or.inl hz
            · have h3 : 3 ≤ txt.data.length := emitVocab_len hv
              refine Or.inr ⟨by omega, ?_⟩
              rw [show (a :: arest).length - ((a :: arest).drop (i + 1)).length - 1 = i from by
                omega]
              exact hat
          | none =>
            rw [hv] at h
            rcases ih _ _ _ h with h0 | ⟨hle, hcm⟩
            · exact Or.inl h0
            · refine Or.inr ⟨by omega, ?_⟩
              rw [List.getElem?_drop] at hcm
              rw [show (a :: arest).length - rep - 1 =
                i + 1 + (((a :: arest).drop (i + 1)).length - rep - 1) from by omega] at *
              exact hcm
      | none =>
        rw [hsp] at h
        dsimp only at h
        match hts : toStr (a :: arest) with
        | none =>
          rw [hts] at h
          dsimp only at h
          exact absurd h (by cases fuel <;> simp [emitGo])
        | some txt =>
          rw [hts] at h
          dsimp only at h
          match hv : emitVocab txt with
          | some em =>
            rw [hv] at h
            cases h
            exact Or.inl rfl
          | none =>
            rw [hv] at h
            exact absurd h (by cases fuel <;> simp [emitGo])

/-- The facts about one result of the `--crate-type` comma-list loop that the
repeat machinery depends on: a nonzero reported remaining length is at
least 4 short of the argument (a recognized element of at least 3 bytes
plus the separating comma was consumed), and the byte just before the
remaining slice is that comma. -/
theorem crateTypeGo_facts : ∀ (fuel : Nat) (arg : EStr) (flag : Flag) (rep : Nat),
    crateTypeGo fuel arg = some (flag, rep) →
    rep = 0 ∨ (rep + 4 ≤ arg.length ∧ arg[arg.length - rep - 1]? = some 0x2C) := by
  intro fuel
  induction fuel with
  | zero => intro arg flag rep h; exact absurd h (by simp [crateTypeGo])
  | succ fuel ih =>
    intro arg flag rep h
    match arg with
    | [] => exact absurd h (by simp [crateTypeGo])
    | a :: arest =>
      rw [crateTypeGo] at h
      match hsp : envSplitOnce (a :: arest) ',' with
      | some (first, rest) =>
        rw [hsp] at h
        dsimp only at h
        obtain ⟨i, hlt, hat, -, rfl, rfl⟩ := envSplitOnce_eq (by decide) hsp
        have hfl : ((a :: arest).take i).length = i := by
          rw [List.length_take]
          omega
        have hrl : ((a :: arest).drop (i + 1)).length = (a :: arest).length - i - 1 := by
          rw [List.length_drop]
          omega
        match hts : toStr ((a :: arest).take i) with
        | none =>
          rw [hts] at h
          dsimp only at h
          rcases ih _ _ _ h with h0 | ⟨hle, hcm⟩
          · exact Or.inl h0
          · refine Or.inr ⟨by omega, ?_⟩
            rw [List.getElem?_drop] at hcm
            rw [show (a :: arest).length - rep - 1 =
              i + 1 + (((a :: arest).drop (i + 1)).length - rep - 1) from by omega] at *
            exact hcm
        | some txt =>
          rw [hts] at h
          dsimp only at h
          have htxtlen := toStr_chars_le hts
          match hv : crateTypeVocab txt with
          | some t =>
            rw [hv] at h
            cases h
            by_cases hz : ((a :: arest).drop (i + 1)).length = 0
            · exact Or.inl hz
            · have h3 : 3 ≤ txt.data.length := crateTypeVocab_len hv
              refine Or.inr ⟨by omega, ?_⟩
              rw [show (a :: arest).length - ((a :: arest).drop (i + 1)).length - 1 = i from by
                omega]
              exact hat
          | none =>
            rw [hv] at h
            rcases ih _ _ _ h with h0 | ⟨hle, hcm⟩
            · exact Or.inl h0
            · refine Or.inr ⟨by omega, ?_⟩
              rw [List.getElem?_drop] at hcm
              rw [show (a :: arest).length - rep - 1 =
                i + 1 + (((a :: arest).drop (i + 1)).length - rep - 1) from by omega] at *
              exact hcm
      | none =>
        rw [hsp] at h
        dsimp only at h
        match hts : toStr (a :: arest) with
        | none =>
          rw [hts] at h
          dsimp only at h
          exact absurd h (by cases fuel <;> simp [crateTypeGo])
        | some txt =>
          rw [hts] at h
          dsimp only at h
          match hv : crateTypeVocab txt with
          | some t =>
            rw [hv] at h
            cases h
            exact Or.inl rfl
          | none =>
            rw [hv] at h
            exact absurd h (by cases fuel <;> simp [crateTypeGo])

theorem runRepeat_facts {rf : RepFn} {arg : EStr} {flag : Flag} {rep : Nat}
    (h : runRepeat rf arg = some (flag, rep)) :
    rep = 0 ∨ (rep + 4 ≤ arg.length ∧ arg[arg.length - rep - 1]? = some 0x2C) := by
  cases rf with
  | crateTypeFn => exact crateTypeGo_facts _ _ _ _ h
  | emitFn => exact emitGo_facts _ _ _ _ h

theorem stepSkipT_basic {s : St} (hpos : s.pos < s.encoded.length) :
    ∀ sk' s', stepSkipT s = .cont sk' s' →
      s'.encoded = s.encoded ∧ s.pos < s'.pos ∧ sk' = false ∧
        s'.repeatSt = s.repeatSt ∧ s'.short = s.short := by
  intro sk' s' h
  unfold stepSkipT at h
  match hf : envFind (extract s.encoded s.pos s.encoded.length) sepChar with
  | some i =>
    rw [hf] at h
    cases h
    exact ⟨rfl, by show s.pos < s.pos + i + 1; omega, rfl, rfl, rfl⟩
  | none =>
    rw [hf] at h
    cases h
    exact ⟨rfl, by show s.pos < s.encoded.length; omega, rfl, rfl, rfl⟩

theorem stepSkipT_no_ret {s : St} : ∀ r s', stepSkipT s ≠ .ret r s' := by
  intro r s' h
  unfold stepSkipT at h
  match hf : envFind (extract s.encoded s.pos s.encoded.length) sepChar with
  | some i => rw [hf] at h; cases h
  | none => rw [hf] at h; cases h

theorem applyCtorT_basic {k : CtorKind} {arg : EStr} {s : St} {u : Nat}
    (hwf : WfLite s) (hb1 : u < s.pos) (hb2 : u + arg.length ≤ s.pos) :
    (∀ sk' s', applyCtorT k arg s = .cont sk' s' → sk' = false ∧ s' = s) ∧
    (∀ r s', applyCtorT k arg s = .ret r s' →
      s'.encoded = s.encoded ∧ u < s'.pos ∧ s'.pos ≤ s.pos ∧ WfLite s' ∧
        r.isSome = true) := by
  constructor
  · intro sk' s' h
    unfold applyCtorT at h
    match k with
    | .optC f =>
      dsimp only at h
      match hf : f arg with
      | some flag => rw [hf] at h; cases h
      | none => rw [hf] at h; cases h; exact ⟨rfl, rfl⟩
    | .repC rf =>
      dsimp only at h
      match hf : runRepeat rf arg with
      | some (flag, rep) =>
        rw [hf] at h
        dsimp only at h
        split at h <;> cases h
      | none => rw [hf] at h; cases h; exact ⟨rfl, rfl⟩
  · intro r s' h
    unfold applyCtorT at h
    match k with
    | .optC f =>
      dsimp only at h
      match hf : f arg with
      | some flag =>
        rw [hf] at h
        cases h
        exact ⟨rfl, by omega, by omega, hwf, rfl⟩
      | none => rw [hf] at h; cases h
    | .repC rf =>
      dsimp only at h
      match hf : runRepeat rf arg with
      | some (flag, rep) =>
        rw [hf] at h
        dsimp only at h
        by_cases h0 : rep = 0
        · subst h0
          rw [if_neg (by omega)] at h
          cases h
          exact ⟨rfl, by omega, by omega, hwf, rfl⟩
        · rcases runRepeat_facts hf with hz | ⟨hle, -⟩
          · exact absurd hz h0
          rw [if_pos (by omega)] at h
          cases h
          refine ⟨rfl, ?_, ?_, ?_, rfl⟩
          · dsimp only
            split <;> omega
          · dsimp only
            split <;> omega
          · intro rf' r' hr'
            dsimp only at hr'
            cases hr'
            omega
      | none => rw [hf] at h; cases h

theorem stepRepeatT_basic {g : RepFn} {rep : Nat} {s : St} (hrep : 1 ≤ rep) :
    (∀ sk' s', stepRepeatT g rep s = .cont sk' s' →
      sk' = false ∧ s'.encoded = s.encoded ∧ s'.pos = s.pos + rep ∧
        s'.repeatSt = none ∧ s'.short = s.short) ∧
    (∀ r s', stepRepeatT g rep s = .ret r s' →
      s'.encoded = s.encoded ∧ s.pos < s'.pos ∧ s'.pos ≤ s.pos + rep ∧ WfLite s' ∧
        r.isSome = true) := by
  unfold stepRepeatT
  have hwfmid : WfLite { s with pos := s.pos + rep, repeatSt := none } := by
    intro rf' r' hr'
    simp at hr'
  have hb1 : s.pos < ({ s with pos := s.pos + rep, repeatSt := none } : St).pos := by
    dsimp only
    omega
  have hb2 : s.pos + (extract s.encoded s.pos (s.pos + rep)).length ≤
      ({ s with pos := s.pos + rep, repeatSt := none } : St).pos := by
    dsimp only
    rw [extract_length]
    omega
  obtain ⟨hcont, hret⟩ := applyCtorT_basic hwfmid hb1 hb2
  constructor
  · intro sk' s' h
    obtain ⟨hsk, rfl⟩ := hcont sk' s' h
    exact ⟨hsk, rfl, rfl, rfl, rfl⟩
  · intro r s' h
    obtain ⟨henc, hgt, hle, hwf', hsome⟩ := hret r s' h
    exact ⟨henc, hgt, hle, hwf', hsome⟩

theorem sepChar_toNat : sepChar.toNat = 31 := by decide

theorem envStartsWith_extract_sep {e : EStr} {p : Nat}
    (h : envStartsWith (extract e p e.length) sepChar = true) : e[p]? = some 31 := by
  rw [envStartsWith_ascii (by decide)] at h
  rw [extract_getElem?, sepChar_toNat] at h
  split at h
  · simpa using h
  · exact absurd h (by simp)

theorem envFind_extract_sep_some {e : EStr} {p i : Nat}
    (h : envFind (extract e p e.length) sepChar = some i) :
    p + i < e.length ∧ e[p + i]? = some 31 ∧ ∀ (j : Nat), j < i → e[p + j]? ≠ some 31 := by
  obtain ⟨hlt, hat, hbef⟩ := envFind_ascii_some (by decide) h
  rw [extract_length, Nat.min_self] at hlt
  rw [extract_getElem?, if_pos hlt, sepChar_toNat] at hat
  refine ⟨by omega, hat, ?_⟩
  intro j hj hcon
  have := hbef j hj
  rw [extract_getElem?, if_pos (by omega), sepChar_toNat] at this
  exact this hcon

theorem envFind_extract_sep_none {e : EStr} {p : Nat}
    (h : envFind (extract e p e.length) sepChar = none) :
    ∀ (j : Nat), p ≤ j → j < e.length → e[j]? ≠ some 31 := by
  intro j hj1 hj2 hcon
  have := envFind_ascii_none (by decide) h (j - p)
  rw [extract_getElem?, if_pos (by omega), sepChar_toNat,
    show p + (j - p) = j from by omega] at this
  exact this hcon

theorem utf8DecodeFirst_char_range {l : List Nat} {c : Char} {k : Nat}
    (h : utf8DecodeFirst l = some (c, k)) :
    (k = 1 ∧ c.toNat ≤ 0x7F) ∨ (k = 2 ∧ 0x80 ≤ c.toNat ∧ c.toNat ≤ 0x7FF) ∨
    (k = 3 ∧ 0x800 ≤ c.toNat ∧ c.toNat ≤ 0xFFFF) ∨
    (k = 4 ∧ 0x10000 ≤ c.toNat ∧ c.toNat ≤ 0x10FFFF) := by
  rw [utf8DecodeFirst.eq_def] at h
  match h0 : l[0]? with
  | none => rw [h0] at h; exact absurd h (by simp)
  | some b0 =>
    rw [h0] at h
    dsimp only at h
    by_cases ha : b0 ≤ 0x7F
    · rw [if_pos ha] at h
      obtain ⟨rfl, rfl⟩ : c = Char.ofNat b0 ∧ 1 = k := by cases h; exact ⟨rfl, rfl⟩
      refine Or.inl ⟨rfl, ?_⟩
      rw [char_toNat_ofNat_eq]
      split <;> omega
    rw [if_neg ha] at h
    by_cases hb : 0xC2 ≤ b0 ∧ b0 ≤ 0xDF
    · rw [if_pos hb] at h
      rcases h1 : l[1]? with - | b1 <;> rw [h1] at h
      · exact absurd h (by simp)
      dsimp only at h
      by_cases hcc : 0x80 ≤ b1 ∧ b1 ≤ 0xBF
      · rw [if_pos hcc] at h
        obtain ⟨rfl, rfl⟩ : c = Char.ofNat ((b0 - 0xC0) * 0x40 + (b1 - 0x80)) ∧ 2 = k := by
          cases h; exact ⟨rfl, rfl⟩
        refine Or.inr (Or.inl ⟨rfl, ?_, ?_⟩) <;>
        · rw [char_toNat_ofNat_eq]
          split <;> simp only [Nat.isValidChar] at * <;> omega
      · rw [if_neg hcc] at h; exact absurd h (by simp)
    rw [if_neg hb] at h
    by_cases hcnd : 0xE0 ≤ b0 ∧ b0 ≤ 0xEF
    · rw [if_pos hcnd] at h
      rcases h1 : l[1]? with - | b1 <;> rw [h1] at h
      · exact absurd h (by simp)
      rcases h2 : l[2]? with - | b2 <;> rw [h2] at h
      · exact absurd h (by simp)
      dsimp only at h
      by_cases hcc2 : (if b0 = 0xE0 then 0xA0 ≤ b1 ∧ b1 ≤ 0xBF
          else if b0 = 0xED then 0x80 ≤ b1 ∧ b1 ≤ 0x9F
          else 0x80 ≤ b1 ∧ b1 ≤ 0xBF) ∧ (0x80 ≤ b2 ∧ b2 ≤ 0xBF)
      · rw [if_pos hcc2] at h
        obtain ⟨rfl, rfl⟩ :
            c = Char.ofNat ((b0 - 0xE0) * 0x1000 + (b1 - 0x80) * 0x40 + (b2 - 0x80)) ∧ 3 = k := by
          cases h; exact ⟨rfl, rfl⟩
        have hb1 : (b0 = 0xE0 ∧ 0xA0 ≤ b1 ∧ b1 ≤ 0xBF) ∨ (b0 = 0xED ∧ 0x80 ≤ b1 ∧ b1 ≤ 0x9F) ∨
            (b0 ≠ 0xE0 ∧ b0 ≠ 0xED ∧ 0x80 ≤ b1 ∧ b1 ≤ 0xBF) := by
          rcases hcc2 with ⟨hx, -⟩
          split at hx
          · left; exact ⟨by assumption, hx⟩
          · split at hx
            · right; left; exact ⟨by assumption, hx⟩
            · right; right; exact ⟨by assumption, by assumption, hx⟩
        obtain ⟨-, hb2⟩ := hcc2
        refine Or.inr (Or.inr (Or.inl ⟨rfl, ?_, ?_⟩)) <;>
        · rw [char_toNat_ofNat_eq]
          split <;> simp only [Nat.isValidChar] at * <;> omega
      · rw [if_neg hcc2] at h; exact absurd h (by simp)
    rw [if_neg hcnd] at h
    by_cases hd : 0xF0 ≤ b0 ∧ b0 ≤ 0xF4
    · rw [if_pos hd] at h
      rcases h1 : l[1]? with - | b1 <;> rw [h1] at h
      · exact absurd h (by simp)
      rcases h2 : l[2]? with - | b2 <;> rw [h2] at h
      · exact absurd h (by simp)
      rcases h3 : l[3]? with - | b3 <;> rw [h3] at h
      · exact absurd h (by simp)
      dsimp only at h
      by_cases hcc2 : (if b0 = 0xF0 then 0x90 ≤ b1 ∧ b1 ≤ 0xBF
          else if b0 = 0xF4 then 0x80 ≤ b1 ∧ b1 ≤ 0x8F
          else 0x80 ≤ b1 ∧ b1 ≤ 0xBF) ∧ (0x80 ≤ b2 ∧ b2 ≤ 0xBF) ∧ (0x80 ≤ b3 ∧ b3 ≤ 0xBF)
      · rw [if_pos hcc2] at h
        obtain ⟨rfl, rfl⟩ :
            c = Char.ofNat ((b0 - 0xF0) * 0x40000 + (b1 - 0x80) * 0x1000 +
              (b2 - 0x80) * 0x40 + (b3 - 0x80)) ∧ 4 = k := by
          cases h; exact ⟨rfl, rfl⟩
        have hb1 : (b0 = 0xF0 ∧ 0x90 ≤ b1 ∧ b1 ≤ 0xBF) ∨ (b0 = 0xF4 ∧ 0x80 ≤ b1 ∧ b1 ≤ 0x8F) ∨
            (b0 ≠ 0xF0 ∧ b0 ≠ 0xF4 ∧ 0x80 ≤ b1 ∧ b1 ≤ 0xBF) := by
          rcases hcc2 with ⟨hx, -⟩
          split at hx
          · left; exact ⟨by assumption, hx⟩
          · split at hx
            · right; left; exact ⟨by assumption, hx⟩
            · right; right; exact ⟨by assumption, by assumption, hx⟩
        obtain ⟨-, hb2, hb3⟩ := hcc2
        refine Or.inr (Or.inr (Or.inr ⟨rfl, ?_, ?_⟩)) <;>
        · rw [char_toNat_ofNat_eq]
          split <;> simp only [Nat.isValidChar] at * <;> omega
      · rw [if_neg hcc2] at h; exact absurd h (by simp)
    rw [if_neg hd] at h
    exact absurd h (by simp)

theorem utf8DecodeFirst_encLen {l : List Nat} {c : Char} {k : Nat}
    (h : utf8DecodeFirst l = some (c, k)) : (utf8EncodeChar c).length = k := by
  rcases utf8DecodeFirst_char_range h with ⟨rfl, h1⟩ | ⟨rfl, h1, h2⟩ | ⟨rfl, h1, h2⟩ |
    ⟨rfl, h1, h2⟩ <;>
  · unfold utf8EncodeChar
    dsimp only
    split_ifs <;> simp only [List.length_cons, List.length_nil] <;> omega

theorem envFirstChar_valid {e : EStr} {ch : Char} (h : envFirstChar e = some (.valid ch)) :
    ∃ k, utf8DecodeFirst e = some (ch, k) := by
  unfold envFirstChar at h
  match e with
  | [] => cases h
  | x :: xs =>
    dsimp only at h
    match hd : utf8DecodeFirst (x :: xs) with
    | some (c, k) =>
      rw [hd] at h
      cases h
      exact ⟨k, rfl⟩
    | none => rw [hd] at h; cases h

theorem envFirstChar_ne_none {e : EStr} (hne : e ≠ []) : envFirstChar e ≠ none := by
  unfold envFirstChar
  match e with
  | [] => exact absurd rfl hne
  | x :: xs =>
    dsimp only
    match utf8DecodeFirst (x :: xs) with
    | some (c, k) => simp
    | none => simp

theorem argScanT_basic {k : CtorKind} {p : Nat} {s : St} {b : Nat} (hwf : WfLite s)
    (hb1 : b ≤ p) (hb2 : b < s.encoded.length) :
    (∀ sk' s', argScanT k p s = .cont sk' s' →
      sk' = false ∧ s'.encoded = s.encoded ∧ b < s'.pos ∧
        s'.repeatSt = s.repeatSt ∧ s'.short = s.short) ∧
    (∀ r s', argScanT k p s = .ret r s' →
      s'.encoded = s.encoded ∧ b < s'.pos ∧ WfLite s' ∧ r.isSome = true) := by
  unfold argScanT
  match hf : envFind (extract s.encoded p s.encoded.length) sepChar with
  | some i =>
    have hwf2 : WfLite { s with pos := p + i + 1 } := fun rf r hr => hwf rf r hr
    have harg : (extract s.encoded p (p + i)).length ≤ i := by
      rw [extract_length]; omega
    obtain ⟨hcont, hret⟩ := applyCtorT_basic (u := p) hwf2
      (show p < p + i + 1 by omega)
      (show p + (extract s.encoded p (p + i)).length ≤ p + i + 1 by omega)
    constructor
    · intro sk' s' h
      obtain ⟨hsk, rfl⟩ := hcont sk' s' h
      exact ⟨hsk, rfl, show b < p + i + 1 by omega, rfl, rfl⟩
    · intro r s' h
      obtain ⟨henc, hgt, -, hwf', hsome⟩ := hret r s' h
      exact ⟨henc, by omega, hwf', hsome⟩
  | none =>
    have hwf2 : WfLite { s with pos := s.encoded.length } := fun rf r hr => hwf rf r hr
    have harg : (extract s.encoded p s.encoded.length).length = s.encoded.length - p := by
      rw [extract_length, Nat.min_self]
    obtain ⟨hcont, hret⟩ := applyCtorT_basic (u := b) hwf2
      (show b < s.encoded.length by omega)
      (show b + (extract s.encoded p s.encoded.length).length ≤ s.encoded.length by omega)
    constructor
    · intro sk' s' h
      obtain ⟨hsk, rfl⟩ := hcont sk' s' h
      exact ⟨hsk, rfl, show b < s.encoded.length by omega, rfl, rfl⟩
    · intro r s' h
      obtain ⟨henc, hgt, -, hwf', hsome⟩ := hret r s' h
      exact ⟨henc, hgt, hwf', hsome⟩

theorem shortArgT_basic {k : CtorKind} {s0 : St} (hwf : WfLite s0)
    (hlen : s0.pos ≤ s0.encoded.length) :
    (∀ sk' s', shortArgT k s0 = .cont sk' s' →
      sk' = false ∧ s'.encoded = s0.encoded ∧ s0.pos < s'.pos ∧
        s'.repeatSt = s0.repeatSt ∧ s'.short = false) ∧
    (∀ r s', shortArgT k s0 = .ret r s' →
      s'.encoded = s0.encoded ∧ s0.pos ≤ s'.pos ∧ WfLite s' ∧
        (r.isSome = true → s0.pos < s'.pos)) := by
  unfold shortArgT
  by_cases hp : s0.pos = s0.encoded.length
  · rw [if_pos hp]
    constructor
    · intro sk' s' h; cases h
    · intro r s' h
      cases h
      exact ⟨rfl, le_refl _, fun rf r hr => hwf rf r hr, fun hs => absurd hs (by simp)⟩
  · rw [if_neg hp]
    have hwf1 : WfLite { s0 with short := false } := fun rf r hr => hwf rf r hr
    obtain ⟨hcont, hret⟩ := argScanT_basic (b := s0.pos)
      (p := if envStartsWith (extract s0.encoded s0.pos s0.encoded.length) sepChar then
        s0.pos + 1 else s0.pos) (s := { s0 with short := false }) hwf1
      (by split <;> omega) (show s0.pos < s0.encoded.length by omega)
    constructor
    · intro sk' s' h
      obtain ⟨hsk, henc, hlt, hrep, hsh⟩ := hcont sk' s' h
      exact ⟨hsk, henc, hlt, hrep, hsh⟩
    · intro r s' h
      obtain ⟨henc, hlt, hwf', hsome⟩ := hret r s' h
      exact ⟨henc, by omega, hwf', fun _ => hlt⟩

theorem shortLookupT_basic {c : Char} {s : St} (hwf : WfLite s)
    (hlen : s.pos ≤ s.encoded.length) :
    (∀ sk' s', shortLookupT c s = .cont sk' s' →
      s'.encoded = s.encoded ∧ s.pos ≤ s'.pos ∧ s'.repeatSt = s.repeatSt ∧
        (sk' = true → s' = { s with short := false }) ∧ (sk' = false → s.pos < s'.pos)) ∧
    (∀ r s', shortLookupT c s = .ret r s' →
      s'.encoded = s.encoded ∧ s.pos ≤ s'.pos ∧ WfLite s') := by
  unfold shortLookupT
  match lookupShort c with
  | .flagC flag =>
    constructor
    · intro sk' s' h; cases h
    · intro r s' h; cases h; exact ⟨rfl, le_refl _, hwf⟩
  | .unrecognized =>
    constructor
    · intro sk' s' h
      cases h
      exact ⟨rfl, le_refl _, rfl, fun _ => rfl, fun hf => absurd hf (by simp)⟩
    · intro r s' h; cases h
  | .optC f =>
    obtain ⟨hcont, hret⟩ := shortArgT_basic (k := .optC f) hwf hlen
    constructor
    · intro sk' s' h
      obtain ⟨hsk, henc, hlt, hrep, -⟩ := hcont sk' s' h
      subst hsk
      refine ⟨henc, le_of_lt hlt, hrep, fun ht => absurd ht (by simp), fun _ => hlt⟩
    · intro r s' h
      obtain ⟨henc, hle, hwf', -⟩ := hret r s' h
      exact ⟨henc, hle, hwf'⟩
  | .repC rf =>
    obtain ⟨hcont, hret⟩ := shortArgT_basic (k := .repC rf) hwf hlen
    constructor
    · intro sk' s' h
      obtain ⟨hsk, henc, hlt, hrep, -⟩ := hcont sk' s' h
      subst hsk
      refine ⟨henc, le_of_lt hlt, hrep, fun ht => absurd ht (by simp), fun _ => hlt⟩
    · intro r s' h
      obtain ⟨henc, hle, hwf', -⟩ := hret r s' h
      exact ⟨henc, hle, hwf'⟩

theorem stepShortT_basic {s : St} (hwf : WfLite s) (hpos : s.pos < s.encoded.length) :
    (∀ sk' s', stepShortT s = .cont sk' s' →
      s'.encoded = s.encoded ∧ s.pos ≤ s'.pos ∧ s'.repeatSt = s.repeatSt ∧
        (sk' = false → s.pos < s'.pos)) ∧
    (∀ r s', stepShortT s = .ret r s' →
      s'.encoded = s.encoded ∧ s.pos ≤ s'.pos ∧ WfLite s' ∧
        (r.isSome = true → s.pos < s'.pos)) := by
  unfold stepShortT
  match hfc : envFirstChar (extract s.encoded s.pos s.encoded.length) with
  | none =>
    constructor
    · intro sk' s' h; cases h
    · intro r s' h
      cases h
      exact ⟨rfl, le_refl _, hwf, fun hs => absurd hs (by simp)⟩
  | some (.valid ch) =>
    dsimp only
    obtain ⟨kk, hdec⟩ := envFirstChar_valid hfc
    have hklen : kk ≤ s.encoded.length - s.pos := by
      have := (utf8DecodeFirst_spec hdec).2.2.1
      rwa [extract_length, Nat.min_self] at this
    have henck := utf8DecodeFirst_encLen hdec
    have hw : 1 ≤ (utf8EncodeChar ch).length := utf8EncodeChar_length_pos ch
    have hs1len : s.pos + (utf8EncodeChar ch).length ≤ s.encoded.length := by omega
    by_cases hsep : ch = sepChar
    · rw [if_pos hsep]
      constructor
      · intro sk' s' h
        cases h
        exact ⟨rfl, show s.pos ≤ s.pos + (utf8EncodeChar ch).length by omega, rfl,
          fun _ => show s.pos < s.pos + (utf8EncodeChar ch).length by omega⟩
      · intro r s' h; cases h
    · rw [if_neg hsep]
      have hwf1 : WfLite { s with pos := s.pos + (utf8EncodeChar ch).length } :=
        fun rf r hr => hwf rf r hr
      obtain ⟨hcont, hret⟩ := shortLookupT_basic (c := ch) hwf1 hs1len
      constructor
      · intro sk' s' h
        obtain ⟨henc, hle, hrep, -, -⟩ := hcont sk' s' h
        have hle' : s.pos + (utf8EncodeChar ch).length ≤ s'.pos := hle
        exact ⟨henc, by omega, hrep, fun _ => by omega⟩
      · intro r s' h
        obtain ⟨henc, hle, hwf'⟩ := hret r s' h
        have hle' : s.pos + (utf8EncodeChar ch).length ≤ s'.pos := hle
        exact ⟨henc, by omega, hwf', fun _ => by omega⟩
  | some .invalid =>
    have hlk : lookupShort (Char.ofNat 0) = .unrecognized := rfl
    unfold shortLookupT
    rw [hlk]
    constructor
    · intro sk' s' h
      cases h
      exact ⟨rfl, le_refl _, rfl, fun hf => by cases hf⟩
    · intro r s' h; cases h

theorem longArgT_basic {k : CtorKind} {argE : Option EStr} {s : St} {b : Nat}
    (hwf : WfLite s) (hb : b < s.pos) (hlen : s.pos ≤ s.encoded.length)
    (hargE : ∀ arg, argE = some arg → b + arg.length ≤ s.pos) :
    (∀ sk' s', longArgT k argE s = .cont sk' s' →
      sk' = false ∧ s'.encoded = s.encoded ∧ b < s'.pos ∧
        s'.repeatSt = s.repeatSt ∧ s'.short = s.short) ∧
    (∀ r s', longArgT k argE s = .ret r s' →
      s'.encoded = s.encoded ∧ b < s'.pos ∧ WfLite s' ∧ r.isSome = true) := by
  unfold longArgT
  match argE with
  | some arg =>
    obtain ⟨hcont, hret⟩ := applyCtorT_basic (u := b) hwf hb (hargE arg rfl)
    constructor
    · intro sk' s' h
      obtain ⟨hsk, rfl⟩ := hcont sk' s' h
      exact ⟨hsk, rfl, hb, rfl, rfl⟩
    · intro r s' h
      obtain ⟨henc, hgt, -, hwf', hsome⟩ := hret r s' h
      exact ⟨henc, hgt, hwf', hsome⟩
  | none =>
    exact argScanT_basic hwf (le_of_lt hb) (show b < s.encoded.length by omega)

theorem longNameGo_basic {name : EStr} {argE : Option EStr} {s : St} {b : Nat}
    (hwf : WfLite s) (hb : b < s.pos) (hlen : s.pos ≤ s.encoded.length)
    (hargE : ∀ arg, argE = some arg → b + arg.length ≤ s.pos) :
    (∀ sk' s', longNameGo name argE s = .cont sk' s' →
      sk' = false ∧ s'.encoded = s.encoded ∧ b < s'.pos ∧
        s'.repeatSt = s.repeatSt ∧ s'.short = s.short) ∧
    (∀ r s', longNameGo name argE s = .ret r s' →
      s'.encoded = s.encoded ∧ b < s'.pos ∧ WfLite s' ∧ r.isSome = true) := by
  constructor
  · intro sk' s' h
    unfold longNameGo at h
    match hts : toStr name with
    | none => rw [hts] at h; cases h; exact ⟨rfl, rfl, hb, rfl, rfl⟩
    | some nameTxt =>
      rw [hts] at h
      dsimp only at h
      match hlk : lookupLong nameTxt with
      | .flagC flag =>
        rw [hlk] at h
        match argE with
        | none => dsimp only at h; cases h
        | some a => dsimp only at h; cases h; exact ⟨rfl, rfl, hb, rfl, rfl⟩
      | .unrecognized =>
        rw [hlk] at h
        dsimp only at h
        cases h
        exact ⟨rfl, rfl, hb, rfl, rfl⟩
      | .optC f =>
        rw [hlk] at h
        dsimp only at h
        exact (longArgT_basic hwf hb hlen hargE).1 sk' s' h
      | .repC rf =>
        rw [hlk] at h
        dsimp only at h
        exact (longArgT_basic hwf hb hlen hargE).1 sk' s' h
  · intro r s' h
    unfold longNameGo at h
    match hts : toStr name with
    | none => rw [hts] at h; cases h
    | some nameTxt =>
      rw [hts] at h
      dsimp only at h
      match hlk : lookupLong nameTxt with
      | .flagC flag =>
        rw [hlk] at h
        match argE with
        | none =>
          dsimp only at h
          cases h
          exact ⟨rfl, hb, hwf, rfl⟩
        | some a => dsimp only at h; cases h
      | .unrecognized =>
        rw [hlk] at h
        dsimp only at h
        cases h
      | .optC f =>
        rw [hlk] at h
        dsimp only at h
        exact (longArgT_basic hwf hb hlen hargE).2 r s' h
      | .repC rf =>
        rw [hlk] at h
        dsimp only at h
        exact (longArgT_basic hwf hb hlen hargE).2 r s' h

theorem longNameT_basic {flagTok : EStr} {s : St} {b : Nat}
    (hwf : WfLite s) (hb : b < s.pos) (hlen : s.pos ≤ s.encoded.length)
    (htok : b + flagTok.length ≤ s.pos) :
    (∀ sk' s', longNameT flagTok s = .cont sk' s' →
      sk' = false ∧ s'.encoded = s.encoded ∧ b < s'.pos ∧
        s'.repeatSt = s.repeatSt ∧ s'.short = s.short) ∧
    (∀ r s', longNameT flagTok s = .ret r s' →
      s'.encoded = s.encoded ∧ b < s'.pos ∧ WfLite s' ∧ r.isSome = true) := by
  unfold longNameT
  match hsp : envSplitOnce flagTok '=' with
  | some (n, a) =>
    obtain ⟨i, hlt, -, -, rfl, rfl⟩ := envSplitOnce_eq (by decide) hsp
    refine longNameGo_basic hwf hb hlen ?_
    intro arg harg
    cases harg
    have hd : (flagTok.drop (i + 1)).length = flagTok.length - (i + 1) := by
      rw [List.length_drop]
    omega
  | none => exact longNameGo_basic hwf hb hlen (fun arg harg => by cases harg)

theorem longFlagT_basic {s : St} (hwf : WfLite s) (hpos : s.pos < s.encoded.length) :
    (∀ sk' s', longFlagT s = .cont sk' s' →
      sk' = false ∧ s'.encoded = s.encoded ∧ s.pos < s'.pos ∧
        s'.repeatSt = s.repeatSt ∧ s'.short = s.short) ∧
    (∀ r s', longFlagT s = .ret r s' →
      s'.encoded = s.encoded ∧ s.pos < s'.pos ∧ WfLite s' ∧ r.isSome = true) := by
  unfold longFlagT
  match hf : envFind (extract s.encoded (s.pos + 2) s.encoded.length) sepChar with
  | some 0 =>
    constructor
    · intro sk' s' h; cases h; exact ⟨rfl, rfl, hpos, rfl, rfl⟩
    · intro r s' h; cases h
  | some (i + 1) =>
    obtain ⟨hsl, -, -⟩ := envFind_extract_sep_some hf
    have hwf2 : WfLite { s with pos := s.pos + (i + 1) + 3 } := fun rf r hr => hwf rf r hr
    have htokl : (extract s.encoded (s.pos + 2) (s.pos + 2 + (i + 1))).length ≤ i + 1 := by
      rw [extract_length]; omega
    obtain ⟨hcont, hret⟩ := longNameT_basic (b := s.pos) hwf2
      (show s.pos < s.pos + (i + 1) + 3 by omega)
      (show s.pos + (i + 1) + 3 ≤ s.encoded.length by omega)
      (show s.pos + (extract s.encoded (s.pos + 2) (s.pos + 2 + (i + 1))).length ≤
        s.pos + (i + 1) + 3 by omega)
    constructor
    · intro sk' s' h
      obtain ⟨hsk, henc, hlt, hrep, hsh⟩ := hcont sk' s' h
      exact ⟨hsk, henc, hlt, hrep, hsh⟩
    · intro r s' h
      obtain ⟨henc, hlt, hwf', hsome⟩ := hret r s' h
      exact ⟨henc, hlt, hwf', hsome⟩
  | none =>
    have hwf2 : WfLite { s with pos := s.encoded.length } := fun rf r hr => hwf rf r hr
    have htokl : (extract s.encoded (s.pos + 2) s.encoded.length).length =
        s.encoded.length - (s.pos + 2) := by
      rw [extract_length, Nat.min_self]
    obtain ⟨hcont, hret⟩ := longNameT_basic (b := s.pos) hwf2
      (show s.pos < s.encoded.length from hpos)
      (le_refl _)
      (show s.pos + (extract s.encoded (s.pos + 2) s.encoded.length).length ≤
        s.encoded.length by omega)
    constructor
    · intro sk' s' h
      obtain ⟨hsk, henc, hlt, hrep, hsh⟩ := hcont sk' s' h
      exact ⟨hsk, henc, hlt, hrep, hsh⟩
    · intro r s' h
      obtain ⟨henc, hlt, hwf', hsome⟩ := hret r s' h
      exact ⟨henc, hlt, hwf', hsome⟩

theorem stepLongT_basic {s : St} (hwf : WfLite s) (hpos : s.pos < s.encoded.length) :
    (∀ sk' s', stepLongT s = .cont sk' s' →
      sk' = false ∧ s'.encoded = s.encoded ∧ s.pos < s'.pos ∧ s'.repeatSt = s.repeatSt) ∧
    (∀ r s', stepLongT s = .ret r s' →
      s'.encoded = s.encoded ∧ s.pos < s'.pos ∧ WfLite s' ∧ r.isSome = true) := by
  unfold stepLongT
  match hfc : envFirstChar (extract s.encoded (s.pos + 1) s.encoded.length) with
  | none =>
    constructor
    · intro sk' s' h
      cases h
      exact ⟨rfl, rfl, show s.pos < s.pos + 1 by omega, rfl⟩
    · intro r s' h; cases h
  | some (.valid ch) =>
    dsimp only
    by_cases hsep : ch = sepChar
    · rw [if_pos hsep]
      constructor
      · intro sk' s' h
        cases h
        exact ⟨rfl, rfl, show s.pos < s.pos + 2 by omega, rfl⟩
      · intro r s' h; cases h
    · rw [if_neg hsep]
      by_cases hdash : ch = '-'
      · rw [if_pos hdash]
        obtain ⟨hcont, hret⟩ := longFlagT_basic hwf hpos
        constructor
        · intro sk' s' h
          obtain ⟨hsk, henc, hlt, hrep, -⟩ := hcont sk' s' h
          exact ⟨hsk, henc, hlt, hrep⟩
        · intro r s' h
          exact hret r s' h
      · rw [if_neg hdash]
        constructor
        · intro sk' s' h
          cases h
          exact ⟨rfl, rfl, show s.pos < s.pos + 1 by omega, rfl⟩
        · intro r s' h; cases h
  | some .invalid =>
    constructor
    · intro sk' s' h
      cases h
      exact ⟨rfl, rfl, show s.pos < s.pos + 1 by omega, rfl⟩
    · intro r s' h; cases h

theorem stMeasure_true (s : St) : stMeasure true s = 2 * (s.encoded.length - s.pos) := by
  simp [stMeasure]

theorem stMeasure_false (s : St) :
    stMeasure false s = 2 * (s.encoded.length - s.pos) + 1 := by
  simp [stMeasure]

theorem stepT_basic {skip : Bool} {s : St} (hwf : WfLite s) (hpos : s.pos < s.encoded.length) :
    (∀ sk' s', stepT skip s = .cont sk' s' →
      s'.encoded = s.encoded ∧ s.pos ≤ s'.pos ∧ WfLite s' ∧
        stMeasure sk' s' < stMeasure skip s ∧ (sk' = true → s'.repeatSt = none)) ∧
    (∀ r s', stepT skip s = .ret r s' →
      s'.encoded = s.encoded ∧ s.pos ≤ s'.pos ∧ WfLite s' ∧
        (r.isSome = true → s.pos < s'.pos)) := by
  match skip with
  | true =>
    constructor
    · intro sk' s' h
      rw [show stepT true s = stepSkipT s from rfl] at h
      obtain ⟨henc, hlt, hsk, hrep, hsh⟩ := stepSkipT_basic hpos sk' s' h
      subst hsk
      refine ⟨henc, le_of_lt hlt, fun rf r hr => hwf rf r (by rw [← hrep]; exact hr), ?_,
        fun hf => absurd hf (by simp)⟩
      rw [stMeasure_true, stMeasure_false, henc]
      omega
    · intro r s' h
      rw [show stepT true s = stepSkipT s from rfl] at h
      exact absurd h (stepSkipT_no_ret r s')
  | false =>
    have hT : stepT false s = (match s.repeatSt with
        | some (rf, len0) => stepRepeatT rf len0 s
        | none =>
          if s.short then stepShortT s
          else if envStartsWith (extract s.encoded s.pos s.encoded.length) '-' then stepLongT s
          else .cont true s) := by
      rw [stepT.eq_def]
      rw [if_neg (by simp)]
    match hrep0 : s.repeatSt with
    | some (rf, len0) =>
      rw [hrep0] at hT
      have hl0 : 1 ≤ len0 := hwf rf len0 hrep0
      obtain ⟨hcont, hret⟩ := stepRepeatT_basic (g := rf) (s := s) hl0
      constructor
      · intro sk' s' h
        rw [hT] at h
        obtain ⟨hsk, henc, hposq, hrep', hsh⟩ := hcont sk' s' h
        subst hsk
        refine ⟨henc, by omega, fun rf' r' hr' => absurd hr' (by rw [hrep']; simp), ?_,
          fun hf => absurd hf (by simp)⟩
        rw [stMeasure_false, stMeasure_false, henc]
        omega
      · intro r s' h
        rw [hT] at h
        obtain ⟨henc, hlt, -, hwf', hsome⟩ := hret r s' h
        exact ⟨henc, le_of_lt hlt, hwf', fun _ => hlt⟩
    | none =>
      rw [hrep0] at hT
      match hsh0 : s.short with
      | true =>
        rw [hsh0] at hT
        rw [if_pos rfl] at hT
        obtain ⟨hcont, hret⟩ := stepShortT_basic hwf hpos
        constructor
        · intro sk' s' h
          rw [hT] at h
          obtain ⟨henc, hle, hrep', hstrict⟩ := hcont sk' s' h
          refine ⟨henc, hle, fun rf' r' hr' => hwf rf' r' (by rw [← hrep']; exact hr'), ?_,
            fun ht => by rw [hrep', hrep0]⟩
          match sk' with
          | false =>
            have hq := hstrict rfl
            rw [stMeasure_false, stMeasure_false, henc]
            omega
          | true =>
            rw [stMeasure_true, stMeasure_false, henc]
            omega
        · intro r s' h
          rw [hT] at h
          exact hret r s' h
      | false =>
        rw [hsh0] at hT
        rw [if_neg (by simp)] at hT
        by_cases hsw : envStartsWith (extract s.encoded s.pos s.encoded.length) '-' = true
        · rw [if_pos hsw] at hT
          obtain ⟨hcont, hret⟩ := stepLongT_basic hwf hpos
          constructor
          · intro sk' s' h
            rw [hT] at h
            obtain ⟨hsk, henc, hlt, hrep'⟩ := hcont sk' s' h
            subst hsk
            refine ⟨henc, le_of_lt hlt, fun rf' r' hr' => hwf rf' r' (by rw [← hrep']; exact hr'),
              ?_, fun hf => absurd hf (by simp)⟩
            rw [stMeasure_false, stMeasure_false, henc]
            omega
          · intro r s' h
            rw [hT] at h
            obtain ⟨henc, hlt, hwf', hsome⟩ := hret r s' h
            exact ⟨henc, le_of_lt hlt, hwf', fun _ => hlt⟩
        · rw [if_neg hsw] at hT
          constructor
          · intro sk' s' h
            rw [hT] at h
            cases h
            refine ⟨rfl, le_refl _, hwf, ?_, fun _ => hrep0⟩
            rw [stMeasure_true, stMeasure_false]
            omega
          · intro r s' h
            rw [hT] at h
            cases h

theorem parseLoopT_facts : ∀ (fuel : Nat) (skip : Bool) (s : St) (r : Option Flag) (s' : St),
    WfLite s → parseLoopT fuel skip s = (r, s') →
    s'.encoded = s.encoded ∧ s.pos ≤ s'.pos ∧ WfLite s' ∧
      (r.isSome = true → s.pos < s'.pos ∧ s.pos < s.encoded.length) := by
  intro fuel
  induction fuel with
  | zero =>
    intro skip s r s' hwf h
    rw [show parseLoopT 0 skip s = (none, s) from rfl] at h
    cases h
    exact ⟨rfl, le_refl _, hwf, fun hs => absurd hs (by simp)⟩
  | succ fuel ih =>
    intro skip s r s' hwf h
    rw [parseLoopT] at h
    by_cases hg : s.pos < s.encoded.length
    · rw [if_pos hg] at h
      match hst : stepT skip s with
      | .ret r0 s0 =>
        rw [hst] at h
        cases h
        obtain ⟨henc, hle, hwf', hstrict⟩ := (stepT_basic hwf hg).2 r s' hst
        exact ⟨henc, hle, hwf', fun hs => ⟨hstrict hs, hg⟩⟩
      | .cont sk0 s0 =>
        rw [hst] at h
        obtain ⟨henc, hle, hwf0, -, -⟩ := (stepT_basic hwf hg).1 sk0 s0 hst
        obtain ⟨henc', hle', hwf', hstrict'⟩ := ih sk0 s0 r s' hwf0 h
        refine ⟨henc'.trans henc, by omega, hwf', fun hs => ?_⟩
        obtain ⟨h1, -⟩ := hstrict' hs
        exact ⟨by omega, hg⟩
    · rw [if_neg hg] at h
      cases h
      exact ⟨rfl, le_refl _, hwf, fun hs => absurd hs (by simp)⟩

theorem parseLoopT_congr : ∀ (f1 : Nat) (skip : Bool) (s : St) (f2 : Nat), WfLite s →
    stMeasure skip s < f1 → stMeasure skip s < f2 →
    parseLoopT f1 skip s = parseLoopT f2 skip s := by
  intro f1
  induction f1 with
  | zero => intro skip s f2 hwf h1 h2; exact absurd h1 (by omega)
  | succ f1 ih =>
    intro skip s f2 hwf h1 h2
    match f2 with
    | 0 => exact absurd h2 (by omega)
    | f2 + 1 =>
      rw [parseLoopT, parseLoopT]
      by_cases hg : s.pos < s.encoded.length
      · rw [if_pos hg, if_pos hg]
        match hst : stepT skip s with
        | .ret r0 s0 => rfl
        | .cont sk0 s0 =>
          obtain ⟨-, -, hwf0, hm, -⟩ := (stepT_basic hwf hg).1 sk0 s0 hst
          exact ih sk0 s0 f2 hwf0 (by omega) (by omega)
      · rw [if_neg hg, if_neg hg]

theorem stMeasure_lt_loopFuel (skip : Bool) (s : St) : stMeasure skip s < loopFuel s := by
  cases skip
  · rw [stMeasure_false]
    unfold loopFuel
    omega
  · rw [stMeasure_true]
    unfold loopFuel
    omega

theorem parseNext_eq_loopT {s : St} (hwf : WfLite s) {fuel : Nat}
    (hf : stMeasure false s < fuel) : parseLoopT fuel false s = parseNext s := by
  unfold parseNext
  exact parseLoopT_congr fuel false s (loopFuel s) hwf hf (stMeasure_lt_loopFuel false s)

theorem parseNext_facts {s : St} {r : Option Flag} {s' : St} (hwf : WfLite s)
    (h : parseNext s = (r, s')) :
    s'.encoded = s.encoded ∧ s.pos ≤ s'.pos ∧ WfLite s' ∧
      (r.isSome = true → s.pos < s'.pos ∧ s.pos < s.encoded.length) :=
  parseLoopT_facts (loopFuel s) false s r s' hwf h

theorem parseAllAux_congr : ∀ (f1 : Nat) (s : St) (f2 : Nat), WfLite s →
    s.encoded.length - s.pos < f1 → s.encoded.length - s.pos < f2 →
    parseAllAux f1 s = parseAllAux f2 s := by
  intro f1
  induction f1 with
  | zero => intro s f2 hwf h1 h2; exact absurd h1 (by omega)
  | succ f1 ih =>
    intro s f2 hwf h1 h2
    match f2 with
    | 0 => exact absurd h2 (by omega)
    | f2 + 1 =>
      rw [parseAllAux, parseAllAux]
      match hn : parseNext s with
      | (none, s1) => rfl
      | (some flag, s1) =>
        obtain ⟨henc, hle, hwf1, hstrict⟩ := parseNext_facts hwf hn
        obtain ⟨hlt, hg⟩ := hstrict rfl
        dsimp only
        rw [ih s1 f2 hwf1 (by rw [henc]; omega) (by rw [henc]; omega)]

theorem listEndsWith_append (pat pre l : List Nat) (h : pat.length ≤ l.length) :
    listEndsWith pat (pre ++ l) = listEndsWith pat l := by
  unfold listEndsWith
  rw [List.length_append]
  rw [show pre.length + l.length - pat.length = pre.length + (l.length - pat.length) from by
    omega]
  rw [drop_append_shift]
  rw [decide_eq_true h, decide_eq_true (show pat.length ≤ pre.length + l.length from by omega)]

theorem envEndsWith_take_shift (pre e : EStr) (p : Nat) (hp : 1 ≤ p) (he : 1 ≤ e.length) :
    envEndsWith (extract (pre ++ e) 0 (pre.length + p)) sepChar =
      envEndsWith (extract e 0 p) sepChar := by
  rw [extract_zero, extract_zero, take_append_shift]
  unfold envEndsWith
  rw [utf8EncodeChar_ascii (by decide)]
  refine listEndsWith_append _ pre _ ?_
  rw [List.length_take]
  simp only [List.length_singleton]
  omega

theorem extract_suffix_shift (pre e : EStr) (a : Nat) :
    extract (pre ++ e) (pre.length + a) (pre ++ e).length = extract e a e.length := by
  rw [extract_to_end, extract_to_end, drop_append_shift]

theorem applyCtorT_shift {k : CtorKind} {a : EStr} {s : St} (pre : EStr)
    (hp : 1 ≤ s.pos) (he : 1 ≤ s.encoded.length) (harg : a.length ≤ s.pos) :
    applyCtorT k a (shiftSt pre s) = shiftOut pre (applyCtorT k a s) := by
  unfold applyCtorT
  match k with
  | .optC f =>
    dsimp only
    match f a with
    | some flag => rfl
    | none => rfl
  | .repC rf =>
    dsimp only
    match hr : runRepeat rf a with
    | none => rfl
    | some (flag, rep) =>
      dsimp only
      by_cases h0 : 0 < rep
      · rw [if_pos h0, if_pos h0]
        rcases runRepeat_facts hr with hz | ⟨hle4, -⟩
        · omega
        have hEq : envEndsWith (extract (shiftSt pre s).encoded 0 (shiftSt pre s).pos) sepChar =
            envEndsWith (extract s.encoded 0 s.pos) sepChar :=
          envEndsWith_take_shift pre s.encoded s.pos hp he
        rw [hEq]
        unfold shiftOut shiftSt
        dsimp only
        by_cases hE : envEndsWith (extract s.encoded 0 s.pos) sepChar = true
        · rw [if_pos hE]
          rw [show pre.length + s.pos - (rep + 1) = pre.length + (s.pos - (rep + 1)) from by
            omega]
        · rw [if_neg hE]
          rw [show pre.length + s.pos - (rep + 0) = pre.length + (s.pos - (rep + 0)) from by
            omega]
      · rw [if_neg h0, if_neg h0]
        rfl

theorem stepSkipT_shift (pre : EStr) (s : St) :
    stepSkipT (shiftSt pre s) = shiftOut pre (stepSkipT s) := by
  unfold stepSkipT shiftSt
  dsimp only
  rw [show (pre ++ s.encoded).length = pre.length + s.encoded.length from by simp]
  rw [extract_shift pre s.encoded s.pos s.encoded.length]
  match envFind (extract s.encoded s.pos s.encoded.length) sepChar with
  | some i =>
    unfold shiftOut shiftSt
    dsimp only
    rw [show pre.length + s.pos + i + 1 = pre.length + (s.pos + i + 1) from by omega]
  | none =>
    unfold shiftOut shiftSt
    dsimp only

theorem argScanT_shift {k : CtorKind} {p : Nat} {s : St} (pre : EStr)
    (he : 1 ≤ s.encoded.length) :
    argScanT k (pre.length + p) (shiftSt pre s) = shiftOut pre (argScanT k p s) := by
  unfold argScanT shiftSt
  dsimp only
  rw [show (pre ++ s.encoded).length = pre.length + s.encoded.length from by simp]
  rw [extract_shift pre s.encoded p s.encoded.length]
  match hf : envFind (extract s.encoded p s.encoded.length) sepChar with
  | some i =>
    dsimp only
    obtain ⟨hsl, -, -⟩ := envFind_extract_sep_some hf
    have harg : (extract s.encoded p (p + i)).length ≤ p + i + 1 := by
      rw [extract_length]; omega
    rw [show pre.length + p + i = pre.length + (p + i) from by omega]
    rw [extract_shift pre s.encoded p (p + i)]
    rw [show pre.length + (p + i) + 1 = pre.length + (p + i + 1) from by omega]
    have := applyCtorT_shift (k := k) (a := extract s.encoded p (p + i))
      (s := { s with pos := p + i + 1 }) pre
      (show 1 ≤ p + i + 1 by omega) he harg
    exact this
  | none =>
    dsimp only
    have harg : (extract s.encoded p s.encoded.length).length ≤ s.encoded.length := by
      rw [extract_length]; omega
    have := applyCtorT_shift (k := k) (a := extract s.encoded p s.encoded.length)
      (s := { s with pos := s.encoded.length }) pre he he harg
    exact this

theorem shortArgT_shift {k : CtorKind} {s0 : St} (pre : EStr) (he : 1 ≤ s0.encoded.length) :
    shortArgT k (shiftSt pre s0) = shiftOut pre (shortArgT k s0) := by
  unfold shortArgT shiftSt
  dsimp only
  rw [show (pre ++ s0.encoded).length = pre.length + s0.encoded.length from by simp]
  rw [extract_shift pre s0.encoded s0.pos s0.encoded.length]
  by_cases hp : s0.pos = s0.encoded.length
  · rw [if_pos (show pre.length + s0.pos = pre.length + s0.encoded.length from by omega)]
    rw [if_pos hp]
    rfl
  · rw [if_neg (show ¬pre.length + s0.pos = pre.length + s0.encoded.length from by omega)]
    rw [if_neg hp]
    by_cases hsw : envStartsWith (extract s0.encoded s0.pos s0.encoded.length) sepChar = true
    · rw [if_pos hsw, if_pos hsw]
      rw [show pre.length + s0.pos + 1 = pre.length + (s0.pos + 1) from by omega]
      exact argScanT_shift (k := k) (p := s0.pos + 1) (s := { s0 with short := false }) pre he
    · rw [if_neg hsw, if_neg hsw]
      exact argScanT_shift (k := k) (p := s0.pos) (s := { s0 with short := false }) pre he

theorem shortLookupT_shift {c : Char} {s : St} (pre : EStr) (he : 1 ≤ s.encoded.length) :
    shortLookupT c (shiftSt pre s) = shiftOut pre (shortLookupT c s) := by
  unfold shortLookupT
  match lookupShort c with
  | .flagC flag => rfl
  | .unrecognized => rfl
  | .optC f => exact shortArgT_shift pre he
  | .repC rf => exact shortArgT_shift pre he

theorem stepShortT_shift {s : St} (pre : EStr) (he : 1 ≤ s.encoded.length) :
    stepShortT (shiftSt pre s) = shiftOut pre (stepShortT s) := by
  unfold stepShortT shiftSt
  dsimp only
  rw [show (pre ++ s.encoded).length = pre.length + s.encoded.length from by simp]
  rw [extract_shift pre s.encoded s.pos s.encoded.length]
  match envFirstChar (extract s.encoded s.pos s.encoded.length) with
  | none => rfl
  | some (.valid ch) =>
    dsimp only
    rw [show pre.length + s.pos + (utf8EncodeChar ch).length =
      pre.length + (s.pos + (utf8EncodeChar ch).length) from by omega]
    by_cases hsep : ch = sepChar
    · rw [if_pos hsep, if_pos hsep]
      rfl
    · rw [if_neg hsep, if_neg hsep]
      exact shortLookupT_shift (c := ch)
        (s := { s with pos := s.pos + (utf8EncodeChar ch).length }) pre he
  | some .invalid => exact shortLookupT_shift (c := Char.ofNat 0) (s := s) pre he

theorem longArgT_shift {k : CtorKind} {argE : Option EStr} {s : St} (pre : EStr)
    (hp : 1 ≤ s.pos) (he : 1 ≤ s.encoded.length)
    (hargE : ∀ arg, argE = some arg → arg.length ≤ s.pos) :
    longArgT k argE (shiftSt pre s) = shiftOut pre (longArgT k argE s) := by
  unfold longArgT
  match argE with
  | some arg => exact applyCtorT_shift pre hp he (hargE arg rfl)
  | none => exact argScanT_shift pre he

theorem longNameGo_shift {name : EStr} {argE : Option EStr} {s : St} (pre : EStr)
    (hp : 1 ≤ s.pos) (he : 1 ≤ s.encoded.length)
    (hargE : ∀ arg, argE = some arg → arg.length ≤ s.pos) :
    longNameGo name argE (shiftSt pre s) = shiftOut pre (longNameGo name argE s) := by
  unfold longNameGo
  match toStr name with
  | none => rfl
  | some nameTxt =>
    dsimp only
    match lookupLong nameTxt with
    | .flagC flag =>
      match argE with
      | none => rfl
      | some a => rfl
    | .unrecognized => rfl
    | .optC f => exact longArgT_shift pre hp he hargE
    | .repC rf => exact longArgT_shift pre hp he hargE

theorem longNameT_shift {w : EStr} {s : St} (pre : EStr)
    (hp : 1 ≤ s.pos) (he : 1 ≤ s.encoded.length) (htok : w.length ≤ s.pos) :
    longNameT w (shiftSt pre s) = shiftOut pre (longNameT w s) := by
  unfold longNameT
  match hsp : envSplitOnce w '=' with
  | some (n, a) =>
    obtain ⟨i, hlt, -, -, rfl, rfl⟩ := envSplitOnce_eq (by decide) hsp
    refine longNameGo_shift pre hp he ?_
    intro arg harg
    cases harg
    have hd : (w.drop (i + 1)).length = w.length - (i + 1) := by
      rw [List.length_drop]
    omega
  | none => exact longNameGo_shift pre hp he (fun arg harg => by cases harg)

theorem longFlagT_shift {s : St} (pre : EStr) (hpos : s.pos < s.encoded.length) :
    longFlagT (shiftSt pre s) = shiftOut pre (longFlagT s) := by
  unfold longFlagT shiftSt
  dsimp only
  rw [show (pre ++ s.encoded).length = pre.length + s.encoded.length from by simp]
  rw [show pre.length + s.pos + 2 = pre.length + (s.pos + 2) from by omega]
  rw [extract_shift pre s.encoded (s.pos + 2) s.encoded.length]
  match hf : envFind (extract s.encoded (s.pos + 2) s.encoded.length) sepChar with
  | some 0 => rfl
  | some (i + 1) =>
    dsimp only
    obtain ⟨hsl, -, -⟩ := envFind_extract_sep_some hf
    rw [show pre.length + (s.pos + 2) + (i + 1) = pre.length + (s.pos + 2 + (i + 1)) from by
      omega]
    rw [extract_shift pre s.encoded (s.pos + 2) (s.pos + 2 + (i + 1))]
    rw [show pre.length + s.pos + (i + 1) + 3 = pre.length + (s.pos + (i + 1) + 3) from by
      omega]
    have htokl : (extract s.encoded (s.pos + 2) (s.pos + 2 + (i + 1))).length ≤ i + 1 := by
      rw [extract_length]; omega
    exact longNameT_shift (w := extract s.encoded (s.pos + 2) (s.pos + 2 + (i + 1)))
      (s := { s with pos := s.pos + (i + 1) + 3 }) pre
      (show 1 ≤ s.pos + (i + 1) + 3 by omega)
      (show 1 ≤ s.encoded.length by omega)
      (show (extract s.encoded (s.pos + 2) (s.pos + 2 + (i + 1))).length ≤
        s.pos + (i + 1) + 3 by omega)
  | none =>
    dsimp only
    have htokl : (extract s.encoded (s.pos + 2) s.encoded.length).length =
        s.encoded.length - (s.pos + 2) := by
      rw [extract_length, Nat.min_self]
    exact longNameT_shift (w := extract s.encoded (s.pos + 2) s.encoded.length)
      (s := { s with pos := s.encoded.length }) pre
      (show 1 ≤ s.encoded.length by omega)
      (show 1 ≤ s.encoded.length by omega)
      (show (extract s.encoded (s.pos + 2) s.encoded.length).length ≤ s.encoded.length by omega)

theorem stepLongT_shift {s : St} (pre : EStr) (hpos : s.pos < s.encoded.length) :
    stepLongT (shiftSt pre s) = shiftOut pre (stepLongT s) := by
  unfold stepLongT shiftSt
  dsimp only
  rw [show (pre ++ s.encoded).length = pre.length + s.encoded.length from by simp]
  rw [show pre.length + s.pos + 1 = pre.length + (s.pos + 1) from by omega]
  rw [extract_shift pre s.encoded (s.pos + 1) s.encoded.length]
  match envFirstChar (extract s.encoded (s.pos + 1) s.encoded.length) with
  | none => rfl
  | some (.valid ch) =>
    dsimp only
    by_cases hsep : ch = sepChar
    · rw [if_pos hsep, if_pos hsep]
      dsimp only [shiftOut]
      rw [show pre.length + s.pos + 2 = pre.length + (s.pos + 2) from by omega]
      rfl
    · rw [if_neg hsep, if_neg hsep]
      by_cases hdash : ch = '-'
      · rw [if_pos hdash, if_pos hdash]
        exact longFlagT_shift pre hpos
      · rw [if_neg hdash, if_neg hdash]
        rfl
  | some .invalid => rfl

theorem stepRepeatT_shift {rf : RepFn} {len0 : Nat} {s : St} (pre : EStr)
    (hl0 : 1 ≤ len0) (he : 1 ≤ s.encoded.length) :
    stepRepeatT rf len0 (shiftSt pre s) = shiftOut pre (stepRepeatT rf len0 s) := by
  unfold stepRepeatT shiftSt
  dsimp only
  rw [show pre.length + s.pos + len0 = pre.length + (s.pos + len0) from by omega]
  rw [extract_shift pre s.encoded s.pos (s.pos + len0)]
  have harg : (extract s.encoded s.pos (s.pos + len0)).length ≤ s.pos + len0 := by
    rw [extract_length]; omega
  exact applyCtorT_shift (k := .repC rf) (a := extract s.encoded s.pos (s.pos + len0))
    (s := { s with pos := s.pos + len0, repeatSt := none }) pre
    (show 1 ≤ s.pos + len0 by omega) he harg

theorem stepT_shift {skip : Bool} {s : St} (pre : EStr) (hwf : WfLite s)
    (hpos : s.pos < s.encoded.length) :
    stepT skip (shiftSt pre s) = shiftOut pre (stepT skip s) := by
  have he : 1 ≤ s.encoded.length := by omega
  match skip with
  | true =>
    rw [show stepT true (shiftSt pre s) = stepSkipT (shiftSt pre s) from rfl,
      show stepT true s = stepSkipT s from rfl]
    exact stepSkipT_shift pre s
  | false =>
    rw [stepT.eq_def, stepT.eq_def]
    rw [if_neg (show ¬(false = true) from by simp), if_neg (show ¬(false = true) from by simp)]
    rw [show (shiftSt pre s).repeatSt = s.repeatSt from rfl]
    match hrep0 : s.repeatSt with
    | some (rf, len0) =>
      exact stepRepeatT_shift pre (hwf rf len0 hrep0) he
    | none =>
      rw [show (shiftSt pre s).short = s.short from rfl]
      match s.short with
      | true =>
        rw [if_pos (show true = true from rfl), if_pos (show true = true from rfl)]
        exact stepShortT_shift pre he
      | false =>
        rw [if_neg (show ¬(false = true) from by simp),
          if_neg (show ¬(false = true) from by simp)]
        rw [show (shiftSt pre s).encoded = pre ++ s.encoded from rfl,
          show (shiftSt pre s).pos = pre.length + s.pos from rfl]
        rw [extract_suffix_shift pre s.encoded s.pos]
        by_cases hsw : envStartsWith (extract s.encoded s.pos s.encoded.length) '-' = true
        · rw [if_pos hsw, if_pos hsw]
          exact stepLongT_shift pre hpos
        · rw [if_neg hsw, if_neg hsw]
          rfl

theorem parseLoopT_shift : ∀ (fuel : Nat) (skip : Bool) (s : St) (pre : EStr), WfLite s →
    parseLoopT fuel skip (shiftSt pre s) =
      ((parseLoopT fuel skip s).1, shiftSt pre (parseLoopT fuel skip s).2) := by
  intro fuel
  induction fuel with
  | zero => intro skip s pre hwf; rfl
  | succ fuel ih =>
    intro skip s pre hwf
    rw [parseLoopT, parseLoopT]
    by_cases hg : s.pos < s.encoded.length
    · rw [if_pos (show (shiftSt pre s).pos < (shiftSt pre s).encoded.length from by
        unfold shiftSt; dsimp only; rw [List.length_append]; omega)]
      rw [if_pos hg]
      rw [stepT_shift pre hwf hg]
      match hst : stepT skip s with
      | .ret r0 s0 => rfl
      | .cont sk0 s0 =>
        obtain ⟨-, -, hwf0, -, -⟩ := (stepT_basic hwf hg).1 sk0 s0 hst
        exact ih sk0 s0 pre hwf0
    · rw [if_neg (show ¬(shiftSt pre s).pos < (shiftSt pre s).encoded.length from by
        unfold shiftSt; dsimp only; rw [List.length_append]; omega)]
      rw [if_neg hg]

theorem loopFuel_shift (pre : EStr) (s : St) : loopFuel (shiftSt pre s) = loopFuel s := by
  unfold loopFuel shiftSt
  dsimp only
  rw [List.length_append]
  omega

theorem parseNext_shift {s : St} (pre : EStr) (hwf : WfLite s) :
    parseNext (shiftSt pre s) = ((parseNext s).1, shiftSt pre (parseNext s).2) := by
  unfold parseNext
  rw [loopFuel_shift]
  exact parseLoopT_shift (loopFuel s) false s pre hwf

theorem parseAllAux_shift : ∀ (fuel : Nat) (s : St) (pre : EStr), WfLite s →
    parseAllAux fuel (shiftSt pre s) = parseAllAux fuel s := by
  intro fuel
  induction fuel with
  | zero => intro s pre hwf; rfl
  | succ fuel ih =>
    intro s pre hwf
    rw [parseAllAux, parseAllAux]
    rw [parseNext_shift pre hwf]
    match hn : parseNext s with
    | (none, s1) => rfl
    | (some flag, s1) =>
      obtain ⟨-, -, hwf1, -⟩ := parseNext_facts hwf hn
      dsimp only
      rw [ih s1 pre hwf1]

theorem parseLoopT_cont_step {fuel : Nat} {skip : Bool} {s : St} {sk1 : Bool} {s1 : St}
    (hg : s.pos < s.encoded.length) (hstep : stepT skip s = .cont sk1 s1) :
    parseLoopT (fuel + 1) skip s = parseLoopT fuel sk1 s1 := by
  rw [parseLoopT, if_pos hg, hstep]

theorem initSt_wf (e : EStr) : WfLite (initSt e) := by
  intro rf r hr
  simp [initSt] at hr

theorem rustflagsAll_cons_shift (pre rest : EStr)
    (h : parseNext (initSt (pre ++ rest)) =
      ((parseNext (initSt rest)).1, shiftSt pre (parseNext (initSt rest)).2)) :
    rustflagsAll (pre ++ rest) = rustflagsAll rest := by
  unfold rustflagsAll
  rw [show (pre ++ rest).length = pre.length + rest.length from by simp]
  rw [parseAllAux, parseAllAux]
  rw [h]
  match hn : parseNext (initSt rest) with
  | (none, s1) => rfl
  | (some flag, s1) =>
    dsimp only
    obtain ⟨henc, hle, hwf1, hstrict⟩ := parseNext_facts (initSt_wf rest) hn
    obtain ⟨hlt, hg⟩ := hstrict rfl
    have henc' : s1.encoded = rest := henc
    have hlt' : 0 < s1.pos := hlt
    have hg' : 0 < rest.length := hg
    rw [parseAllAux_shift (pre.length + rest.length) s1 pre hwf1]
    rw [parseAllAux_congr (pre.length + rest.length) s1 rest.length hwf1
      (by rw [henc']; omega) (by rw [henc']; omega)]

theorem parseNext_head_long_bogus (rest : EStr) :
    parseNext (initSt ((strBytes "--bogus" ++ [31]) ++ rest)) =
      ((parseNext (initSt rest)).1,
        shiftSt (strBytes "--bogus" ++ [31]) (parseNext (initSt rest)).2) := by
  have hlen8 : (strBytes "--bogus" ++ [31]).length = 8 := by decide
  have hstep : stepT false (initSt ((strBytes "--bogus" ++ [31]) ++ rest)) =
      .cont false (shiftSt (strBytes "--bogus" ++ [31]) (initSt rest)) := rfl
  have hguard : (initSt ((strBytes "--bogus" ++ [31]) ++ rest)).pos <
      (initSt ((strBytes "--bogus" ++ [31]) ++ rest)).encoded.length := by
    show 0 < ((strBytes "--bogus" ++ [31]) ++ rest).length
    rw [List.length_append, hlen8]
    omega
  have hfuel : loopFuel (initSt ((strBytes "--bogus" ++ [31]) ++ rest)) =
      (2 * rest.length + 17) + 1 := by
    unfold loopFuel initSt
    dsimp only
    rw [List.length_append, hlen8]
    omega
  have hwfS : WfLite (shiftSt (strBytes "--bogus" ++ [31]) (initSt rest)) := by
    intro rf r hr
    simp [shiftSt, initSt] at hr
  have hbound : stMeasure false (shiftSt (strBytes "--bogus" ++ [31]) (initSt rest)) <
      2 * rest.length + 17 := by
    rw [stMeasure_false]
    unfold shiftSt initSt
    dsimp only
    rw [List.length_append, hlen8]
    omega
  unfold parseNext
  rw [hfuel]
  rw [parseLoopT_cont_step hguard hstep]
  rw [parseNext_eq_loopT hwfS hbound]
  exact parseNext_shift (strBytes "--bogus" ++ [31]) (initSt_wf rest)

theorem parseNext_head_short_x (rest : EStr) :
    parseNext (initSt ((strBytes "-x" ++ [31]) ++ rest)) =
      ((parseNext (initSt rest)).1,
        shiftSt (strBytes "-x" ++ [31]) (parseNext (initSt rest)).2) := by
  have hlen3 : (strBytes "-x" ++ [31]).length = 3 := by decide
  have hlenf : ((strBytes "-x" ++ [31]) ++ rest).length = 3 + rest.length := by
    rw [List.length_append, hlen3]
  have hstep1 : stepT false (initSt ((strBytes "-x" ++ [31]) ++ rest)) =
      .cont false ⟨(strBytes "-x" ++ [31]) ++ rest, 1, none, true⟩ := rfl
  have hstep2 : stepT false (⟨(strBytes "-x" ++ [31]) ++ rest, 1, none, true⟩ : St) =
      .cont true ⟨(strBytes "-x" ++ [31]) ++ rest, 2, none, false⟩ := rfl
  have hstep3 : stepT true (⟨(strBytes "-x" ++ [31]) ++ rest, 2, none, false⟩ : St) =
      .cont false (shiftSt (strBytes "-x" ++ [31]) (initSt rest)) := rfl
  have hfuel : loopFuel (initSt ((strBytes "-x" ++ [31]) ++ rest)) =
      ((2 * rest.length + 5) + 1 + 1) + 1 := by
    unfold loopFuel initSt
    dsimp only
    rw [hlenf]
    omega
  have hwfS : WfLite (shiftSt (strBytes "-x" ++ [31]) (initSt rest)) := by
    intro rf r hr
    simp [shiftSt, initSt] at hr
  have hbound : stMeasure false (shiftSt (strBytes "-x" ++ [31]) (initSt rest)) <
      2 * rest.length + 5 := by
    rw [stMeasure_false]
    unfold shiftSt initSt
    dsimp only
    rw [List.length_append, hlen3]
    omega
  unfold parseNext
  rw [hfuel]
  rw [parseLoopT_cont_step (show (0 : Nat) < ((strBytes "-x" ++ [31]) ++ rest).length from by
    rw [hlenf]; omega) hstep1]
  rw [parseLoopT_cont_step (show (1 : Nat) < ((strBytes "-x" ++ [31]) ++ rest).length from by
    rw [hlenf]; omega) hstep2]
  rw [parseLoopT_cont_step (show (2 : Nat) < ((strBytes "-x" ++ [31]) ++ rest).length from by
    rw [hlenf]; omega) hstep3]
  rw [parseNext_eq_loopT hwfS hbound]
  exact parseNext_shift (strBytes "-x" ++ [31]) (initSt_wf rest)

/-- C1: the round-trip law `decode ∘ render = id` fails on the code at
`Flag::CrateType(CrateType::Cdylib)`: the renderer spells it `"Cdylib"`
(capital C, lib.rs line 485) while the decoder's vocabulary — and the
variant's own doc comment — use `"cdylib"`, so decoding the rendered tokens
yields no flag at all instead of the original flag. -/
theorem c1_roundtrip_fails_on_cdylib :
    renderFlag (Flag.crateType CrateType.cdylib) =
      [strBytes "--crate-type", strBytes "Cdylib"] ∧
    rustflagsAll (joinTokens (renderFlag (Flag.crateType CrateType.cdylib))) = [] ∧
    rustflagsAll (joinTokens [strBytes "--crate-type", strBytes "cdylib"]) =
      [Flag.crateType CrateType.cdylib] := by
  refine ⟨by decide, by decide, by decide⟩

/-- C5: `"--emit" "asm,mir"` decodes to exactly asm then mir, and
`"--emit" "unrecognized,mir"` decodes to exactly mir. -/
theorem c5_emit_comma_list :
    rustflagsAll (joinTokens [strBytes "--emit", strBytes "asm,mir"]) =
      [Flag.emit Emit.asm, Flag.emit Emit.mir] ∧
    rustflagsAll (joinTokens [strBytes "--emit", strBytes "unrecognized,mir"]) =
      [Flag.emit Emit.mir] := by
  refine ⟨by decide, by decide⟩

/-- C6: `"-gxvto" "-h"` decodes to the debug-info codegen flag followed
immediately by the help flag: the unrecognized `'x'` aborts only the rest of
its own bundle token. -/
theorem c6_short_bundle_termination :
    rustflagsAll (joinTokens [strBytes "-gxvto", strBytes "-h"]) =
      [Flag.codegen "debuginfo" (some "2"), Flag.help] := by decide

/-- C10: `-g` and `-O` decode to `Codegen` flags structurally equal to the
ones decoded from `-C debuginfo=2` and `-C opt-level=2`, and rendering
either flag produces the `-C` spelling. -/
theorem c10_g_and_O_are_codegen :
    rustflagsAll (strBytes "-g") = [Flag.codegen "debuginfo" (some "2")] ∧
    rustflagsAll (strBytes "-O") = [Flag.codegen "opt-level" (some "2")] ∧
    rustflagsAll (joinTokens [strBytes "-C", strBytes "debuginfo=2"]) =
      [Flag.codegen "debuginfo" (some "2")] ∧
    rustflagsAll (joinTokens [strBytes "-C", strBytes "opt-level=2"]) =
      [Flag.codegen "opt-level" (some "2")] ∧
    renderFlag (Flag.codegen "debuginfo" (some "2")) =
      [strBytes "-C", strBytes "debuginfo=2"] ∧
    renderFlag (Flag.codegen "opt-level" (some "2")) =
      [strBytes "-C", strBytes "opt-level=2"] := by
  refine ⟨by decide, by decide, by decide, by decide, by decide, by decide⟩

/-- C3 counterexample: on `"--emit" "asm,bogus"` the first call returns asm
and leaves a pending repeat of length 5 (the bytes of `"bogus"`), yet the
next call — the repeat call — produces no flag at all: the stored decoder
fails on the unrecognized remainder and the call falls through to normal
scanning, refuting "a repeat call must always produce a flag". -/
theorem c3_repeat_call_can_fail :
    (parseNext (initSt (joinTokens [strBytes "--emit", strBytes "asm,bogus"]))).1 =
      some (Flag.emit Emit.asm) ∧
    (parseNext (initSt (joinTokens [strBytes "--emit", strBytes "asm,bogus"]))).2.repeatSt =
      some (RepFn.emitFn, 5) ∧
    (parseNext
      ((parseNext (initSt (joinTokens [strBytes "--emit", strBytes "asm,bogus"]))).2)).1 =
      none := by
  refine ⟨by decide, by decide, by decide⟩

/-- C4 counterexample: with the unrecognized flag `-x` followed by the token
`-h` (the token the flag would take as its argument if it were a recognized
unary short flag, cf. `-o`), decoding yields the help flag: the tokenizer
never skips a following argument token of an unrecognized flag, whereas
removing the unrecognized flag together with its argument token leaves an
empty stream that decodes to no flags.  The same happens for the long form
`--bogus`. -/
theorem c4_argument_token_not_skipped :
    rustflagsAll (joinTokens [strBytes "-x", strBytes "-h"]) = [Flag.help] ∧
    rustflagsAll (joinTokens [strBytes "--bogus", strBytes "-h"]) = [Flag.help] ∧
    rustflagsAll ([] : EStr) = [] ∧
    rustflagsAll (joinTokens [strBytes "-o", strBytes "-h"]) =
      [Flag.out (strBytes "-h")] := by
  refine ⟨by decide, by decide, by decide, by decide⟩

theorem envEndsWith_take_byte {e : EStr} {p : Nat} (h1 : 1 ≤ p) (h2 : p ≤ e.length) :
    envEndsWith (e.take p) sepChar = true ↔ e[p - 1]? = some 31 := by
  rw [envEndsWith_sep]
  have hlen : (e.take p).length = p := by
    rw [List.length_take]
    omega
  rw [hlen]
  constructor
  · rintro ⟨-, hb⟩
    rw [List.getElem?_take] at hb
    rw [if_pos (by omega)] at hb
    exact hb
  · intro hb
    refine ⟨h1, ?_⟩
    rw [List.getElem?_take, if_pos (by omega)]
    exact hb

/-- C3 (amended): a produce-next-flag call that starts with a pending repeat
slices the stored remaining length and re-invokes the stored decoder, but
it need not produce a flag: the iteration returns the decoder's flag when
the decoder succeeds on the remaining slice, and otherwise clears the
pending repeat, advances past the slice, and continues scanning without
producing anything from the slice. -/
theorem c3_repeat_call_resumes_decoder {rf : RepFn} {len0 : Nat} {s : St}
    (hrep : s.repeatSt = some (rf, len0)) :
    match runRepeat rf (extract s.encoded s.pos (s.pos + len0)) with
    | some (flag, _) => ∃ s', stepT false s = .ret (some flag) s'
    | none => stepT false s = .cont false { s with pos := s.pos + len0, repeatSt := none } := by
  have hT : stepT false s = stepRepeatT rf len0 s := by
    rw [stepT.eq_def]
    rw [if_neg (show ¬(false = true) from by simp)]
    rw [hrep]
  unfold stepRepeatT applyCtorT at hT
  dsimp only at hT
  match hr : runRepeat rf (extract s.encoded s.pos (s.pos + len0)) with
  | some (flag, rep) =>
    rw [hr] at hT
    dsimp only at hT
    by_cases h0 : 0 < rep
    · rw [if_pos h0] at hT
      exact ⟨_, hT⟩
    · rw [if_neg h0] at hT
      exact ⟨_, hT⟩
  | none =>
    rw [hr] at hT
    exact hT

theorem c3_repeat_call_resumes_decoder_witness :
    stepT false (⟨strBytes "bogus", 0, some (RepFn.emitFn, 5), false⟩ : St) =
      .cont false (⟨strBytes "bogus", 5, none, false⟩ : St) :=
  c3_repeat_call_resumes_decoder
    (s := ⟨strBytes "bogus", 0, some (RepFn.emitFn, 5), false⟩) rfl

/-- C8 (amended): across produce-next-flag calls the cursor never moves
backward — each call ends at or after its starting position — and the one
backward movement inside a call is the repeat rewind, which moves the
cursor back from its pre-rewind position by the reported remaining length,
decremented by one further position exactly when the byte immediately
preceding the PRE-rewind position (not, as stated, the new position) is the
0x1F delimiter; the total rewind is bounded by the remaining length plus
one. -/
theorem c8_rewind_uses_pre_rewind_byte :
    (∀ s r s', WfLite s → parseNext s = (r, s') → s.pos ≤ s'.pos) ∧
    (∀ k arg (s : St) r s', 1 ≤ s.pos → s.pos ≤ s.encoded.length →
      applyCtorT k arg s = .ret r s' →
      s' = s ∨ ∃ rf rep, 0 < rep ∧ s'.repeatSt = some (rf, rep) ∧
        s'.pos = s.pos - rep - (if s.encoded[s.pos - 1]? = some 31 then 1 else 0) ∧
        s.pos - s'.pos ≤ rep + 1) := by
  constructor
  · intro s r s' hwf h
    exact (parseNext_facts hwf h).2.1
  · intro k arg s r s' hp hpe h
    unfold applyCtorT at h
    match k with
    | .optC f =>
      dsimp only at h
      match hf : f arg with
      | some flag => rw [hf] at h; cases h; exact Or.inl rfl
      | none => rw [hf] at h; cases h
    | .repC rf =>
      dsimp only at h
      match hr : runRepeat rf arg with
      | none => rw [hr] at h; cases h
      | some (flag, rep) =>
        rw [hr] at h
        dsimp only at h
        by_cases h0 : 0 < rep
        · rw [if_pos h0] at h
          cases h
          refine Or.inr ⟨rf, rep, h0, rfl, ?_, ?_⟩
          · have hbyte : envEndsWith (extract s.encoded 0 s.pos) sepChar = true ↔
                s.encoded[s.pos - 1]? = some 31 := by
              rw [extract_zero]
              exact envEndsWith_take_byte hp hpe
            dsimp only
            by_cases hE : envEndsWith (extract s.encoded 0 s.pos) sepChar = true
            · rw [if_pos hE, if_pos (hbyte.mp hE)]
              omega
            · rw [if_neg hE, if_neg (fun hb => hE (hbyte.mpr hb))]
              omega
          · dsimp only
            split <;> omega
        · rw [if_neg h0] at h
          cases h
          exact Or.inl rfl

theorem c8_rewind_uses_pre_rewind_byte_witness :
    (⟨strBytes "asm,mir", 4, some (RepFn.emitFn, 3), false⟩ : St) =
        (⟨strBytes "asm,mir", 7, none, false⟩ : St) ∨
      ∃ rf rep, 0 < rep ∧
        (⟨strBytes "asm,mir", 4, some (RepFn.emitFn, 3), false⟩ : St).repeatSt =
          some (rf, rep) ∧
        (⟨strBytes "asm,mir", 4, some (RepFn.emitFn, 3), false⟩ : St).pos =
          (⟨strBytes "asm,mir", 7, none, false⟩ : St).pos - rep -
            (if (⟨strBytes "asm,mir", 7, none, false⟩ : St).encoded[
              (⟨strBytes "asm,mir", 7, none, false⟩ : St).pos - 1]? = some 31
            then 1 else 0) ∧
        (⟨strBytes "asm,mir", 7, none, false⟩ : St).pos -
          (⟨strBytes "asm,mir", 4, some (RepFn.emitFn, 3), false⟩ : St).pos ≤ rep + 1 :=
  c8_rewind_uses_pre_rewind_byte.2 (.repC RepFn.emitFn) (strBytes "asm,mir")
    (⟨strBytes "asm,mir", 7, none, false⟩ : St) (some (Flag.emit Emit.asm))
    (⟨strBytes "asm,mir", 4, some (RepFn.emitFn, 3), false⟩ : St)
    (by decide) (by decide) (by decide)

theorem envIndexE_ok {e : EStr} {a b : Nat} (ha : boundaryOK e a = true)
    (hb : boundaryOK e b = true) (hab : a ≤ b) (hble : b ≤ e.length) :
    envIndexE e a b = .ok (extract e a b) := by
  unfold envIndexE
  rw [ha, hb]
  simp [hab, hble]

theorem perrBind_ok {α β : Type} (a : α) (f : α → Except PErr β) :
    (Except.ok a >>= f) = f a := rfl

theorem inv_of_parts {s : St} (hle : s.pos ≤ s.encoded.length)
    (hbnd : boundaryOK s.encoded s.pos = true) (hrepN : s.repeatSt = none) : Inv s :=
  ⟨hle, hbnd, fun rf r hr => by rw [hrepN] at hr; cases hr⟩

theorem applyCtorE_good {k : CtorKind} {arg : EStr} {s : St}
    (hbnd : boundaryOK s.encoded s.pos = true) (hle : s.pos ≤ s.encoded.length)
    (hrepN : s.repeatSt = none)
    (hA : s.encoded[s.pos - 1]? = some 31 →
      arg = extract s.encoded (s.pos - 1 - arg.length) (s.pos - 1) ∧
      arg.length ≤ s.pos - 1 ∧
      (∀ (j : Nat), s.pos - 1 - arg.length ≤ j → j < s.pos - 1 → s.encoded[j]? ≠ some 31))
    (hB : ¬(s.encoded[s.pos - 1]? = some 31) →
      arg = extract s.encoded (s.pos - arg.length) s.pos ∧
      arg.length ≤ s.pos ∧
      (∀ (j : Nat), s.pos - arg.length ≤ j → j < s.pos → s.encoded[j]? ≠ some 31) ∧
      (s.pos = s.encoded.length ∨ s.encoded[s.pos]? = some 31)) :
    applyCtorE k arg s = .ok (applyCtorT k arg s) ∧ GoodOut (applyCtorT k arg s) := by
  have hInvS : Inv s := inv_of_parts hle hbnd hrepN
  unfold applyCtorE applyCtorT
  match k with
  | .optC f =>
    dsimp only
    match f arg with
    | some flag => exact ⟨rfl, hInvS⟩
    | none => exact ⟨rfl, hInvS, fun hf => absurd hf (by simp)⟩
  | .repC rf =>
    dsimp only
    match hr : runRepeat rf arg with
    | none => exact ⟨rfl, hInvS, fun hf => absurd hf (by simp)⟩
    | some (flag, rep) =>
      dsimp only
      by_cases h0 : 0 < rep
      · rw [if_pos h0, if_pos h0]
        rcases runRepeat_facts hr with hz | ⟨hle4, hcm⟩
        · omega
        have hpos1 : 1 ≤ s.pos := by
          by_cases hb31 : s.encoded[s.pos - 1]? = some 31
          · obtain ⟨-, hlen2, -⟩ := hA hb31
            omega
          · obtain ⟨-, hlen2, -, -⟩ := hB hb31
            omega
        rw [envIndexE_ok (boundaryOK_zero _) hbnd (by omega) hle]
        rw [perrBind_ok]
        have hdel := envEndsWith_take_byte (e := s.encoded) (p := s.pos) hpos1 hle
        rw [extract_zero]
        by_cases hb31 : s.encoded[s.pos - 1]? = some 31
        · obtain ⟨hslice, hlen2, hno31⟩ := hA hb31
          have hE : envEndsWith (s.encoded.take s.pos) sepChar = true := hdel.mpr hb31
          rw [hE]
          rw [if_pos (show (true = true) from rfl)]
          rw [if_pos (show rep + 1 ≤ s.pos from by omega)]
          refine ⟨rfl, ?_⟩
          show Inv { s with pos := s.pos - (rep + 1), repeatSt := some (rf, rep) }
          have hcm2 : s.encoded[s.pos - rep - 2]? = some 0x2C := by
            rw [hslice, extract_getElem?] at hcm
            rw [show (extract s.encoded (s.pos - 1 - List.length arg) (s.pos - 1)).length
                = List.length arg from by rw [← hslice]] at hcm
            rw [if_pos (by omega)] at hcm
            rw [show s.pos - 1 - arg.length + (arg.length - rep - 1) = s.pos - rep - 2 from by
              omega] at hcm
            exact hcm
          refine ⟨?_, ?_, ?_⟩
          · show s.pos - (rep + 1) ≤ s.encoded.length
            omega
          · show boundaryOK s.encoded (s.pos - (rep + 1)) = true
            have hba : s.encoded[s.pos - (rep + 1) - 1]? = some 0x2C := by
              rw [show s.pos - (rep + 1) - 1 = s.pos - rep - 2 from by omega]
              exact hcm2
            exact boundaryOK_of_ascii_before hba (by omega) (by omega)
          · intro rf' r' hr'
            dsimp only at hr'
            cases hr'
            refine ⟨h0, ?_, Or.inr ?_, ?_⟩
            · show s.pos - (rep + 1) + rep ≤ s.encoded.length
              omega
            · show s.encoded[s.pos - (rep + 1) + rep]? = some 31
              rw [show s.pos - (rep + 1) + rep = s.pos - 1 from by omega]
              exact hb31
            · intro j hj1 hj2
              have hj1' : s.pos - (rep + 1) ≤ j := hj1
              have hj2' : j < s.pos - (rep + 1) + rep := hj2
              exact hno31 j (by omega) (by omega)
        · obtain ⟨hslice, hlen2, hno31, hendx⟩ := hB hb31
          have hE : envEndsWith (s.encoded.take s.pos) sepChar = false :=
            Bool.eq_false_iff.mpr (fun hq => hb31 (hdel.mp hq))
          rw [hE]
          rw [if_neg (show ¬(false = true) from by simp)]
          rw [if_pos (show rep + 0 ≤ s.pos from by omega)]
          refine ⟨rfl, ?_⟩
          show Inv { s with pos := s.pos - (rep + 0), repeatSt := some (rf, rep) }
          have hcm2 : s.encoded[s.pos - rep - 1]? = some 0x2C := by
            rw [hslice, extract_getElem?] at hcm
            rw [show (extract s.encoded (s.pos - List.length arg) s.pos).length
                = List.length arg from by rw [← hslice]] at hcm
            rw [if_pos (by omega)] at hcm
            rw [show s.pos - arg.length + (arg.length - rep - 1) = s.pos - rep - 1 from by
              omega] at hcm
            exact hcm
          refine ⟨?_, ?_, ?_⟩
          · show s.pos - (rep + 0) ≤ s.encoded.length
            omega
          · show boundaryOK s.encoded (s.pos - (rep + 0)) = true
            have hba : s.encoded[s.pos - (rep + 0) - 1]? = some 0x2C := by
              rw [show s.pos - (rep + 0) - 1 = s.pos - rep - 1 from by omega]
              exact hcm2
            exact boundaryOK_of_ascii_before hba (by omega) (by omega)
          · intro rf' r' hr'
            dsimp only at hr'
            cases hr'
            refine ⟨h0, ?_, ?_, ?_⟩
            · show s.pos - (rep + 0) + rep ≤ s.encoded.length
              omega
            · show s.pos - (rep + 0) + rep = s.encoded.length ∨
                s.encoded[s.pos - (rep + 0) + rep]? = some 31
              rw [show s.pos - (rep + 0) + rep = s.pos from by omega]
              exact hendx
            · intro j hj1 hj2
              have hj1' : s.pos - (rep + 0) ≤ j := hj1
              have hj2' : j < s.pos - (rep + 0) + rep := hj2
              exact hno31 j (by omega) (by omega)
      · rw [if_neg h0, if_neg h0]
        exact ⟨rfl, hInvS⟩

theorem extract_drop (e : EStr) (a b m : Nat) :
    (extract e a b).drop m = extract e (a + m) b := by
  unfold extract
  rw [List.drop_take, List.drop_drop]
  rw [show b - a - m = b - (a + m) from by omega]

theorem stepSkipE_agree {s : St} (hbnd : boundaryOK s.encoded s.pos = true)
    (hle : s.pos ≤ s.encoded.length) (hrepN : s.repeatSt = none) :
    stepSkipE s = .ok (stepSkipT s) ∧ GoodOut (stepSkipT s) := by
  unfold stepSkipE stepSkipT
  rw [envIndexE_ok hbnd (boundaryOK_len _) hle (le_refl _), perrBind_ok]
  match hf : envFind (extract s.encoded s.pos s.encoded.length) sepChar with
  | some i =>
    obtain ⟨hlt, hat, -⟩ := envFind_extract_sep_some hf
    refine ⟨rfl, ?_, fun hx => absurd hx (by simp)⟩
    refine inv_of_parts ?_ ?_ hrepN
    · show s.pos + i + 1 ≤ s.encoded.length
      omega
    · show boundaryOK s.encoded (s.pos + i + 1) = true
      exact boundaryOK_of_ascii_before (show s.encoded[s.pos + i + 1 - 1]? = some 31 from by
        rw [show s.pos + i + 1 - 1 = s.pos + i from by omega]; exact hat) (by omega) (by omega)
  | none =>
    refine ⟨rfl, ?_, fun hx => absurd hx (by simp)⟩
    exact inv_of_parts (le_refl _) (boundaryOK_len _) hrepN

theorem argScanE_agree {k : CtorKind} {p : Nat} {s : St}
    (hbnd : boundaryOK s.encoded p = true) (hple : p ≤ s.encoded.length)
    (hrepN : s.repeatSt = none) :
    argScanE k p s = .ok (argScanT k p s) ∧ GoodOut (argScanT k p s) := by
  unfold argScanE argScanT
  rw [envIndexE_ok hbnd (boundaryOK_len _) hple (le_refl _), perrBind_ok]
  match hf : envFind (extract s.encoded p s.encoded.length) sepChar with
  | some i =>
    dsimp only
    obtain ⟨hlt, hat, hmin⟩ := envFind_extract_sep_some hf
    rw [envIndexE_ok hbnd (boundaryOK_of_ascii_at hat (by omega)) (by omega) (by omega),
      perrBind_ok]
    have halen : (extract s.encoded p (p + i)).length = i := by
      rw [extract_length]; omega
    have h1 : boundaryOK s.encoded (p + i + 1) = true :=
      boundaryOK_of_ascii_before (show s.encoded[p + i + 1 - 1]? = some 31 from by
        rw [show p + i + 1 - 1 = p + i from by omega]; exact hat) (by omega) (by omega)
    have h2 : p + i + 1 ≤ s.encoded.length := by omega
    have hA : s.encoded[p + i + 1 - 1]? = some 31 →
        extract s.encoded p (p + i) =
          extract s.encoded (p + i + 1 - 1 - (extract s.encoded p (p + i)).length)
            (p + i + 1 - 1) ∧
        (extract s.encoded p (p + i)).length ≤ p + i + 1 - 1 ∧
        (∀ (j : Nat), p + i + 1 - 1 - (extract s.encoded p (p + i)).length ≤ j →
          j < p + i + 1 - 1 → s.encoded[j]? ≠ some 31) := by
      intro _
      rw [halen]
      refine ⟨?_, by omega, ?_⟩
      · rw [show p + i + 1 - 1 - i = p from by omega,
          show p + i + 1 - 1 = p + i from by omega]
      · intro j hj1 hj2
        rw [show p + i + 1 - 1 - i = p from by omega] at hj1
        rw [show p + i + 1 - 1 = p + i from by omega] at hj2
        have := hmin (j - p) (by omega)
        rw [show p + (j - p) = j from by omega] at this
        exact this
    refine applyCtorE_good h1 h2 hrepN hA ?_
    intro hq
    exact absurd (show s.encoded[p + i + 1 - 1]? = some 31 from by
      rw [show p + i + 1 - 1 = p + i from by omega]; exact hat) hq
  | none =>
    dsimp only
    have hno := envFind_extract_sep_none hf
    rw [perrBind_ok]
    have halen : (extract s.encoded p s.encoded.length).length = s.encoded.length - p := by
      rw [extract_length]; omega
    have hA0 : s.encoded[s.encoded.length - 1]? = some 31 →
        extract s.encoded p s.encoded.length =
          extract s.encoded
            (s.encoded.length - 1 - (extract s.encoded p s.encoded.length).length)
            (s.encoded.length - 1) ∧
        (extract s.encoded p s.encoded.length).length ≤ s.encoded.length - 1 ∧
        (∀ (j : Nat),
          s.encoded.length - 1 - (extract s.encoded p s.encoded.length).length ≤ j →
          j < s.encoded.length - 1 → s.encoded[j]? ≠ some 31) := by
      intro hq
      have hpl : p = s.encoded.length := by
        by_contra hne
        exact hno (s.encoded.length - 1) (by omega) (by omega) hq
      have e1 : extract s.encoded p s.encoded.length = [] :=
        List.eq_nil_of_length_eq_zero (by rw [extract_length]; omega)
      refine ⟨?_, ?_, ?_⟩
      · rw [e1, List.length_nil, Nat.sub_zero]
        exact (List.eq_nil_of_length_eq_zero (by rw [extract_length]; omega)).symm
      · rw [halen]; omega
      · intro j hj1 hj2 hc
        rw [halen] at hj1
        omega
    have hB0 : ¬(s.encoded[s.encoded.length - 1]? = some 31) →
        extract s.encoded p s.encoded.length =
          extract s.encoded
            (s.encoded.length - (extract s.encoded p s.encoded.length).length)
            s.encoded.length ∧
        (extract s.encoded p s.encoded.length).length ≤ s.encoded.length ∧
        (∀ (j : Nat),
          s.encoded.length - (extract s.encoded p s.encoded.length).length ≤ j →
          j < s.encoded.length → s.encoded[j]? ≠ some 31) ∧
        (s.encoded.length = s.encoded.length ∨
          s.encoded[s.encoded.length]? = some 31) := by
      intro _
      rw [halen]
      refine ⟨?_, by omega, ?_, Or.inl rfl⟩
      · rw [show s.encoded.length - (s.encoded.length - p) = p from by omega]
      · intro j hj1 hj2
        exact hno j (by omega) hj2
    exact applyCtorE_good (boundaryOK_len _) (le_refl _) hrepN hA0 hB0

theorem shortArgE_agree {k : CtorKind} {s0 : St} (hbnd : boundaryOK s0.encoded s0.pos = true)
    (hle : s0.pos ≤ s0.encoded.length) (hrepN : s0.repeatSt = none) :
    shortArgE k s0 = .ok (shortArgT k s0) ∧ GoodOut (shortArgT k s0) := by
  unfold shortArgE shortArgT
  by_cases hp : s0.pos = s0.encoded.length
  · rw [if_pos hp, if_pos hp]
    exact ⟨rfl, inv_of_parts hle hbnd hrepN⟩
  · rw [if_neg hp, if_neg hp]
    rw [envIndexE_ok hbnd (boundaryOK_len _) hle (le_refl _), perrBind_ok]
    by_cases hsw : envStartsWith (extract s0.encoded s0.pos s0.encoded.length) sepChar = true
    · rw [if_pos hsw]
      have hat := envStartsWith_extract_sep hsw
      have hlt := getElem?_lt_len hat
      exact argScanE_agree (boundaryOK_of_ascii_before (show s0.encoded[s0.pos + 1 - 1]? =
        some 31 from by rw [Nat.add_sub_cancel]; exact hat) (by omega) (by omega))
        (show s0.pos + 1 ≤ s0.encoded.length from by omega) hrepN
    · rw [if_neg hsw]
      exact argScanE_agree hbnd hle hrepN

theorem shortLookupE_agree {ch : Char} {s : St} (hbnd : boundaryOK s.encoded s.pos = true)
    (hle : s.pos ≤ s.encoded.length) (hrepN : s.repeatSt = none) :
    shortLookupE ch s = .ok (shortLookupT ch s) ∧ GoodOut (shortLookupT ch s) := by
  unfold shortLookupE shortLookupT
  match hl : lookupShort ch with
  | .flagC flag => exact ⟨rfl, inv_of_parts hle hbnd hrepN⟩
  | .unrecognized => exact ⟨rfl, inv_of_parts hle hbnd hrepN, fun _ => hrepN⟩
  | .optC f => exact shortArgE_agree hbnd hle hrepN
  | .repC rf => exact shortArgE_agree hbnd hle hrepN

theorem stepShortE_agree {s : St} (hbnd : boundaryOK s.encoded s.pos = true)
    (hpos : s.pos < s.encoded.length) (hrepN : s.repeatSt = none) :
    stepShortE s = .ok (stepShortT s) ∧ GoodOut (stepShortT s) := by
  unfold stepShortE stepShortT
  rw [envIndexE_ok hbnd (boundaryOK_len _) (by omega) (le_refl _), perrBind_ok]
  have hne : extract s.encoded s.pos s.encoded.length ≠ [] := by
    rw [extract_to_end]
    intro hq
    have hql := congrArg List.length hq
    rw [List.length_drop] at hql
    simp only [List.length_nil] at hql
    omega
  match hfc : envFirstChar (extract s.encoded s.pos s.encoded.length) with
  | none => exact absurd hfc (envFirstChar_ne_none hne)
  | some (.valid ch) =>
    dsimp only
    obtain ⟨k, hdec⟩ := envFirstChar_valid hfc
    rw [extract_to_end] at hdec
    have hwid := utf8DecodeFirst_encLen hdec
    have hbnd2 : boundaryOK s.encoded (s.pos + (utf8EncodeChar ch).length) = true := by
      rw [hwid]
      exact boundaryOK_after_char hdec
    have hle2 : s.pos + (utf8EncodeChar ch).length ≤ s.encoded.length := by
      obtain ⟨hk1, hk4, hkl, -, -⟩ := utf8DecodeFirst_spec hdec
      rw [List.length_drop] at hkl
      rw [hwid]
      omega
    by_cases hsep : ch = sepChar
    · rw [if_pos hsep, if_pos hsep]
      exact ⟨rfl, inv_of_parts hle2 hbnd2 hrepN, fun hx => absurd hx (by simp)⟩
    · rw [if_neg hsep, if_neg hsep]
      exact shortLookupE_agree hbnd2 hle2 hrepN
  | some .invalid =>
    dsimp only
    exact shortLookupE_agree hbnd (by omega) hrepN

theorem longArgE_agree {k : CtorKind} {argE : Option EStr} {s : St}
    (hbnd : boundaryOK s.encoded s.pos = true) (hle : s.pos ≤ s.encoded.length)
    (hrepN : s.repeatSt = none)
    (hargs : ∀ arg, argE = some arg →
      (s.encoded[s.pos - 1]? = some 31 →
        arg = extract s.encoded (s.pos - 1 - arg.length) (s.pos - 1) ∧
        arg.length ≤ s.pos - 1 ∧
        (∀ (j : Nat), s.pos - 1 - arg.length ≤ j → j < s.pos - 1 →
          s.encoded[j]? ≠ some 31)) ∧
      (¬(s.encoded[s.pos - 1]? = some 31) →
        arg = extract s.encoded (s.pos - arg.length) s.pos ∧
        arg.length ≤ s.pos ∧
        (∀ (j : Nat), s.pos - arg.length ≤ j → j < s.pos → s.encoded[j]? ≠ some 31) ∧
        (s.pos = s.encoded.length ∨ s.encoded[s.pos]? = some 31))) :
    longArgE k argE s = .ok (longArgT k argE s) ∧ GoodOut (longArgT k argE s) := by
  unfold longArgE longArgT
  match hE : argE with
  | some arg =>
    obtain ⟨hA, hB⟩ := hargs arg rfl
    exact applyCtorE_good hbnd hle hrepN hA hB
  | none => exact argScanE_agree hbnd hle hrepN

theorem longNameGoE_agree {name : EStr} {argE : Option EStr} {s : St}
    (hbnd : boundaryOK s.encoded s.pos = true) (hle : s.pos ≤ s.encoded.length)
    (hrepN : s.repeatSt = none)
    (hargs : ∀ arg, argE = some arg →
      (s.encoded[s.pos - 1]? = some 31 →
        arg = extract s.encoded (s.pos - 1 - arg.length) (s.pos - 1) ∧
        arg.length ≤ s.pos - 1 ∧
        (∀ (j : Nat), s.pos - 1 - arg.length ≤ j → j < s.pos - 1 →
          s.encoded[j]? ≠ some 31)) ∧
      (¬(s.encoded[s.pos - 1]? = some 31) →
        arg = extract s.encoded (s.pos - arg.length) s.pos ∧
        arg.length ≤ s.pos ∧
        (∀ (j : Nat), s.pos - arg.length ≤ j → j < s.pos → s.encoded[j]? ≠ some 31) ∧
        (s.pos = s.encoded.length ∨ s.encoded[s.pos]? = some 31))) :
    longNameGoE name argE s = .ok (longNameGo name argE s) ∧
      GoodOut (longNameGo name argE s) := by
  unfold longNameGoE longNameGo
  match hts : toStr name with
  | none => exact ⟨rfl, inv_of_parts hle hbnd hrepN, fun hx => absurd hx (by simp)⟩
  | some nameTxt =>
    dsimp only
    match hl : lookupLong nameTxt with
    | .flagC flag =>
      match argE with
      | none => exact ⟨rfl, inv_of_parts hle hbnd hrepN⟩
      | some _ => exact ⟨rfl, inv_of_parts hle hbnd hrepN, fun hx => absurd hx (by simp)⟩
    | .unrecognized => exact ⟨rfl, inv_of_parts hle hbnd hrepN, fun hx => absurd hx (by simp)⟩
    | .optC f => exact longArgE_agree hbnd hle hrepN hargs
    | .repC rf => exact longArgE_agree hbnd hle hrepN hargs

theorem longNameE_agree {flagTok : EStr} {t : Nat} {s : St}
    (hflag : flagTok = extract s.encoded t (t + flagTok.length))
    (hpos : (s.pos = t + flagTok.length + 1 ∧
        s.encoded[t + flagTok.length]? = some 31) ∨
      (s.pos = t + flagTok.length ∧ s.pos = s.encoded.length))
    (hno31 : ∀ (j : Nat), t ≤ j → j < t + flagTok.length → s.encoded[j]? ≠ some 31)
    (hbnd : boundaryOK s.encoded s.pos = true) (hrepN : s.repeatSt = none) :
    longNameE flagTok s = .ok (longNameT flagTok s) ∧ GoodOut (longNameT flagTok s) := by
  have hle : s.pos ≤ s.encoded.length := by
    rcases hpos with ⟨hp, hat⟩ | ⟨hp, hpl⟩
    · have := getElem?_lt_len hat
      omega
    · omega
  unfold longNameE longNameT
  match hsp : envSplitOnce flagTok '=' with
  | none => exact longNameGoE_agree hbnd hle hrepN (fun arg harg => nomatch harg)
  | some (n, a) =>
    dsimp only
    obtain ⟨m, hmlt, hmat, hmmin, hn, ha⟩ := envSplitOnce_eq (by decide) hsp
    have halen : a.length = flagTok.length - (m + 1) := by
      rw [ha, List.length_drop]
    have haex : a = extract s.encoded (t + (m + 1)) (t + flagTok.length) := by
      rw [ha]
      conv_lhs => rw [hflag]
      rw [extract_drop]
    refine longNameGoE_agree hbnd hle hrepN ?_
    intro arg harg
    have ha2 : arg = a := by injection harg with h; exact h.symm
    rw [ha2]
    rcases hpos with ⟨hp, hat⟩ | ⟨hp, hpl⟩
    · refine ⟨fun _ => ?_, fun hq => absurd ?_ hq⟩
      · refine ⟨?_, ?_, ?_⟩
        · rw [show s.pos - 1 - a.length = t + (m + 1) from by rw [halen]; omega,
            show s.pos - 1 = t + flagTok.length from by omega]
          exact haex
        · rw [halen]; omega
        · intro j hj1 hj2
          rw [halen] at hj1
          exact hno31 j (by omega) (by omega)
      · rw [show s.pos - 1 = t + flagTok.length from by omega]
        exact hat
    · refine ⟨fun hq => absurd hq ?_, fun _ => ?_⟩
      · rw [show s.pos - 1 = t + flagTok.length - 1 from by omega]
        exact hno31 (t + flagTok.length - 1) (by omega) (by omega)
      · refine ⟨?_, ?_, ?_, Or.inl hpl⟩
        · rw [show s.pos - a.length = t + (m + 1) from by rw [halen]; omega, hp]
          exact haex
        · rw [halen]; omega
        · intro j hj1 hj2
          rw [halen] at hj1
          exact hno31 j (by omega) (by omega)

theorem longFlagE_agree {s : St} (hd2 : s.encoded[s.pos + 1]? = some 45)
    (hrepN : s.repeatSt = none) :
    longFlagE s = .ok (longFlagT s) ∧ GoodOut (longFlagT s) := by
  have hlt := getElem?_lt_len hd2
  have hb2 : boundaryOK s.encoded (s.pos + 2) = true :=
    boundaryOK_of_ascii_before (show s.encoded[s.pos + 2 - 1]? = some 45 from by
      rw [show s.pos + 2 - 1 = s.pos + 1 from by omega]; exact hd2) (by omega) (by omega)
  unfold longFlagE longFlagT
  rw [envIndexE_ok hb2 (boundaryOK_len _) (by omega) (le_refl _), perrBind_ok]
  match hf : envFind (extract s.encoded (s.pos + 2) s.encoded.length) sepChar with
  | some i =>
    match i with
    | 0 =>
      exact ⟨rfl, inv_of_parts (le_refl _) (boundaryOK_len _) hrepN,
        fun hx => absurd hx (by simp)⟩
    | i + 1 =>
      dsimp only
      obtain ⟨hlt1, hat1, hmin1⟩ := envFind_extract_sep_some hf
      rw [envIndexE_ok hb2 (boundaryOK_of_ascii_at hat1 (by omega)) (by omega) (by omega),
        perrBind_ok]
      have hlen1 : (extract s.encoded (s.pos + 2) (s.pos + 2 + (i + 1))).length = i + 1 := by
        rw [extract_length]; omega
      refine longNameE_agree (t := s.pos + 2) ?_ ?_ ?_ ?_ hrepN
      · rw [hlen1]
      · left
        refine ⟨?_, ?_⟩
        · show s.pos + (i + 1) + 3 =
            s.pos + 2 + (extract s.encoded (s.pos + 2) (s.pos + 2 + (i + 1))).length + 1
          rw [hlen1]; omega
        · rw [hlen1]; exact hat1
      · intro j hj1 hj2
        rw [hlen1] at hj2
        have := hmin1 (j - (s.pos + 2)) (by omega)
        rw [show s.pos + 2 + (j - (s.pos + 2)) = j from by omega] at this
        exact this
      · show boundaryOK s.encoded (s.pos + (i + 1) + 3) = true
        have hat2 : s.encoded[s.pos + (i + 1) + 3 - 1]? = some 31 := by
          rw [show s.pos + (i + 1) + 3 - 1 = s.pos + 2 + (i + 1) from by omega]
          exact hat1
        exact boundaryOK_of_ascii_before hat2 (by omega) (by omega)
  | none =>
    dsimp only
    have hno := envFind_extract_sep_none hf
    rw [perrBind_ok]
    have hlen2 : (extract s.encoded (s.pos + 2) s.encoded.length).length =
        s.encoded.length - (s.pos + 2) := by
      rw [extract_length]; omega
    refine longNameE_agree (t := s.pos + 2) ?_ ?_ ?_ ?_ hrepN
    · rw [hlen2, show s.pos + 2 + (s.encoded.length - (s.pos + 2)) = s.encoded.length from by
        omega]
    · right
      refine ⟨?_, rfl⟩
      show s.encoded.length =
        s.pos + 2 + (extract s.encoded (s.pos + 2) s.encoded.length).length
      rw [hlen2]; omega
    · intro j hj1 hj2
      rw [hlen2] at hj2
      exact hno j hj1 (by omega)
    · show boundaryOK s.encoded s.encoded.length = true
      exact boundaryOK_len _

theorem stepLongE_agree {s : St} (hd1 : s.encoded[s.pos]? = some 45)
    (hrepN : s.repeatSt = none) :
    stepLongE s = .ok (stepLongT s) ∧ GoodOut (stepLongT s) := by
  have hlt := getElem?_lt_len hd1
  have hb1 : boundaryOK s.encoded (s.pos + 1) = true :=
    boundaryOK_of_ascii_before (show s.encoded[s.pos + 1 - 1]? = some 45 from by
      rw [Nat.add_sub_cancel]; exact hd1) (by omega) (by omega)
  unfold stepLongE stepLongT
  rw [envIndexE_ok hb1 (boundaryOK_len _) (by omega) (le_refl _), perrBind_ok]
  match hfc : envFirstChar (extract s.encoded (s.pos + 1) s.encoded.length) with
  | none =>
    exact ⟨rfl, inv_of_parts (show s.pos + 1 ≤ s.encoded.length from by omega) hb1 hrepN,
      fun hx => absurd hx (by simp)⟩
  | some .invalid =>
    exact ⟨rfl, inv_of_parts (show s.pos + 1 ≤ s.encoded.length from by omega) hb1 hrepN,
      fun hx => absurd hx (by simp)⟩
  | some (.valid ch) =>
    dsimp only
    obtain ⟨k, hdec⟩ := envFirstChar_valid hfc
    obtain ⟨-, -, -, -, hascii⟩ := utf8DecodeFirst_spec hdec
    by_cases hsep : ch = sepChar
    · rw [if_pos hsep, if_pos hsep]
      obtain ⟨-, h0⟩ := hascii (by rw [hsep]; decide)
      rw [extract_getElem?] at h0
      have hat : s.encoded[s.pos + 1]? = some 31 := by
        split at h0
        · rw [show s.pos + 1 + 0 = s.pos + 1 from rfl] at h0
          rw [h0, hsep, sepChar_toNat]
        · exact absurd h0 (by simp)
      have h2lt := getElem?_lt_len hat
      have hat2 : s.encoded[s.pos + 2 - 1]? = some 31 := by
        rw [show s.pos + 2 - 1 = s.pos + 1 from by omega]
        exact hat
      refine ⟨rfl, ?_, fun hx => absurd hx (by simp)⟩
      exact inv_of_parts (show s.pos + 2 ≤ s.encoded.length from by omega)
        (boundaryOK_of_ascii_before hat2 (show (31 : Nat) ≤ 0x7F from by omega)
          (show 1 ≤ s.pos + 2 from by omega)) hrepN
    · rw [if_neg hsep, if_neg hsep]
      by_cases hdash : ch = '-'
      · rw [if_pos hdash, if_pos hdash]
        obtain ⟨-, h0⟩ := hascii (by rw [hdash]; decide)
        rw [extract_getElem?] at h0
        have hat : s.encoded[s.pos + 1]? = some 45 := by
          split at h0
          · rw [show s.pos + 1 + 0 = s.pos + 1 from rfl] at h0
            rw [h0, hdash]
            decide
          · exact absurd h0 (by simp)
        exact longFlagE_agree hat hrepN
      · rw [if_neg hdash, if_neg hdash]
        exact ⟨rfl, inv_of_parts (show s.pos + 1 ≤ s.encoded.length from by omega) hb1 hrepN,
          fun hx => absurd hx (by simp)⟩

theorem stepRepeatE_agree {rf : RepFn} {len : Nat} {s : St} (hInv : Inv s)
    (hrep : s.repeatSt = some (rf, len)) :
    stepRepeatE rf len s = .ok (stepRepeatT rf len s) ∧ GoodOut (stepRepeatT rf len s) := by
  obtain ⟨hle, hbnd, hR⟩ := hInv
  obtain ⟨h1, h2, h3, h4⟩ := hR rf len hrep
  unfold stepRepeatE stepRepeatT
  dsimp only
  have hb2 : boundaryOK s.encoded (s.pos + len) = true := by
    rcases h3 with h3 | h3
    · rw [h3]; exact boundaryOK_len _
    · exact boundaryOK_of_ascii_at h3 (by omega)
  rw [envIndexE_ok hbnd hb2 (by omega) h2, perrBind_ok]
  have hlen3 : (extract s.encoded s.pos (s.pos + len)).length = len := by
    rw [extract_length]; omega
  refine applyCtorE_good hb2 h2 rfl ?_ ?_
  · intro hq
    have hq' : s.encoded[s.pos + len - 1]? = some 31 := hq
    exact absurd hq' (h4 (s.pos + len - 1) (by omega) (by omega))
  · intro _
    show extract s.encoded s.pos (s.pos + len) =
        extract s.encoded
          (s.pos + len - (extract s.encoded s.pos (s.pos + len)).length) (s.pos + len) ∧
      (extract s.encoded s.pos (s.pos + len)).length ≤ s.pos + len ∧
      (∀ (j : Nat), s.pos + len - (extract s.encoded s.pos (s.pos + len)).length ≤ j →
        j < s.pos + len → s.encoded[j]? ≠ some 31) ∧
      (s.pos + len = s.encoded.length ∨ s.encoded[s.pos + len]? = some 31)
    rw [hlen3]
    refine ⟨?_, by omega, ?_, h3⟩
    · rw [show s.pos + len - len = s.pos from by omega]
    · intro j hj1 hj2
      exact h4 j (by omega) hj2

theorem stepE_agree {skip : Bool} {s : St} (hInv : Inv s)
    (hskip : skip = true → s.repeatSt = none) (hpos : s.pos < s.encoded.length) :
    stepE skip s = .ok (stepT skip s) ∧ GoodOut (stepT skip s) := by
  obtain ⟨hle, hbnd, hR⟩ := hInv
  unfold stepE stepT
  match skip with
  | true =>
    rw [if_pos rfl, if_pos rfl]
    exact stepSkipE_agree hbnd hle (hskip rfl)
  | false =>
    rw [if_neg (show ¬(false = true) from by simp),
      if_neg (show ¬(false = true) from by simp)]
    match hrep : s.repeatSt with
    | some (rf, len) => exact stepRepeatE_agree ⟨hle, hbnd, hR⟩ hrep
    | none =>
      by_cases hsh : s.short = true
      · rw [if_pos hsh, if_pos hsh]
        exact stepShortE_agree hbnd hpos hrep
      · rw [if_neg hsh, if_neg hsh]
        rw [envIndexE_ok hbnd (boundaryOK_len _) hle (le_refl _), perrBind_ok]
        by_cases hdash : envStartsWith (extract s.encoded s.pos s.encoded.length) '-' = true
        · rw [if_pos hdash, if_pos hdash]
          have hd1 : s.encoded[s.pos]? = some 45 := by
            rw [envStartsWith_ascii (by decide)] at hdash
            rw [extract_getElem?] at hdash
            split at hdash
            · rw [show s.pos + 0 = s.pos from rfl] at hdash
              rw [hdash]
              decide
            · exact absurd hdash (by simp)
          exact stepLongE_agree hd1 hrep
        · rw [if_neg hdash, if_neg hdash]
          exact ⟨rfl, ⟨hle, hbnd, hR⟩, fun _ => hrep⟩

theorem parseLoopE_agree : ∀ (fuel : Nat) (skip : Bool) (s : St), Inv s →
    (skip = true → s.repeatSt = none) → stMeasure skip s < fuel →
    parseLoopE fuel skip s = .ok (parseLoopT fuel skip s) ∧
      Inv (parseLoopT fuel skip s).2 := by
  intro fuel
  induction fuel with
  | zero => intro skip s hInv hskip hm; exact absurd hm (by omega)
  | succ fuel ih =>
    intro skip s hInv hskip hm
    rw [parseLoopE, parseLoopT]
    by_cases hg : s.pos < s.encoded.length
    · rw [if_pos hg, if_pos hg]
      obtain ⟨hE, hG⟩ := stepE_agree hInv hskip hg
      rw [hE, perrBind_ok]
      have hwf : WfLite s := fun rf r hr => (hInv.2.2 rf r hr).1
      match hst : stepT skip s with
      | .ret r0 s0 =>
        rw [hst] at hG
        exact ⟨rfl, hG⟩
      | .cont sk0 s0 =>
        rw [hst] at hG
        have hG' : Inv s0 ∧ (sk0 = true → s0.repeatSt = none) := hG
        obtain ⟨-, -, -, hmdec, -⟩ := (stepT_basic hwf hg).1 sk0 s0 hst
        exact ih sk0 s0 hG'.1 hG'.2 (by omega)
    · rw [if_neg hg, if_neg hg]
      exact ⟨rfl, hInv⟩

theorem parseNextE_agree {s : St} (hInv : Inv s) :
    parseNextE s = .ok (parseNext s) ∧ Inv (parseNext s).2 := by
  unfold parseNextE parseNext
  exact parseLoopE_agree (loopFuel s) false s hInv (fun hx => absurd hx (by simp))
    (stMeasure_lt_loopFuel false s)

theorem parseAllAuxE_agree : ∀ (fuel : Nat) (s : St), Inv s →
    s.encoded.length - s.pos < fuel →
    parseAllAuxE fuel s = .ok (parseAllAux fuel s) := by
  intro fuel
  induction fuel with
  | zero => intro s hInv hf; exact absurd hf (by omega)
  | succ fuel ih =>
    intro s hInv hf
    rw [parseAllAuxE, parseAllAux]
    obtain ⟨hE, hInv'⟩ := parseNextE_agree hInv
    rw [hE, perrBind_ok]
    have hwf : WfLite s := fun rf r hr => (hInv.2.2 rf r hr).1
    match hn : parseNext s with
    | (none, s1) => rfl
    | (some flag, s1) =>
      dsimp only
      obtain ⟨henc, hle, hwf1, hstrict⟩ := parseNext_facts hwf hn
      obtain ⟨hlt, hg⟩ := hstrict rfl
      rw [hn] at hInv'
      rw [ih s1 hInv' (by rw [henc]; omega), perrBind_ok]

theorem parseU16Digits_foldl_ge : ∀ (l : List Char) (acc : Nat),
    acc ≤ l.foldl (fun a c => a * 10 + (c.toNat - 48)) acc := by
  intro l
  induction l with
  | nil => intro acc; simp
  | cons c cs ih =>
    intro acc
    rw [List.foldl_cons]
    calc acc ≤ acc * 10 + (c.toNat - 48) := by omega
    _ ≤ _ := ih _

theorem parseU16Digits_spec : ∀ (l : List Char) (acc : Nat), acc ≤ 65535 →
    parseU16Digits l acc =
      if (l.all (fun c => decide ('0' ≤ c) && decide (c ≤ '9')) = true ∧
          l.foldl (fun a c => a * 10 + (c.toNat - 48)) acc ≤ 65535) then
        some (l.foldl (fun a c => a * 10 + (c.toNat - 48)) acc)
      else none := by
  intro l
  induction l with
  | nil =>
    intro acc hacc
    rw [show parseU16Digits [] acc = some acc from rfl]
    rw [if_pos ⟨by simp, by simpa using hacc⟩]
    simp
  | cons c cs ih =>
    intro acc hacc
    rw [parseU16Digits]
    unfold digitVal
    by_cases hd : '0' ≤ c ∧ c ≤ '9'
    · rw [if_pos hd]
      dsimp only
      have hdc : (decide ('0' ≤ c) && decide (c ≤ '9')) = true := by
        simp [hd.1, hd.2]
      by_cases hof : acc * 10 + (c.toNat - 48) ≤ 65535
      · rw [if_pos hof]
        rw [ih _ hof]
        rw [List.foldl_cons, List.all_cons, hdc]
        simp only [Bool.true_and]
      · rw [if_neg hof]
        have hneg : ¬((c :: cs).all (fun c => decide ('0' ≤ c) && decide (c ≤ '9')) = true ∧
            (c :: cs).foldl (fun a c => a * 10 + (c.toNat - 48)) acc ≤ 65535) := by
          rintro ⟨-, hfold⟩
          rw [List.foldl_cons] at hfold
          have := parseU16Digits_foldl_ge cs (acc * 10 + (c.toNat - 48))
          omega
        rw [if_neg hneg]
    · rw [if_neg hd]
      dsimp only
      have hneg : ¬((c :: cs).all (fun c => decide ('0' ≤ c) && decide (c ≤ '9')) = true ∧
          (c :: cs).foldl (fun a c => a * 10 + (c.toNat - 48)) acc ≤ 65535) := by
        rintro ⟨hall, -⟩
        rw [List.all_cons, Bool.and_eq_true] at hall
        obtain ⟨hdb, -⟩ := hall
        rw [Bool.and_eq_true, decide_eq_true_eq, decide_eq_true_eq] at hdb
        exact hd hdb
      rw [if_neg hneg]

theorem parseU16_nil {s : String} (hs : s.data = []) : parseU16 s = none := by
  unfold parseU16
  rw [hs]

theorem parseU16_plus {s : String} {rest : List Char} (hs : s.data = '+' :: rest) :
    parseU16 s = if rest = [] then none else parseU16Digits rest 0 := by
  unfold parseU16
  rw [hs]
  rfl

theorem parseU16_minus {s : String} {rest : List Char} (hs : s.data = '-' :: rest) :
    parseU16 s = none := by
  unfold parseU16
  rw [hs]
  rfl

theorem parseU16_other {s : String} {c : Char} {cs : List Char} (h1 : c ≠ '+') (h2 : c ≠ '-')
    (hs : s.data = c :: cs) : parseU16 s = parseU16Digits (c :: cs) 0 := by
  unfold parseU16
  rw [hs]
  split
  · rename_i heq
    cases heq
  · rename_i heq
    injection heq with hc hcs
    exact absurd hc h1
  · rename_i heq
    injection heq with hc hcs
    exact absurd hc h2
  · rfl

theorem u16SpecDs_other {c : Char} {cs : List Char} (h1 : c ≠ '+') :
    (match c :: cs with
      | '+' :: rest => rest
      | l => l) = c :: cs := by
  split
  · rename_i heq
    injection heq with hc hcs
    exact absurd hc h1
  · rfl

theorem u16Spec_ds_plus {s : String} {rest : List Char} (hs : s.data = '+' :: rest) :
    u16Spec s = (if (rest ≠ [] ∧ rest.all (fun c => decide ('0' ≤ c) && decide (c ≤ '9')) ∧
        rest.foldl (fun acc c => acc * 10 + (c.toNat - 48)) 0 ≤ 65535) then
      some (rest.foldl (fun acc c => acc * 10 + (c.toNat - 48)) 0) else none) := by
  unfold u16Spec
  rw [hs]
  rfl

theorem u16Spec_ds_other {s : String} {c : Char} {cs : List Char} (h1 : c ≠ '+')
    (hs : s.data = c :: cs) :
    u16Spec s = (if ((c :: cs) ≠ [] ∧
        (c :: cs).all (fun c => decide ('0' ≤ c) && decide (c ≤ '9')) ∧
        (c :: cs).foldl (fun acc c => acc * 10 + (c.toNat - 48)) 0 ≤ 65535) then
      some ((c :: cs).foldl (fun acc c => acc * 10 + (c.toNat - 48)) 0) else none) := by
  unfold u16Spec
  rw [hs]
  dsimp only
  rw [u16SpecDs_other h1]

theorem parseU16_eq_u16Spec (s : String) : parseU16 s = u16Spec s := by
  match hs : s.data with
  | [] =>
    rw [parseU16_nil hs]
    unfold u16Spec
    rw [hs]
    rw [if_neg (by simp)]
  | c :: cs =>
    by_cases h1 : c = '+'
    · subst h1
      rw [parseU16_plus hs, u16Spec_ds_plus hs]
      by_cases h0 : cs = []
      · subst h0
        rw [if_pos rfl, if_neg (by simp)]
      · rw [if_neg h0]
        rw [parseU16Digits_spec cs 0 (by omega)]
        by_cases hcond : (cs.all (fun c => decide ('0' ≤ c) && decide (c ≤ '9')) = true ∧
            cs.foldl (fun a c => a * 10 + (c.toNat - 48)) 0 ≤ 65535)
        · rw [if_pos hcond, if_pos ⟨h0, hcond.1, hcond.2⟩]
        · rw [if_neg hcond, if_neg (fun hq => hcond ⟨hq.2.1, hq.2.2⟩)]
    · by_cases h2 : c = '-'
      · subst h2
        rw [parseU16_minus hs, u16Spec_ds_other h1 hs]
        rw [if_neg ?_]
        rintro ⟨-, hall, -⟩
        rw [List.all_cons, Bool.and_eq_true] at hall
        obtain ⟨hdb, -⟩ := hall
        rw [Bool.and_eq_true, decide_eq_true_eq, decide_eq_true_eq] at hdb
        have : ('-' : Char).toNat = 45 := by decide
        have h0 : ('0' : Char) ≤ '-' := hdb.1
        exact absurd h0 (by decide)
      · rw [parseU16_other h1 h2 hs, u16Spec_ds_other h1 hs]
        rw [parseU16Digits_spec (c :: cs) 0 (by omega)]
        by_cases hcond : ((c :: cs).all (fun c => decide ('0' ≤ c) && decide (c ≤ '9')) = true ∧
            (c :: cs).foldl (fun a c => a * 10 + (c.toNat - 48)) 0 ≤ 65535)
        · rw [if_pos hcond, if_pos ⟨by simp, hcond.1, hcond.2⟩]
        · rw [if_neg hcond, if_neg (fun hq => hcond ⟨hq.2.1, hq.2.2⟩)]

theorem strBytes_append (a b : String) : strBytes (a ++ b) = strBytes a ++ strBytes b := by
  unfold strBytes
  rw [String.data_append, List.map_append, List.flatten_append]

/-- C4 (amended): an unrecognized flag is skipped by itself, never together
with a following token.  For every continuation of the stream, decoding
`-x␟…` or `--bogus␟…` yields exactly the flags of the continuation alone —
the token after the unrecognized flag is scanned normally, even though a
recognized unary flag in the same position (such as `-o`) would have
consumed it as its argument. -/
theorem c4_unrecognized_skips_token_alone (rest : EStr) :
    rustflagsAll (strBytes "-x" ++ 31 :: rest) = rustflagsAll rest ∧
    rustflagsAll (strBytes "--bogus" ++ 31 :: rest) = rustflagsAll rest := by
  constructor
  · exact rustflagsAll_cons_shift (strBytes "-x" ++ [31]) rest (parseNext_head_short_x rest)
  · exact rustflagsAll_cons_shift (strBytes "--bogus" ++ [31]) rest
      (parseNext_head_long_bogus rest)

/-- C8 counterexample: on `"--emit" "asm,mir" "-h"` the argument token
`asm,mir` occupies bytes 7..14 and is followed by the delimiter at byte 14,
so the cursor stands at 15 when the repeatable decoder reports remaining
length 3; the code rewinds to 11 (it tests the byte before the old cursor,
byte 14, a delimiter), while the claim's rule — decrement once more exactly
when the byte immediately preceding the new cursor position `15 - 3` is the
delimiter — yields 12, since byte 11 is `'m'`, not the delimiter. -/
theorem c8_rewind_checks_old_position :
    extract (joinTokens [strBytes "--emit", strBytes "asm,mir", strBytes "-h"]) 7 14 =
      strBytes "asm,mir" ∧
    (joinTokens [strBytes "--emit", strBytes "asm,mir", strBytes "-h"]).get? 14 = some 31 ∧
    (parseNext (initSt (joinTokens [strBytes "--emit", strBytes "asm,mir", strBytes "-h"]))).2.pos
      = 11 ∧
    (parseNext
        (initSt (joinTokens [strBytes "--emit", strBytes "asm,mir", strBytes "-h"]))).2.repeatSt
      = some (RepFn.emitFn, 3) ∧
    claimRewindPos (joinTokens [strBytes "--emit", strBytes "asm,mir", strBytes "-h"]) 15 3 =
      12 := by
  refine ⟨by decide, by decide, by decide, by decide, by decide⟩

/-- C9 counterexample: `"65536"` is numeric text, but the edition decoder
parses into a `u16` and therefore fails on it, leaving the flag
unrecognized — refuting "decoding succeeds iff the argument is numeric
text". -/
theorem c9_numeric_text_can_fail :
    numericText "65536" = true ∧ opt_edition (strBytes "65536") = none := by
  refine ⟨by decide, by decide⟩

/-- C9 (amended): the edition decoder succeeds exactly on valid text whose
characters form an optional leading `'+'` followed by one or more ASCII
decimal digits denoting a value of at most 65535 (`u16` numeric text), and
the produced flag carries that value; numeric text above 65535, a lone or
repeated sign, a negative sign, or invalid text all fail. -/
theorem c9_edition_parses_u16 (t : EStr) :
    opt_edition t = (toStr t).bind (fun txt => (u16Spec txt).map Flag.edition) := by
  unfold opt_edition
  match toStr t with
  | none => rfl
  | some txt =>
    show (parseU16 txt).map Flag.edition = (u16Spec txt).map Flag.edition
    rw [parseU16_eq_u16Spec]

/-- C7: rendering a link flag whose kind is the default (`dylib`) with no
modifiers produces exactly the two raw tokens `-l`, `NAME`, while rendering
the same flag with the single enabling `bundle` modifier produces `-l`,
`dylib:+bundle=NAME` — the kind is spelled out together with the modifier
segment and `=` even though it equals the default. -/
theorem c7_link_default_suppression (n : String) :
    renderFlag (Flag.link LinkKind.dylib [] n none) = [strBytes "-l", strBytes n] ∧
    renderFlag (Flag.link LinkKind.dylib [(LinkModSign.enable, LinkModifier.bundle)] n none) =
      [strBytes "-l", strBytes ("dylib:+bundle=" ++ n)] := by
  constructor
  · show [strBytes "-l", renderLinkArg LinkKind.dylib [] n none] = [strBytes "-l", strBytes n]
    unfold renderLinkArg
    dsimp only
    rw [if_neg (show ¬(LinkKind.dylib ≠ linkKindDefault ∨
      ([] : List (LinkModSign × LinkModifier)) ≠ []) from by simp [linkKindDefault])]
    rw [show renderModifiers [] = [] from rfl]
    simp
  · show [strBytes "-l",
        renderLinkArg LinkKind.dylib [(LinkModSign.enable, LinkModifier.bundle)] n none] =
      [strBytes "-l", strBytes ("dylib:+bundle=" ++ n)]
    unfold renderLinkArg
    dsimp only
    rw [if_pos (show LinkKind.dylib ≠ linkKindDefault ∨
      ([(LinkModSign.enable, LinkModifier.bundle)] : List (LinkModSign × LinkModifier)) ≠ []
      from Or.inr (by simp))]
    rw [show renderModifiers [(LinkModSign.enable, LinkModifier.bundle)] =
      strBytes ":+bundle" from by decide]
    rw [if_pos (show strBytes (linkKindStr LinkKind.dylib) ++ strBytes ":+bundle" ≠ []
      from by decide)]
    rw [strBytes_append]
    rw [show strBytes "dylib:+bundle=" = (strBytes (linkKindStr LinkKind.dylib) ++
      strBytes ":+bundle") ++ strBytes "=" from by decide]
    simp

/-- C2: for every input byte sequence — including sequences that are not
valid Unicode and sequences containing no 0x1F delimiter — iterating the
decoder to exhaustion never fails fatally: no boundary assertion fires, no
slice operation is out of range, `first_char().unwrap()` never panics, the
repeat rewind never underflows, and every call terminates within the
iteration budget, so the panic-instrumented decoder returns `ok` with the
same finite (possibly empty) flag list as the total decoder. -/
theorem c2_decode_never_fails (encoded : EStr) :
    rustflagsAllE encoded = Except.ok (rustflagsAll encoded) := by
  unfold rustflagsAllE rustflagsAll
  exact parseAllAuxE_agree (encoded.length + 1) (initSt encoded)
    (inv_of_parts (Nat.zero_le _) (boundaryOK_zero _) rfl)
    (show encoded.length - 0 < encoded.length + 1 from by omega)

end Rustflags

